import Mathlib

/-!
# Backtracking constraint-satisfaction engine (`csp.cpp`)

A shallow embedding of the template class `CSP<T>` of `csp.cpp`: the naive
backtracking solver `SolveDFS`, the forward-checking solver `SolveFC`, the
domain snapshot pair `SaveState` / `LoadState`, and the two ordering
heuristics `MinRemVal` and `MaxDegreeHeuristic`.

The collaborators `Variable`, `Constraint` and the constraint graph are
declared in headers that are not part of the source tree; they are modelled
here from the capability contract of the specification.  A variable is
identified by its position in `GetAllVariables()`, and the mutable state of
all variables is a map from positions to `Variable` records.

The recursion of the solvers is bounded by a fuel argument; `none` stands for
"out of fuel", and the termination theorems give the fuel that suffices.  The
engine carries a log of invocations and value attempts, which only the
theorems about single invocations read.

Two conditions on an instance recur in the theorems.  `Sized`: every domain
size is below `INT_MAX`, the sentinel with which `MinRemVal` starts its scan.
`ConstraintGraph.Scoped`: every constraint ranges over a non-empty set of
variables of the graph, so that `GetConstraints` reaches it.
-/

namespace CSP

/-! ## Collaborators -/

/-- Modelled from the spec: the value type of `Variable` (header absent). -/
abbrev Value := Int

/-- Modelled from the spec: a `Variable` (header absent) is a current domain,
an assigned flag and the current value.  The domain, a `std::set`, is kept as
a list that is read as a set. -/
structure Variable where
  domain : List Value
  is_assigned : Bool
  assigned_value : Value
deriving DecidableEq, Repr, Inhabited

/-- Modelled from the spec: the value order of the parameterless
`Variable::Assign()` (header absent), which has the variable
"assign itself a value from its remaining domain". -/
structure ValueOrder where
  choose : List Value → Value
  choose_mem : ∀ d : List Value, d ≠ [] → choose d ∈ d

/-- The conventional order: the next still-available value, the first
element of the set. -/
def firstValue : ValueOrder where
  choose := fun d => d.headD 0
  choose_mem := by
    intro d hd
    cases d with
    | nil => exact absurd rfl hd
    | cons a t => simp

namespace Variable

/-- Modelled from the spec: `GetDomain()`. -/
def GetDomain (x : Variable) : List Value := x.domain

/-- Modelled from the spec: `SizeDomain()`, an `int`. -/
def SizeDomain (x : Variable) : Int := (x.domain.length : Int)

/-- Modelled from the spec: `IsAssigned()`. -/
def IsAssigned (x : Variable) : Bool := x.is_assigned

/-- Modelled from the spec: `IsImpossible()`, the domain is empty while the
variable is unassigned. -/
def IsImpossible (x : Variable) : Bool := !x.is_assigned && x.domain.isEmpty

/-- Modelled from the spec: `Assign()`, pick a value of the remaining domain. -/
def Assign (ord : ValueOrder) (x : Variable) : Variable :=
  { x with is_assigned := true, assigned_value := ord.choose x.domain }

/-- Modelled from the spec: `Assign(d)`, assign a specific value. -/
def AssignValue (x : Variable) (d : Value) : Variable :=
  { x with is_assigned := true, assigned_value := d }

/-- Modelled from the spec: `UnAssign()`. -/
def UnAssign (x : Variable) : Variable := { x with is_assigned := false }

/-- Modelled from the spec: `GetValue()`. -/
def GetValue (x : Variable) : Value := x.assigned_value

/-- Modelled from the spec: `RemoveValue(d)`, erase `d` from the set. -/
def RemoveValue (x : Variable) (d : Value) : Variable :=
  { x with domain := x.domain.filter (fun a => a != d) }

/-- Modelled from the spec: `SetDomain(vals)`, replace the domain wholesale. -/
def SetDomain (x : Variable) (vals : List Value) : Variable :=
  { x with domain := vals }

/-- The current value of a variable as a constraint sees it: `none` while the
variable is unassigned. -/
def current (x : Variable) : Option Value :=
  if x.is_assigned then some x.assigned_value else none

end Variable

/-- The mutable state of all variables, by position in `GetAllVariables()`. -/
abbrev Vars := Nat → Variable

/-- Replace the record of variable `v`. -/
def setVar (s : Vars) (v : Nat) (x : Variable) : Vars :=
  fun u => if u = v then x else s u

/-- Modelled from the spec: a `Constraint` (header absent) is a relation over
a fixed scope of variables, evaluated on the current values of its scope. -/
structure Constraint where
  scope : List Nat
  rel : List (Option Value) → Bool

/-- Modelled from the spec: `Constraint::Satisfiable()` under the current
state of the scoped variables. -/
def Constraint.Satisfiable (c : Constraint) (s : Vars) : Bool :=
  c.rel (c.scope.map (fun v => (s v).current))

/-- Modelled from the spec: the constraint graph `T` (header absent) is a
fixed number of variables and a fixed list of constraints. -/
structure ConstraintGraph where
  nvars : Nat
  constraints : List Constraint

namespace ConstraintGraph

/-- Modelled from the spec: `GetAllVariables()`, the enumeration. -/
def GetAllVariables (cg : ConstraintGraph) : List Nat := List.range cg.nvars

/-- Modelled from the spec: `AllVariablesAssigned()`. -/
def AllVariablesAssigned (cg : ConstraintGraph) (s : Vars) : Bool :=
  cg.GetAllVariables.all (fun v => (s v).IsAssigned)

/-- Modelled from the spec: `GetConstraints(x)`, the constraints touching `x`. -/
def GetConstraints (cg : ConstraintGraph) (x : Nat) : List Constraint :=
  cg.constraints.filter (fun c => decide (x ∈ c.scope))

/-- Modelled from the spec: `GetConnectingConstraints(x, y)`. -/
def GetConnectingConstraints (cg : ConstraintGraph) (x y : Nat) : List Constraint :=
  cg.constraints.filter (fun c => decide (x ∈ c.scope) && decide (y ∈ c.scope))

/-- Modelled from the spec: `GetNeighbors(x)`, the other variables that share
a constraint with `x`. -/
def GetNeighbors (cg : ConstraintGraph) (x : Nat) : List Nat :=
  cg.GetAllVariables.filter (fun y =>
    decide (y ≠ x) && cg.constraints.any (fun c => decide (x ∈ c.scope) && decide (y ∈ c.scope)))

end ConstraintGraph

/-! ## The engine -/

/-- Instrumentation: the invocations and the value attempts of the solvers. -/
inductive Event where
  | call (level : Nat)
  | attempt (level : Nat) (var : Nat) (value : Value)
deriving DecidableEq, Repr

/-- The engine `CSP<T>`: the variables of the bound graph, the three counters
and the instrumentation log (newest event first). -/
structure Engine where
  vars : Vars
  solution_counter : Nat
  recursive_call_counter : Nat
  iteration_counter : Nat
  log : List Event

/-- The constructor `CSP(T& cg)`: all counters are zero. -/
def Engine.init (s : Vars) : Engine :=
  { vars := s, solution_counter := 0, recursive_call_counter := 0,
    iteration_counter := 0, log := [] }

def INT_MAX : Int := 2147483647

def INT_MIN : Int := -2147483648

/-- The `AssignmentIsConsistent` method: every constraint touching `p_var`
is satisfiable. -/
def AssignmentIsConsistent (cg : ConstraintGraph) (s : Vars) (p_var : Nat) : Bool :=
  (cg.GetConstraints p_var).all (fun c => c.Satisfiable s)

/-- One pass of the loop of `MinRemVal` over `iter`. -/
def minRemValStep (s : Vars) (acc : Nat × Int) (iter : Nat) : Nat × Int :=
  if !(s iter).IsAssigned then
    let currSize := (s iter).SizeDomain
    if currSize < acc.2 then (iter, currSize) else acc
  else acc

/-- The `MinRemVal` method.  `min` starts at the first variable. -/
def MinRemVal (cg : ConstraintGraph) (s : Vars) : Nat :=
  (cg.GetAllVariables.foldl (minRemValStep s) (cg.GetAllVariables.headD 0, INT_MAX)).1

/-- One pass of the loop of `MaxDegreeHeuristic` over `begin`. -/
def maxDegreeStep (cg : ConstraintGraph) (acc : Option Nat × Nat) (begin_ : Nat) :
    Option Nat × Nat :=
  let currDegree := (cg.GetNeighbors begin_).length % 2 ^ 32
  if acc.2 < currDegree then (some begin_, currDegree) else acc

/-- The `MaxDegreeHeuristic` method.  `unsigned maxDegree = INT_MIN` converts
the `int` to 32-bit unsigned. -/
def MaxDegreeHeuristic (cg : ConstraintGraph) : Option Nat :=
  (cg.GetAllVariables.foldl (maxDegreeStep cg) (none, (INT_MIN % 2 ^ 32).toNat)).1

/-- The `SaveState` method: the domains of all unassigned variables but `x`. -/
def SaveState (cg : ConstraintGraph) (s : Vars) (x : Nat) : List (Nat × List Value) :=
  cg.GetAllVariables.filterMap (fun v =>
    if !(s v).IsAssigned && decide (v ≠ x) then some (v, (s v).GetDomain) else none)

/-- The `LoadState` method: put every saved domain back. -/
def LoadState (s : Vars) (saved : List (Nat × List Value)) : Vars :=
  saved.foldl (fun t p => setVar t p.1 ((t p.1).SetDomain p.2)) s

/-- The innermost loop of `ForwardChecking`: try every value `d` of the copied
`domain` on neighbour `n` against constraint `c`. -/
def fcValues (c : Constraint) (n : Nat) : List Value → Vars → Vars
  | [], s => s
  | d :: rest, s =>
    let s1 := setVar s n ((s n).AssignValue d)
    let s2 := if !(c.Satisfiable s1) then setVar s1 n ((s1 n).RemoveValue d) else s1
    let s3 := setVar s2 n ((s2 n).UnAssign)
    fcValues c n rest s3

/-- The loop of `ForwardChecking` over the constraints connecting `x` and `n`;
`false` is the early `return false`. -/
def fcConstraints (n : Nat) : List Constraint → Vars → Bool × Vars
  | [], s => (true, s)
  | c :: rest, s =>
    let domain := (s n).GetDomain
    let s1 := fcValues c n domain s
    if (s1 n).SizeDomain = 0 ∧ (s1 n).IsImpossible then (false, s1)
    else fcConstraints n rest s1

/-- The loop of `ForwardChecking` over the neighbours of `x`. -/
def fcNeighbors (cg : ConstraintGraph) (x : Nat) : List Nat → Vars → Bool × Vars
  | [], s => (true, s)
  | n :: rest, s =>
    if (s n).IsAssigned then fcNeighbors cg x rest s
    else
      match fcConstraints n (cg.GetConnectingConstraints x n) s with
      | (false, s1) => (false, s1)
      | (true, s1) => fcNeighbors cg x rest s1

/-- The `ForwardChecking` method. -/
def ForwardChecking (cg : ConstraintGraph) (s : Vars) (x : Nat) : Bool × Vars :=
  fcNeighbors cg x (cg.GetNeighbors x) s

/-- Line 29 of `SolveDFS` (75 of `SolveFC`): count the invocation. -/
def enter (level : Nat) (e : Engine) : Engine :=
  { e with recursive_call_counter := e.recursive_call_counter + 1,
           log := Event.call level :: e.log }

/-- Lines 42 and 43 of `SolveDFS` (88 and 89 of `SolveFC`): count the
iteration and let the variable assign itself a value. -/
def attempt (ord : ValueOrder) (level var_to_assign : Nat) (e : Engine) : Engine :=
  let x := (e.vars var_to_assign).Assign ord
  { e with iteration_counter := e.iteration_counter + 1,
           vars := setVar e.vars var_to_assign x,
           log := Event.attempt level var_to_assign x.GetValue :: e.log }

/-- Lines 53 to 62 of `SolveDFS`, after a failed attempt: strip the value,
unassign, and give up with the snapshot restored once nothing is left.
The flag is `true` when the invocation returns `false` here. -/
def retireDFS (var_to_assign : Nat) (domain : List Value) (e : Engine) :
    Engine × Bool :=
  let x := e.vars var_to_assign
  let s1 := setVar e.vars var_to_assign (x.RemoveValue x.GetValue)
  let s2 := setVar s1 var_to_assign ((s1 var_to_assign).UnAssign)
  if (s2 var_to_assign).IsImpossible then
    ({ e with vars := setVar s2 var_to_assign ((s2 var_to_assign).SetDomain domain) }, true)
  else ({ e with vars := s2 }, false)

/-- Lines 45 to 51 of `SolveDFS`: descend into `self`, the nested invocation
`SolveDFS(level + 1)`, when the assignment is consistent.  A result of `false`
falls through to line 53. -/
def descendDFS (cg : ConstraintGraph) (self : Engine → Option (Bool × Engine))
    (var_to_assign : Nat) (e : Engine) : Option (Bool × Engine) :=
  if AssignmentIsConsistent cg e.vars var_to_assign then self e
  else some (false, e)

/-- The value loop of `SolveDFS` (lines 40 to 65); `self` is the nested
invocation `SolveDFS(level + 1)`, `i` the loop index. -/
def loopDFS (ord : ValueOrder) (cg : ConstraintGraph)
    (self : Engine → Option (Bool × Engine)) (level var_to_assign : Nat)
    (domain : List Value) : Nat → Int → Engine → Option (Bool × Engine)
  | 0, _, _ => none
  | fuel + 1, i, e =>
    if i < (e.vars var_to_assign).SizeDomain then
      match descendDFS cg self var_to_assign (attempt ord level var_to_assign e) with
      | none => none
      | some (true, e3) => some (true, e3)
      | some (false, e3) =>
        match retireDFS var_to_assign domain e3 with
        | (e4, true) => some (false, e4)
        | (e4, false) => loopDFS ord cg self level var_to_assign domain fuel (i - 1 + 1) e4
    else some (false, e)

/-- The `SolveDFS` method.  `none` is: out of fuel. -/
def SolveDFS (ord : ValueOrder) (cg : ConstraintGraph) :
    Nat → Nat → Engine → Option (Bool × Engine)
  | 0, _, _ => none
  | fuel + 1, level, e =>
    let e1 := enter level e
    if cg.AllVariablesAssigned e1.vars then
      some (true, { e1 with solution_counter := e1.solution_counter + 1 })
    else
      let var_to_assign := MinRemVal cg e1.vars
      let domain := (e1.vars var_to_assign).GetDomain
      loopDFS ord cg (SolveDFS ord cg fuel (level + 1)) level var_to_assign domain fuel 0 e1

/-- Lines 99 to 108 of `SolveFC`, after a failed attempt: reload the
snapshot, strip the value, unassign, and give up once nothing is left. -/
def retireFC (var_to_assign : Nat) (state : List (Nat × List Value)) (e : Engine) :
    Engine × Bool :=
  let s0 := LoadState e.vars state
  let x := s0 var_to_assign
  let s1 := setVar s0 var_to_assign (x.RemoveValue x.GetValue)
  let s2 := setVar s1 var_to_assign ((s1 var_to_assign).UnAssign)
  ({ e with vars := s2 }, (s2 var_to_assign).IsImpossible)

/-- Lines 91 to 97 of `SolveFC`: descend into `self`, the nested invocation
`SolveFC(level + 1)`, when the assignment is consistent and forward checking
succeeds.  A result of `false` falls through to line 99. -/
def descendFC (cg : ConstraintGraph) (self : Engine → Option (Bool × Engine))
    (var_to_assign : Nat) (e : Engine) : Option (Bool × Engine) :=
  if AssignmentIsConsistent cg e.vars var_to_assign then
    match ForwardChecking cg e.vars var_to_assign with
    | (true, s) => self { e with vars := s }
    | (false, s) => some (false, { e with vars := s })
  else some (false, e)

/-- The value loop of `SolveFC` (lines 86 to 110); `self` is the nested
invocation, `i` the loop index. -/
def loopFC (ord : ValueOrder) (cg : ConstraintGraph)
    (self : Engine → Option (Bool × Engine)) (level var_to_assign : Nat)
    (state : List (Nat × List Value)) : Nat → Int → Engine → Option (Bool × Engine)
  | 0, _, _ => none
  | fuel + 1, i, e =>
    if i < (e.vars var_to_assign).SizeDomain then
      match descendFC cg self var_to_assign (attempt ord level var_to_assign e) with
      | none => none
      | some (true, e3) => some (true, e3)
      | some (false, e3) =>
        match retireFC var_to_assign state e3 with
        | (e4, true) => some (false, e4)
        | (e4, false) => loopFC ord cg self level var_to_assign state fuel (i - 1 + 1) e4
    else some (false, e)

/-- The `SolveFC` method.  `none` is: out of fuel. -/
def SolveFC (ord : ValueOrder) (cg : ConstraintGraph) :
    Nat → Nat → Engine → Option (Bool × Engine)
  | 0, _, _ => none
  | fuel + 1, level, e =>
    let e1 := enter level e
    if cg.AllVariablesAssigned e1.vars then
      some (true, { e1 with solution_counter := e1.solution_counter + 1 })
    else
      let var_to_assign := MinRemVal cg e1.vars
      let state := SaveState cg e1.vars var_to_assign
      loopFC ord cg (SolveFC ord cg fuel (level + 1)) level var_to_assign state fuel 0 e1

/-! ## Instances of the scenarios -/

/-- The binary constraint `a ≠ b`, permissive while either side is unassigned. -/
def notEqual (a b : Nat) : Constraint where
  scope := [a, b]
  rel := fun vals =>
    match vals with
    | [some x, some y] => x != y
    | _ => true

/-- Every variable unassigned, with the domain `dom v`. -/
def freshVars (dom : Nat → List Value) : Vars :=
  fun v => { domain := dom v, is_assigned := false, assigned_value := 0 }

/-- The triangle `A ≠ B`, `B ≠ C`, `A ≠ C`. -/
def triangle : ConstraintGraph where
  nvars := 3
  constraints := [notEqual 0 1, notEqual 1 2, notEqual 0 2]

/-- Three variables: the first assigned, the second with two values left and
the third with one. -/
def mrvSample : Vars := fun v =>
  if v = 0 then { domain := [1, 2, 3], is_assigned := true, assigned_value := 1 }
  else if v = 1 then { domain := [2, 3], is_assigned := false, assigned_value := 0 }
  else { domain := [3], is_assigned := false, assigned_value := 0 }

/-! ## Well-formedness of an instance -/

/-- Every domain size is an `int` below the `INT_MAX` sentinel of `MinRemVal`. -/
def Sized (n : Nat) (s : Vars) : Prop :=
  ∀ v < n, (s v).is_assigned = false → (s v).SizeDomain < INT_MAX

/-- Every constraint ranges over a non-empty set of variables of the graph. -/
def ConstraintGraph.Scoped (cg : ConstraintGraph) : Prop :=
  ∀ c ∈ cg.constraints, c.scope ≠ [] ∧ ∀ v ∈ c.scope, v < cg.nvars

/-! ## Relations between the state before and after an invocation -/

/-- Variables that were assigned, and positions outside the graph, keep their
whole record. -/
def Frame (n : Nat) (s t : Vars) : Prop :=
  ∀ v, ((s v).is_assigned = true ∨ n ≤ v) → t v = s v

/-- The state `t` is `s` again, up to the stale value of unassigned variables. -/
def Restored (n : Nat) (s t : Vars) : Prop :=
  Frame n s t ∧
    ∀ v, (s v).is_assigned = false →
      (t v).is_assigned = false ∧ (t v).domain = (s v).domain

/-- The state `t` completes `s`: every variable of the graph is assigned, and a
variable that was unassigned in `s` took a value of its domain in `s`. -/
def Completed (n : Nat) (s t : Vars) : Prop :=
  Frame n s t ∧
    ∀ v < n, (t v).is_assigned = true ∧
      ((s v).is_assigned = false →
        (t v).assigned_value ∈ (s v).domain ∧ (t v).assigned_value ∈ (t v).domain ∧
        ∀ a ∈ (t v).domain, a ∈ (s v).domain)

/-- What an invocation of `SolveDFS` that returns `r` leaves behind. -/
def PostDFS (n : Nat) (s : Vars) (r : Bool) (t : Vars) : Prop :=
  (r = false → Restored n s t) ∧ (r = true → Completed n s t)

/-- Every constraint whose whole scope is assigned is satisfied. -/
def Checked (cg : ConstraintGraph) (s : Vars) : Prop :=
  ∀ c ∈ cg.constraints, (∀ v ∈ c.scope, (s v).is_assigned = true) → c.Satisfiable s = true

/-- The variables of the graph that are still unassigned. -/
def unassigned (n : Nat) (s : Vars) : Finset Nat :=
  (Finset.range n).filter (fun v => (s v).is_assigned = false)

/-- No unassigned variable has more than `D` values left. -/
def Bounded (n D : Nat) (s : Vars) : Prop :=
  ∀ v < n, (s v).is_assigned = false → (s v).domain.length ≤ D

/-- The largest domain size among the variables of the graph. -/
def maxDomain (n : Nat) (s : Vars) : Nat :=
  (Finset.range n).sup (fun v => (s v).domain.length)

/-- Modelled from the spec: a constraint evaluates partial assignments
permissively when it reports satisfiable on every partial assignment that some
satisfying assignment of its whole scope extends. -/
def Constraint.Permissive (c : Constraint) : Prop :=
  ∀ s t : Vars, (∀ v ∈ c.scope, (t v).is_assigned = true) →
    (∀ v ∈ c.scope, (s v).is_assigned = true → (t v).assigned_value = (s v).assigned_value) →
    c.Satisfiable t = true → c.Satisfiable s = true

/-- The state in which every variable `v` is assigned the value `σ v`. -/
def total (σ : Nat → Value) : Vars :=
  fun v => { domain := [σ v], is_assigned := true, assigned_value := σ v }

/-- The total assignment `σ` takes each variable's value from its own domain in
`s` and satisfies every constraint of the graph. -/
def IsSolution (cg : ConstraintGraph) (s : Vars) (σ : Nat → Value) : Prop :=
  (∀ v < cg.nvars, σ v ∈ (s v).domain) ∧ ∀ c ∈ cg.constraints, c.Satisfiable (total σ) = true

/-- The partial assignment of `s` can still grow into `σ`: assigned variables
carry the value of `σ`, unassigned ones still have it in their domain. -/
def Compatible (n : Nat) (σ : Nat → Value) (s : Vars) : Prop :=
  ∀ v < n, ((s v).is_assigned = true → (s v).assigned_value = σ v) ∧
    ((s v).is_assigned = false → σ v ∈ (s v).domain)

/-- The state in which `n` is tentatively assigned `d`, as the innermost loop
of `ForwardChecking` presents it to a constraint. -/
def tentative (s : Vars) (n : Nat) (d : Value) : Vars :=
  setVar s n ((s n).AssignValue d)

/-- The value `d` of `n` passes every constraint of `cs`. -/
def passes (cs : List Constraint) (s : Vars) (n : Nat) (d : Value) : Bool :=
  cs.all (fun c => c.Satisfiable (tentative s n d))

/-- What an invocation of `SolveFC` that returns `r` leaves behind: after a
failure only the selected variable has lost its domain. -/
def PostFC (cg : ConstraintGraph) (s : Vars) (r : Bool) (t : Vars) : Prop :=
  (r = false → Frame cg.nvars s t ∧
    ∀ v, (s v).is_assigned = false → (t v).is_assigned = false ∧
      (t v).domain = if v = MinRemVal cg s then [] else (s v).domain) ∧
  (r = true → Completed cg.nvars s t)

/-- The state `t` has the assignment of `s`; the domains of unassigned
variables may differ. -/
def Scratched (n : Nat) (s t : Vars) : Prop :=
  Frame n s t ∧ ∀ v, (s v).is_assigned = false → (t v).is_assigned = false

/-- The state `t` is `s` again at every variable other than `v`, up to the
stale value of unassigned variables. -/
def RestoredBut (n v : Nat) (s t : Vars) : Prop :=
  ∀ u, u ≠ v →
    (((s u).is_assigned = true ∨ n ≤ u) → t u = s u) ∧
    ((s u).is_assigned = false → (t u).is_assigned = false ∧ (t u).domain = (s u).domain)

/-- The level of the invocation that logged an event. -/
def Event.level : Event → Nat
  | Event.call l => l
  | Event.attempt l _ _ => l

/-- The value attempts that the invocation at `level` logged among `evs`, as
pairs of variable and value. -/
def attemptsAt (level : Nat) (evs : List Event) : List (Nat × Value) :=
  evs.filterMap (fun ev =>
    match ev with
    | Event.attempt l v a => if l = level then some (v, a) else none
    | Event.call _ => none)

/-- During the step from `e` to `t` the log grew by events of level `L` or
deeper. -/
def LogsFrom (L : Nat) (e t : Engine) : Prop :=
  ∃ evs, t.log = evs ++ e.log ∧ ∀ ev ∈ evs, L ≤ ev.level

/-- The attempts of one invocation at `level` on the variable `v`, whose domain
was `dom` when it was selected: the events `evs` that the invocation added to
the log hold, at this level, pairwise distinct values of `dom` for `v`. -/
def DistinctAttempts (level v : Nat) (dom : List Value) (e t : Engine) : Prop :=
  ∃ (evs : List Event) (tried : List Value), t.log = evs ++ e.log ∧
    (∀ ev ∈ evs, level ≤ ev.level) ∧
    attemptsAt level evs = tried.map (fun a => (v, a)) ∧ tried.Nodup ∧
    (∀ a ∈ tried, a ∈ dom) ∧ tried.length ≤ dom.length

/-- A map-colouring instance: `V0` borders `V1`, `V2` and `V3`, and `V2`
borders `V3`. -/
def coloring4 : ConstraintGraph where
  nvars := 4
  constraints := [notEqual 0 1, notEqual 0 2, notEqual 0 3, notEqual 2 3]

/-- The colours of `coloring4`: three for `V0`, one for `V1`, two for the rest. -/
def coloring4Domains : Nat → List Value :=
  fun v => if v = 0 then [1, 2, 3] else if v = 1 then [1] else [1, 2]

/-- The binary constraint `a = b`, permissive while either side is unassigned. -/
def equal (a b : Nat) : Constraint where
  scope := [a, b]
  rel := fun vals =>
    match vals with
    | [some x, some y] => x == y
    | _ => true

/-- The unary constraint `a > k`, permissive while `a` is unassigned. -/
def greaterThan (a : Nat) (k : Value) : Constraint where
  scope := [a]
  rel := fun vals =>
    match vals with
    | [some x] => decide (k < x)
    | _ => true

/-- Three variables: `V0 = V2`, and `V1 > 5`. -/
def chain3 : ConstraintGraph where
  nvars := 3
  constraints := [equal 0 2, greaterThan 1 5]

/-- The domains of `chain3`: one value for `V0`, two for `V1` and `V2`. -/
def chain3Domains : Nat → List Value :=
  fun v => if v = 0 then [1] else [1, 2]

/-- Assigning `b` to `w` in `s` is consistent: every constraint touching `w`
is then satisfiable. -/
def consistentAt (cg : ConstraintGraph) (s : Vars) (w : Nat) (b : Value) : Bool :=
  AssignmentIsConsistent cg (tentative s w b) w

/-- The states `s` and `t` have the same domains and the same assignment. -/
def Agree (s t : Vars) : Prop :=
  ∀ u, (s u).domain = (t u).domain ∧ (s u).current = (t u).current

/-- Two variables with `V0 ≠ V1`. -/
def pair : ConstraintGraph where
  nvars := 2
  constraints := [notEqual 0 1]

/-- The `SolveARC` method: a placeholder whose local arithmetic on the
32-bit `unsigned a` touches nothing of the engine. -/
def SolveARC (_level : Nat) (e : Engine) : Bool × Engine :=
  let level := 0
  let a := level
  let _a := (a + a) % 2 ^ 32
  (false, e)

/-- The `CheckArcConsistency` method: `return false`. -/
def CheckArcConsistency (_x : Nat) (e : Engine) : Bool × Engine :=
  (false, e)

/-- Every variable assigned the value `1`, its only value. -/
def allOnes : Vars :=
  fun _ => { domain := [1], is_assigned := true, assigned_value := 1 }

/-- One variable, no constraint. -/
def single : ConstraintGraph where
  nvars := 1
  constraints := []

/-- Two independent variables, no constraint. -/
def independent : ConstraintGraph where
  nvars := 2
  constraints := []

/-- During the step from `e` to `t` the log grew by events of level `H` or
shallower. -/
def LogsUpTo (H : Nat) (e t : Engine) : Prop :=
  ∃ evs, t.log = evs ++ e.log ∧ ∀ ev ∈ evs, ev.level ≤ H

/-! ## The solvers with the preconditions of the capabilities checked -/

/-- A use of a capability outside its precondition. -/
inductive Fault where
  | emptyVariableList
  | nothingToSelect
  | selectedAssigned
  | assignAssigned
  | assignEmpty
  | assignOutside
deriving DecidableEq, Repr

/-- Every domain is a set: the list of an unassigned variable of the graph
holds no value twice. -/
def NodupDomains (n : Nat) (s : Vars) : Prop :=
  ∀ v < n, (s v).is_assigned = false → (s v).domain.Nodup

/-- The `MinRemVal` method with its uses checked: `*iter` on an empty list,
a call with nothing left to select, and the selection of an assigned
variable are faults. -/
def checkedMinRemVal (cg : ConstraintGraph) (s : Vars) : Except Fault Nat :=
  if cg.GetAllVariables.isEmpty then Except.error Fault.emptyVariableList
  else if cg.AllVariablesAssigned s then Except.error Fault.nothingToSelect
  else if (s (MinRemVal cg s)).IsAssigned then Except.error Fault.selectedAssigned
  else Except.ok (MinRemVal cg s)

/-- Lines 42 and 43 of `SolveDFS` (88 and 89 of `SolveFC`) with `Assign()`
checked: the variable is unassigned and has a value left. -/
def checkedAttempt (ord : ValueOrder) (level var_to_assign : Nat) (e : Engine) :
    Except Fault Engine :=
  if (e.vars var_to_assign).IsAssigned then Except.error Fault.assignAssigned
  else if (e.vars var_to_assign).GetDomain.isEmpty then Except.error Fault.assignEmpty
  else Except.ok (attempt ord level var_to_assign e)

/-- The innermost loop of `ForwardChecking` with `Assign(d)` checked: `d` is
a value of the current domain of `n`. -/
def checkedFcValues (c : Constraint) (n : Nat) : List Value → Vars → Except Fault Vars
  | [], s => Except.ok s
  | d :: rest, s =>
    if (s n).GetDomain.contains d then
      let s1 := setVar s n ((s n).AssignValue d)
      let s2 := if !(c.Satisfiable s1) then setVar s1 n ((s1 n).RemoveValue d) else s1
      let s3 := setVar s2 n ((s2 n).UnAssign)
      checkedFcValues c n rest s3
    else Except.error Fault.assignOutside

/-- The loop of `ForwardChecking` over the connecting constraints, checked. -/
def checkedFcConstraints (n : Nat) : List Constraint → Vars → Except Fault (Bool × Vars)
  | [], s => Except.ok (true, s)
  | c :: rest, s =>
    let domain := (s n).GetDomain
    match checkedFcValues c n domain s with
    | Except.error f => Except.error f
    | Except.ok s1 =>
      if (s1 n).SizeDomain = 0 ∧ (s1 n).IsImpossible then Except.ok (false, s1)
      else checkedFcConstraints n rest s1

/-- The loop of `ForwardChecking` over the neighbours of `x`, checked. -/
def checkedFcNeighbors (cg : ConstraintGraph) (x : Nat) :
    List Nat → Vars → Except Fault (Bool × Vars)
  | [], s => Except.ok (true, s)
  | n :: rest, s =>
    if (s n).IsAssigned then checkedFcNeighbors cg x rest s
    else
      match checkedFcConstraints n (cg.GetConnectingConstraints x n) s with
      | Except.error f => Except.error f
      | Except.ok (false, s1) => Except.ok (false, s1)
      | Except.ok (true, s1) => checkedFcNeighbors cg x rest s1

/-- The `ForwardChecking` method, checked. -/
def checkedForwardChecking (cg : ConstraintGraph) (s : Vars) (x : Nat) :
    Except Fault (Bool × Vars) :=
  checkedFcNeighbors cg x (cg.GetNeighbors x) s

/-- Lines 45 to 51 of `SolveDFS` around a checked nested invocation. -/
def checkedDescendDFS (cg : ConstraintGraph)
    (self : Engine → Option (Except Fault (Bool × Engine)))
    (var_to_assign : Nat) (e : Engine) : Option (Except Fault (Bool × Engine)) :=
  if AssignmentIsConsistent cg e.vars var_to_assign then self e
  else some (Except.ok (false, e))

/-- The value loop of `SolveDFS` with `Assign()` checked. -/
def checkedLoopDFS (ord : ValueOrder) (cg : ConstraintGraph)
    (self : Engine → Option (Except Fault (Bool × Engine))) (level var_to_assign : Nat)
    (domain : List Value) : Nat → Int → Engine → Option (Except Fault (Bool × Engine))
  | 0, _, _ => none
  | fuel + 1, i, e =>
    if i < (e.vars var_to_assign).SizeDomain then
      match checkedAttempt ord level var_to_assign e with
      | Except.error f => some (Except.error f)
      | Except.ok e2 =>
        match checkedDescendDFS cg self var_to_assign e2 with
        | none => none
        | some (Except.error f) => some (Except.error f)
        | some (Except.ok (true, e3)) => some (Except.ok (true, e3))
        | some (Except.ok (false, e3)) =>
          match retireDFS var_to_assign domain e3 with
          | (e4, true) => some (Except.ok (false, e4))
          | (e4, false) =>
            checkedLoopDFS ord cg self level var_to_assign domain fuel (i - 1 + 1) e4
    else some (Except.ok (false, e))

/-- The `SolveDFS` method with `MinRemVal` and `Assign()` checked.  `none`
is: out of fuel. -/
def checkedSolveDFS (ord : ValueOrder) (cg : ConstraintGraph) :
    Nat → Nat → Engine → Option (Except Fault (Bool × Engine))
  | 0, _, _ => none
  | fuel + 1, level, e =>
    let e1 := enter level e
    if cg.AllVariablesAssigned e1.vars then
      some (Except.ok (true, { e1 with solution_counter := e1.solution_counter + 1 }))
    else
      match checkedMinRemVal cg e1.vars with
      | Except.error f => some (Except.error f)
      | Except.ok var_to_assign =>
        let domain := (e1.vars var_to_assign).GetDomain
        checkedLoopDFS ord cg (checkedSolveDFS ord cg fuel (level + 1)) level var_to_assign
          domain fuel 0 e1

/-- Lines 91 to 97 of `SolveFC` around a checked forward check and a checked
nested invocation. -/
def checkedDescendFC (cg : ConstraintGraph)
    (self : Engine → Option (Except Fault (Bool × Engine)))
    (var_to_assign : Nat) (e : Engine) : Option (Except Fault (Bool × Engine)) :=
  if AssignmentIsConsistent cg e.vars var_to_assign then
    match checkedForwardChecking cg e.vars var_to_assign with
    | Except.error f => some (Except.error f)
    | Except.ok (true, s) => self { e with vars := s }
    | Except.ok (false, s) => some (Except.ok (false, { e with vars := s }))
  else some (Except.ok (false, e))

/-- The value loop of `SolveFC` with `Assign()` checked. -/
def checkedLoopFC (ord : ValueOrder) (cg : ConstraintGraph)
    (self : Engine → Option (Except Fault (Bool × Engine))) (level var_to_assign : Nat)
    (state : List (Nat × List Value)) :
    Nat → Int → Engine → Option (Except Fault (Bool × Engine))
  | 0, _, _ => none
  | fuel + 1, i, e =>
    if i < (e.vars var_to_assign).SizeDomain then
      match checkedAttempt ord level var_to_assign e with
      | Except.error f => some (Except.error f)
      | Except.ok e2 =>
        match checkedDescendFC cg self var_to_assign e2 with
        | none => none
        | some (Except.error f) => some (Except.error f)
        | some (Except.ok (true, e3)) => some (Except.ok (true, e3))
        | some (Except.ok (false, e3)) =>
          match retireFC var_to_assign state e3 with
          | (e4, true) => some (Except.ok (false, e4))
          | (e4, false) =>
            checkedLoopFC ord cg self level var_to_assign state fuel (i - 1 + 1) e4
    else some (Except.ok (false, e))

/-- The `SolveFC` method with `MinRemVal`, `Assign()` and the `Assign(d)` of
`ForwardChecking` checked.  `none` is: out of fuel. -/
def checkedSolveFC (ord : ValueOrder) (cg : ConstraintGraph) :
    Nat → Nat → Engine → Option (Except Fault (Bool × Engine))
  | 0, _, _ => none
  | fuel + 1, level, e =>
    let e1 := enter level e
    if cg.AllVariablesAssigned e1.vars then
      some (Except.ok (true, { e1 with solution_counter := e1.solution_counter + 1 }))
    else
      match checkedMinRemVal cg e1.vars with
      | Except.error f => some (Except.error f)
      | Except.ok var_to_assign =>
        let state := SaveState cg e1.vars var_to_assign
        checkedLoopFC ord cg (checkedSolveFC ord cg fuel (level + 1)) level var_to_assign
          state fuel 0 e1

/-- The graph without variables. -/
def emptyGraph : ConstraintGraph where
  nvars := 0
  constraints := []

end CSP

namespace CSP

/-! ## Facts about the collaborators -/

theorem headD_range (n : Nat) : (List.range n).headD 0 = 0 := by
  cases n with
  | zero => rfl
  | succ k => simp [List.range_succ_eq_map]

/-- The state of the scan of `MinRemVal` after the first `k` variables. -/
theorem minRemVal_scan (s : Vars) (k : Nat)
    (hsz : ∀ v < k, (s v).is_assigned = false → (s v).SizeDomain < INT_MAX) :
    let acc := (List.range k).foldl (minRemValStep s) (0, INT_MAX)
    ((∀ v < k, (s v).is_assigned = true) ∧ acc = (0, INT_MAX)) ∨
    (acc.1 < k ∧ (s acc.1).is_assigned = false ∧ acc.2 = (s acc.1).SizeDomain ∧
      (∀ u < k, (s u).is_assigned = false → acc.2 ≤ (s u).SizeDomain) ∧
      (∀ u < acc.1, (s u).is_assigned = false → acc.2 < (s u).SizeDomain)) := by
  induction k with
  | zero => left; simp
  | succ k ih =>
    have ih1 := ih (fun v hv => hsz v (Nat.lt_succ_of_lt hv))
    simp only [List.range_succ, List.foldl_append, List.foldl_cons, List.foldl_nil] at ih1 ⊢
    generalize (List.range k).foldl (minRemValStep s) (0, INT_MAX) = acc at ih1 ⊢
    unfold minRemValStep Variable.IsAssigned
    rcases ih1 with ⟨hall, hacc⟩ | ⟨hlt, hun, hsize, hmin, hfirst⟩
    · cases hk : (s k).is_assigned with
      | true =>
        left
        refine ⟨?_, by simpa using hacc⟩
        intro v hv
        rcases Nat.lt_succ_iff_lt_or_eq.mp hv with h | h
        · exact hall v h
        · rw [h]; exact hk
      | false =>
        right
        have hlt := hsz k (Nat.lt_succ_self k) hk
        subst hacc
        simp only [Bool.not_false, if_true, hlt]
        refine ⟨Nat.lt_succ_self k, hk, trivial, ?_, ?_⟩
        · intro u hu hua
          rcases Nat.lt_succ_iff_lt_or_eq.mp hu with h | h
          · rw [hall u h] at hua; cases hua
          · rw [h]
        · intro u hu hua
          rw [hall u hu] at hua; cases hua
    · right
      cases hk : (s k).is_assigned with
      | true =>
        simp only [Bool.not_true, Bool.false_eq_true, if_false]
        refine ⟨Nat.lt_succ_of_lt hlt, hun, hsize, ?_, hfirst⟩
        intro u hu hua
        rcases Nat.lt_succ_iff_lt_or_eq.mp hu with h | h
        · exact hmin u h hua
        · rw [h, hk] at hua; cases hua
      | false =>
        simp only [Bool.not_false, if_true]
        by_cases hc : (s k).SizeDomain < acc.2
        · simp only [hc, if_true]
          refine ⟨Nat.lt_succ_self k, hk, trivial, ?_, ?_⟩
          · intro u hu hua
            rcases Nat.lt_succ_iff_lt_or_eq.mp hu with h | h
            · exact le_trans (le_of_lt hc) (hmin u h hua)
            · rw [h]
          · intro u hu hua
            exact lt_of_lt_of_le hc (hmin u hu hua)
        · simp only [hc, if_false]
          refine ⟨Nat.lt_succ_of_lt hlt, hun, hsize, ?_, hfirst⟩
          intro u hu hua
          rcases Nat.lt_succ_iff_lt_or_eq.mp hu with h | h
          · exact hmin u h hua
          · rw [h]; exact not_lt.mp hc


/-- C9: on a non-empty variable list `MinRemVal` returns the first unassigned
variable of minimal domain size when some variable is unassigned, and the
first variable of the enumeration when none is. -/
theorem MinRemVal_selects (cg : ConstraintGraph) (s : Vars) (hn : 0 < cg.nvars)
    (hsz : Sized cg.nvars s) :
    ((∃ v < cg.nvars, (s v).is_assigned = false) →
      MinRemVal cg s < cg.nvars ∧ (s (MinRemVal cg s)).is_assigned = false ∧
      (∀ u < cg.nvars, (s u).is_assigned = false →
        (s (MinRemVal cg s)).SizeDomain ≤ (s u).SizeDomain) ∧
      (∀ u < MinRemVal cg s, (s u).is_assigned = false →
        (s (MinRemVal cg s)).SizeDomain < (s u).SizeDomain)) ∧
    ((∀ v < cg.nvars, (s v).is_assigned = true) →
      MinRemVal cg s = cg.GetAllVariables.headD 0 ∧ cg.GetAllVariables.head? = some (MinRemVal cg s)) := by
  have hscan := minRemVal_scan s cg.nvars hsz
  have hhead : cg.GetAllVariables.headD 0 = 0 := headD_range cg.nvars
  have hdef : MinRemVal cg s = ((List.range cg.nvars).foldl (minRemValStep s) (0, INT_MAX)).1 := by
    unfold MinRemVal
    rw [hhead]
    rfl
  rw [hdef]
  simp only at hscan
  constructor
  · rintro ⟨v, hv, hva⟩
    rcases hscan with ⟨hall, _⟩ | ⟨hlt, hun, hsize, hmin, hfirst⟩
    · rw [hall v hv] at hva; cases hva
    · rw [← hsize]
      exact ⟨hlt, hun, hmin, hfirst⟩
  · intro hall
    rcases hscan with ⟨_, hacc⟩ | ⟨hlt, hun, _⟩
    · rw [hacc, hhead]
      refine ⟨rfl, ?_⟩
      unfold ConstraintGraph.GetAllVariables
      cases hk : cg.nvars with
      | zero => omega
      | succ k => simp [List.range_succ_eq_map]
    · rw [hall _ hlt] at hun; cases hun

theorem MinRemVal_selects_witness :
    MinRemVal triangle mrvSample = 2 ∧
    (MinRemVal triangle mrvSample < triangle.nvars ∧
      (mrvSample (MinRemVal triangle mrvSample)).is_assigned = false ∧
      (∀ u < triangle.nvars, (mrvSample u).is_assigned = false →
        (mrvSample (MinRemVal triangle mrvSample)).SizeDomain ≤ (mrvSample u).SizeDomain) ∧
      (∀ u < MinRemVal triangle mrvSample, (mrvSample u).is_assigned = false →
        (mrvSample (MinRemVal triangle mrvSample)).SizeDomain < (mrvSample u).SizeDomain)) :=
  ⟨by decide,
   (MinRemVal_selects triangle mrvSample (by decide) (by unfold Sized; decide)).1
     ⟨1, by decide, by decide⟩⟩

/-- With at most `2 ^ 31` variables no degree exceeds the initial
`maxDegree`, so the scan of `MaxDegreeHeuristic` never leaves `nullptr`. -/
theorem MaxDegreeHeuristic_null (cg : ConstraintGraph) (hn : cg.nvars ≤ 2 ^ 31) :
    MaxDegreeHeuristic cg = none := by
  have hstep : ∀ (l : List Nat) (acc : Option Nat × Nat), acc = (none, 2 ^ 31) →
      l.foldl (maxDegreeStep cg) acc = (none, 2 ^ 31) := by
    intro l
    induction l with
    | nil => intro acc h; simpa using h
    | cons a t ih =>
      intro acc h
      simp only [List.foldl_cons]
      apply ih
      subst h
      unfold maxDegreeStep
      have hlen : (cg.GetNeighbors a).length ≤ cg.nvars := by
        unfold ConstraintGraph.GetNeighbors ConstraintGraph.GetAllVariables
        exact le_trans (List.length_filter_le _ _) (by simp)
      have : ¬ (2 ^ 31 < (cg.GetNeighbors a).length % 2 ^ 32) := by
        have := Nat.mod_le (cg.GetNeighbors a).length (2 ^ 32)
        omega
      exact if_neg this
  unfold MaxDegreeHeuristic
  rw [hstep _ _ (by decide)]

/-- C10: on the triangle, where every variable has two neighbours,
`MaxDegreeHeuristic` returns `nullptr` instead of the first variable. -/
theorem MaxDegreeHeuristic_triangle :
    triangle.nvars = 3 ∧ (triangle.GetNeighbors 0).length = 2 ∧
      MaxDegreeHeuristic triangle = none := by
  decide

/-- C6: on the triangle with domains `{1, 2}` the top-level `SolveFC(0)`
returns `false` and leaves the domain of the root variable empty, where
`SolveDFS(0)` restores all three domains. -/
theorem SolveFC_triangle_root_left_empty :
    (SolveFC firstValue triangle 6 0 (Engine.init (freshVars fun _ => [1, 2]))).map
        (fun p => (p.1, (List.range 3).map (fun v => (p.2.vars v).domain)))
      = some (false, [[], [1, 2], [1, 2]]) ∧
    (SolveDFS firstValue triangle 6 0 (Engine.init (freshVars fun _ => [1, 2]))).map
        (fun p => (p.1, (List.range 3).map (fun v => (p.2.vars v).domain)))
      = some (false, [[1, 2], [1, 2], [1, 2]]) := by
  decide!

/-! ## Facts about the state map -/

@[simp] theorem setVar_same (s : Vars) (v : Nat) (x : Variable) : setVar s v x v = x := by
  simp [setVar]

theorem setVar_ne (s : Vars) {u v : Nat} (x : Variable) (h : u ≠ v) :
    setVar s v x u = s u := by
  simp [setVar, h]

theorem setVar_apply (s : Vars) (u v : Nat) (x : Variable) :
    setVar s v x u = if u = v then x else s u := rfl

theorem Frame_refl (n : Nat) (s : Vars) : Frame n s s := fun _ _ => rfl

theorem Restored_refl (n : Nat) (s : Vars) : Restored n s s :=
  ⟨Frame_refl n s, fun _ h => ⟨h, rfl⟩⟩

/-- A constraint reads only the current values of its scope. -/
theorem Satisfiable_congr (c : Constraint) (s t : Vars)
    (h : ∀ v ∈ c.scope, (t v).current = (s v).current) :
    c.Satisfiable t = c.Satisfiable s := by
  unfold Constraint.Satisfiable
  congr 1
  exact List.map_congr_left h

theorem Restored_current {n : Nat} {s t : Vars} (h : Restored n s t) (v : Nat) :
    (t v).current = (s v).current := by
  cases hv : (s v).is_assigned with
  | true => rw [h.1 v (Or.inl hv)]
  | false =>
    have := (h.2 v hv).1
    simp [Variable.current, hv, this]

theorem AllVariablesAssigned_iff (cg : ConstraintGraph) (s : Vars) :
    cg.AllVariablesAssigned s = true ↔ ∀ v < cg.nvars, (s v).is_assigned = true := by
  simp [ConstraintGraph.AllVariablesAssigned, ConstraintGraph.GetAllVariables,
    Variable.IsAssigned]

theorem AssignmentIsConsistent_iff (cg : ConstraintGraph) (s : Vars) (v : Nat) :
    AssignmentIsConsistent cg s v = true ↔
      ∀ c ∈ cg.constraints, v ∈ c.scope → c.Satisfiable s = true := by
  simp only [AssignmentIsConsistent, ConstraintGraph.GetConstraints, List.all_eq_true,
    List.mem_filter, decide_eq_true_eq, and_imp]

/-- When something is left to assign, `MinRemVal` returns an unassigned
variable of the graph. -/
theorem MinRemVal_unassigned (cg : ConstraintGraph) (s : Vars) (hsz : Sized cg.nvars s)
    (hall : cg.AllVariablesAssigned s = false) :
    MinRemVal cg s < cg.nvars ∧ (s (MinRemVal cg s)).is_assigned = false := by
  have hex : ∃ v < cg.nvars, (s v).is_assigned = false := by
    by_contra hno
    have : cg.AllVariablesAssigned s = true := by
      rw [AllVariablesAssigned_iff]
      intro v hv
      by_contra hv2
      exact hno ⟨v, hv, by simpa using hv2⟩
    rw [this] at hall
    cases hall
  have hscan := minRemVal_scan s cg.nvars hsz
  have hdef : MinRemVal cg s = ((List.range cg.nvars).foldl (minRemValStep s) (0, INT_MAX)).1 := by
    have hhead : cg.GetAllVariables.headD 0 = 0 := headD_range cg.nvars
    unfold MinRemVal
    rw [hhead]
    rfl
  rw [hdef]
  simp only at hscan
  obtain ⟨v, hv, hva⟩ := hex
  rcases hscan with ⟨hall2, _⟩ | ⟨hlt, hun, _⟩
  · rw [hall2 v hv] at hva; cases hva
  · exact ⟨hlt, hun⟩

/-! ## Unfolding the naive solver -/

theorem attempt_vars (ord : ValueOrder) (level v : Nat) (e : Engine) :
    (attempt ord level v e).vars =
      setVar e.vars v ⟨(e.vars v).domain, true, ord.choose (e.vars v).domain⟩ := rfl

theorem retireDFS_eq (v : Nat) (domain : List Value) (e : Engine) :
    retireDFS v domain e =
      ({ e with vars := (setVar e.vars v
          ⟨if ((e.vars v).domain.filter (fun a => a != (e.vars v).assigned_value)).isEmpty
              then domain else (e.vars v).domain.filter (fun a => a != (e.vars v).assigned_value),
            false, (e.vars v).assigned_value⟩) },
        ((e.vars v).domain.filter (fun a => a != (e.vars v).assigned_value)).isEmpty) := by
  unfold retireDFS
  simp only [setVar_same, Variable.UnAssign, Variable.RemoveValue, Variable.GetValue,
    Variable.IsImpossible, Variable.SetDomain, Bool.not_false, Bool.true_and]
  cases h : ((e.vars v).domain.filter (fun a => a != (e.vars v).assigned_value)).isEmpty
  · simp only [Bool.false_eq_true, if_false]
    congr 2
    funext u
    simp only [setVar_apply]
    split <;> rfl
  · simp only [if_true]
    congr 2
    funext u
    simp only [setVar_apply]
    split <;> rfl

theorem SolveDFS_succ (ord : ValueOrder) (cg : ConstraintGraph) (fuel level : Nat) (e : Engine) :
    SolveDFS ord cg (fuel + 1) level e =
      if cg.AllVariablesAssigned e.vars then
        some (true, { enter level e with solution_counter := e.solution_counter + 1 })
      else
        loopDFS ord cg (SolveDFS ord cg fuel (level + 1)) level (MinRemVal cg e.vars)
          (e.vars (MinRemVal cg e.vars)).domain fuel 0 (enter level e) := rfl

theorem loopDFS_succ (ord : ValueOrder) (cg : ConstraintGraph)
    (self : Engine → Option (Bool × Engine)) (level v : Nat) (domain : List Value)
    (fuel : Nat) (e : Engine) :
    loopDFS ord cg self level v domain (fuel + 1) 0 e =
      if 0 < (e.vars v).SizeDomain then
        match descendDFS cg self v (attempt ord level v e) with
        | none => none
        | some (true, e3) => some (true, e3)
        | some (false, e3) =>
          match retireDFS v domain e3 with
          | (e4, true) => some (false, e4)
          | (e4, false) => loopDFS ord cg self level v domain fuel 0 e4
      else some (false, e) := rfl

/-- The ways in which one pass of the value loop of `SolveDFS` ends. -/
theorem loopDFS_cases {ord : ValueOrder} {cg : ConstraintGraph}
    {self : Engine → Option (Bool × Engine)} {level v : Nat} {domain : List Value}
    {fuel : Nat} {e : Engine} {r : Bool} {e' : Engine}
    (h : loopDFS ord cg self level v domain (fuel + 1) 0 e = some (r, e')) :
    ((e.vars v).domain = [] ∧ r = false ∧ e' = e) ∨
    ((e.vars v).domain ≠ [] ∧ ∃ e3,
      (descendDFS cg self v (attempt ord level v e) = some (true, e3) ∧ r = true ∧ e' = e3) ∨
      (descendDFS cg self v (attempt ord level v e) = some (false, e3) ∧
        (retireDFS v domain e3).2 = true ∧ r = false ∧ e' = (retireDFS v domain e3).1) ∨
      (descendDFS cg self v (attempt ord level v e) = some (false, e3) ∧
        (retireDFS v domain e3).2 = false ∧
        loopDFS ord cg self level v domain fuel 0 (retireDFS v domain e3).1 = some (r, e'))) := by
  rw [loopDFS_succ] at h
  by_cases hd : (e.vars v).domain = []
  · left
    have : ¬ (0 < (e.vars v).SizeDomain) := by simp [Variable.SizeDomain, hd]
    rw [if_neg this] at h
    simp only [Option.some.injEq, Prod.mk.injEq] at h
    exact ⟨hd, h.1.symm, h.2.symm⟩
  · right
    refine ⟨hd, ?_⟩
    have : 0 < (e.vars v).SizeDomain := by
      simp only [Variable.SizeDomain]
      have := List.length_pos.mpr hd
      omega
    rw [if_pos this] at h
    cases hdesc : descendDFS cg self v (attempt ord level v e) with
    | none => rw [hdesc] at h; cases h
    | some p =>
      obtain ⟨b, e3⟩ := p
      rw [hdesc] at h
      refine ⟨e3, ?_⟩
      cases b with
      | true =>
        simp only [Option.some.injEq, Prod.mk.injEq] at h
        exact Or.inl ⟨rfl, h.1.symm, h.2.symm⟩
      | false =>
        simp only at h
        cases hret : retireDFS v domain e3 with
        | mk e4 flag =>
          rw [hret] at h
          cases flag with
          | true =>
            simp only [Option.some.injEq, Prod.mk.injEq] at h
            exact Or.inr (Or.inl ⟨rfl, rfl, h.1.symm, h.2.symm⟩)
          | false =>
            simp only at h
            exact Or.inr (Or.inr ⟨rfl, rfl, h⟩)

/-! ## What the naive solver leaves behind -/

theorem attempt_vars_self (ord : ValueOrder) (level v : Nat) (e : Engine) :
    (attempt ord level v e).vars v = ⟨(e.vars v).domain, true, ord.choose (e.vars v).domain⟩ := by
  rw [attempt_vars, setVar_same]

theorem attempt_vars_other (ord : ValueOrder) (level : Nat) {u v : Nat} (e : Engine)
    (h : u ≠ v) : (attempt ord level v e).vars u = e.vars u := by
  rw [attempt_vars, setVar_ne _ _ h]

theorem Sized_attempt {n : Nat} (ord : ValueOrder) (level v : Nat) (e : Engine)
    (h : Sized n e.vars) : Sized n (attempt ord level v e).vars := by
  intro u hu hua
  by_cases huv : u = v
  · subst huv
    rw [attempt_vars_self] at hua
    cases hua
  · rw [attempt_vars_other ord level e huv] at hua ⊢
    exact h u hu hua

theorem descendDFS_post {cg : ConstraintGraph} {self : Engine → Option (Bool × Engine)}
    {v : Nat}
    (hself : ∀ e r e', Sized cg.nvars e.vars → self e = some (r, e') →
      PostDFS cg.nvars e.vars r e'.vars)
    {e : Engine} {r : Bool} {e' : Engine} (hsz : Sized cg.nvars e.vars)
    (h : descendDFS cg self v e = some (r, e')) : PostDFS cg.nvars e.vars r e'.vars := by
  unfold descendDFS at h
  split at h
  · exact hself e r e' hsz h
  · simp only [Option.some.injEq, Prod.mk.injEq] at h
    obtain ⟨h1, h2⟩ := h
    subst h1 h2
    exact ⟨fun _ => Restored_refl _ _, fun h => by cases h⟩

theorem filter_ne_length_le (d : List Value) (a : Value) :
    ((d.filter (fun b => b != a)).length : Int) ≤ (d.length : Int) := by
  exact_mod_cast List.length_filter_le _ d

theorem loopDFS_post {ord : ValueOrder} {cg : ConstraintGraph}
    {self : Engine → Option (Bool × Engine)} {level v : Nat} {domain : List Value}
    (hself : ∀ e r e', Sized cg.nvars e.vars → self e = some (r, e') →
      PostDFS cg.nvars e.vars r e'.vars)
    (hv : v < cg.nvars) :
    ∀ (fuel : Nat) (e : Engine) (r : Bool) (e' : Engine), Sized cg.nvars e.vars →
      (e.vars v).is_assigned = false →
      (∀ a ∈ (e.vars v).domain, a ∈ domain) → ((e.vars v).domain = [] → domain = []) →
      loopDFS ord cg self level v domain fuel 0 e = some (r, e') →
      (r = false → Frame cg.nvars e.vars e'.vars ∧
        ∀ u, (e.vars u).is_assigned = false → (e'.vars u).is_assigned = false ∧
          (e'.vars u).domain = if u = v then domain else (e.vars u).domain) ∧
      (r = true → Completed cg.nvars e.vars e'.vars) := by
  intro fuel
  induction fuel with
  | zero => intro e r e' _ _ _ _ h; cases h
  | succ fuel ih =>
    intro e r e' hsz hun hsub hnil h
    have hsz2 := Sized_attempt ord level v e hsz
    have hne : ∀ u, (e.vars u).is_assigned = true ∨ cg.nvars ≤ u → u ≠ v := by
      intro u hu huv
      subst huv
      rcases hu with hu | hu
      · rw [hun] at hu; cases hu
      · omega
    rcases loopDFS_cases h with ⟨hd, hr, he⟩ | ⟨hd, e3, ⟨hdesc, hr, he⟩ | ⟨hdesc, hflag, hr, he⟩ |
      ⟨hdesc, hflag, hloop⟩⟩
    · subst hr he
      refine ⟨fun _ => ⟨Frame_refl _ _, ?_⟩, fun h => by cases h⟩
      intro u hu
      refine ⟨hu, ?_⟩
      split
      · next huv => subst huv; rw [hd, hnil hd]
      · rfl
    · subst hr he
      have hpost := (descendDFS_post hself hsz2 hdesc).2 rfl
      refine ⟨fun h => (by cases h), fun _ => ⟨?_, ?_⟩⟩
      · intro u hu
        have huv := hne u hu
        rw [hpost.1 u (by rw [attempt_vars_other ord level e huv]; exact hu),
          attempt_vars_other ord level e huv]
      · intro u hu
        refine ⟨(hpost.2 u hu).1, fun hua => ?_⟩
        by_cases huv : u = v
        · subst huv
          have := hpost.1 u (Or.inl (by rw [attempt_vars_self]))
          rw [attempt_vars_self] at this
          rw [this]
          exact ⟨ord.choose_mem _ hd, ord.choose_mem _ hd, fun a ha => ha⟩
        · have := (hpost.2 u hu).2
          rw [attempt_vars_other ord level e huv] at this
          exact this hua
    · have hpost := (descendDFS_post hself hsz2 hdesc).1 rfl
      have h3v : e3.vars v = ⟨(e.vars v).domain, true, ord.choose (e.vars v).domain⟩ := by
        rw [hpost.1 v (Or.inl (by rw [attempt_vars_self])), attempt_vars_self]
      rw [retireDFS_eq] at hflag he
      simp only at hflag he
      subst hr he
      refine ⟨fun _ => ⟨?_, ?_⟩, fun h => by cases h⟩
      · intro u hu
        have huv := hne u hu
        simp only [setVar_ne _ _ huv]
        rw [hpost.1 u (by rw [attempt_vars_other ord level e huv]; exact hu),
          attempt_vars_other ord level e huv]
      · intro u hu
        by_cases huv : u = v
        · subst huv
          simp [hflag]
        · simp only [setVar_ne _ _ huv, if_neg huv]
          have := hpost.2 u (by rw [attempt_vars_other ord level e huv]; exact hu)
          rw [attempt_vars_other ord level e huv] at this
          exact this
    · have hpost := (descendDFS_post hself hsz2 hdesc).1 rfl
      have h3v : e3.vars v = ⟨(e.vars v).domain, true, ord.choose (e.vars v).domain⟩ := by
        rw [hpost.1 v (Or.inl (by rw [attempt_vars_self])), attempt_vars_self]
      rw [retireDFS_eq] at hflag hloop
      simp only [h3v] at hflag hloop
      simp only [hflag, Bool.false_eq_true, if_false] at hloop
      have h3u : ∀ u, u ≠ v → (e.vars u).is_assigned = true ∨ cg.nvars ≤ u →
          e3.vars u = e.vars u := by
        intro u huv hu
        rw [hpost.1 u (by rw [attempt_vars_other ord level e huv]; exact hu),
          attempt_vars_other ord level e huv]
      have h3n : ∀ u, u ≠ v → (e.vars u).is_assigned = false →
          (e3.vars u).is_assigned = false ∧ (e3.vars u).domain = (e.vars u).domain := by
        intro u huv hu
        have := hpost.2 u (by rw [attempt_vars_other ord level e huv]; exact hu)
        rw [attempt_vars_other ord level e huv] at this
        exact this
      have hsub4 : ∀ a ∈ (e.vars v).domain.filter (fun a => a != ord.choose (e.vars v).domain),
          a ∈ (e.vars v).domain := fun a ha => (List.mem_filter.mp ha).1
      have key := ih _ r e' (by
          intro u hu hua
          by_cases huv : u = v
          · subst huv
            simp only [setVar_same, Variable.SizeDomain]
            have := hsz u hu hun
            simp only [Variable.SizeDomain] at this
            exact lt_of_le_of_lt (filter_ne_length_le _ _) this
          · simp only [setVar_ne _ _ huv] at hua ⊢
            cases hea : (e.vars u).is_assigned with
            | true => rw [h3u u huv (Or.inl hea), hea] at hua; cases hua
            | false =>
              have := hsz u hu hea
              simp only [Variable.SizeDomain] at this ⊢
              rw [(h3n u huv hea).2]
              exact this)
        (by simp) (by
          intro a ha
          simp only [setVar_same] at ha
          exact hsub _ (hsub4 a ha))
        (by
          intro h0
          simp only [setVar_same] at h0
          rw [h0] at hflag
          simp at hflag)
        hloop
      simp only [setVar_same] at key
      refine ⟨fun hr => ?_, fun hr => ?_⟩
      · obtain ⟨hf, hrest⟩ := key.1 hr
        refine ⟨?_, ?_⟩
        · intro u hu
          have huv := hne u hu
          have h4 : (setVar e3.vars v ⟨(e.vars v).domain.filter
              (fun a => a != ord.choose (e.vars v).domain), false,
              ord.choose (e.vars v).domain⟩ u) = e.vars u := by
            rw [setVar_ne _ _ huv, h3u u huv hu]
          rw [hf u (by rw [h4]; exact hu), h4]
        · intro u hu
          by_cases huv : u = v
          · subst huv
            have := hrest u (by simp)
            simpa using this
          · have := hrest u (by rw [setVar_ne _ _ huv]; exact (h3n u huv hu).1)
            simp only [if_neg huv, setVar_ne _ _ huv] at this ⊢
            rw [this.2, (h3n u huv hu).2]
            exact ⟨this.1, rfl⟩
      · obtain ⟨hf, hrest⟩ := key.2 hr
        refine ⟨?_, ?_⟩
        · intro u hu
          have huv := hne u hu
          have h4 : (setVar e3.vars v ⟨(e.vars v).domain.filter
              (fun a => a != ord.choose (e.vars v).domain), false,
              ord.choose (e.vars v).domain⟩ u) = e.vars u := by
            rw [setVar_ne _ _ huv, h3u u huv hu]
          rw [hf u (by rw [h4]; exact hu), h4]
        · intro u hu
          refine ⟨(hrest u hu).1, fun hua => ?_⟩
          by_cases huv : u = v
          · subst huv
            have := (hrest u hu).2 (by simp)
            simp only [setVar_same] at this
            exact ⟨hsub4 _ this.1, this.2.1, fun a ha => hsub4 _ (this.2.2 a ha)⟩
          · have := (hrest u hu).2 (by rw [setVar_ne _ _ huv]; exact (h3n u huv hua).1)
            simp only [setVar_ne _ _ huv, (h3n u huv hua).2] at this
            exact this

/-- A run whose outcome is `r` ended in some engine state. -/
theorem result_of_outcome (o : Option (Bool × Engine)) (r : Bool)
    (h : o.map Prod.fst = some r) : ∃ e', o = some (r, e') := by
  cases o with
  | none => cases h
  | some p =>
    obtain ⟨b, e'⟩ := p
    simp only [Option.map_some', Option.some.injEq] at h
    subst h
    exact ⟨e', rfl⟩

theorem Completed_of_all_assigned {n : Nat} {s : Vars}
    (h : ∀ v < n, (s v).is_assigned = true) : Completed n s s := by
  refine ⟨Frame_refl _ _, fun v hv => ⟨h v hv, fun hua => ?_⟩⟩
  rw [h v hv] at hua
  cases hua

/-- The postcondition of `SolveDFS`: a failed invocation restores every domain
and unassigns what it assigned, a successful one completes the assignment with
values of the domains it found. -/
theorem SolveDFS_post (ord : ValueOrder) (cg : ConstraintGraph) :
    ∀ (fuel level : Nat) (e : Engine) (r : Bool) (e' : Engine), Sized cg.nvars e.vars →
      SolveDFS ord cg fuel level e = some (r, e') → PostDFS cg.nvars e.vars r e'.vars := by
  intro fuel
  induction fuel with
  | zero => intro level e r e' _ h; cases h
  | succ fuel ih =>
    intro level e r e' hsz h
    rw [SolveDFS_succ] at h
    split at h
    · next hall =>
      simp only [Option.some.injEq, Prod.mk.injEq] at h
      obtain ⟨h1, h2⟩ := h
      subst h1 h2
      exact ⟨fun h => (by cases h),
        fun _ => Completed_of_all_assigned ((AllVariablesAssigned_iff cg e.vars).mp hall)⟩
    · next hall =>
      have hall2 : cg.AllVariablesAssigned e.vars = false := by simpa using hall
      obtain ⟨hv, hun⟩ := MinRemVal_unassigned cg e.vars hsz hall2
      have key := loopDFS_post (ih (level + 1)) hv fuel (enter level e) r e' hsz hun
        (fun a ha => ha) (fun h0 => h0) h
      refine ⟨fun hr => ?_, fun hr => key.2 hr⟩
      obtain ⟨hf, hrest⟩ := key.1 hr
      refine ⟨hf, fun u hu => ?_⟩
      have := hrest u hu
      refine ⟨this.1, ?_⟩
      rw [this.2]
      split
      · next huv => rw [huv]; rfl
      · rfl

/-- C5: when the top-level `SolveDFS(0)` on an all-unassigned graph returns
`false`, every domain is the domain at the start of the call and every variable
is unassigned again. -/
theorem SolveDFS_failure_restores (ord : ValueOrder) (cg : ConstraintGraph) (s : Vars)
    (fuel : Nat) (e' : Engine)
    (hun : ∀ v < cg.nvars, (s v).is_assigned = false) (hsz : Sized cg.nvars s)
    (h : SolveDFS ord cg fuel 0 (Engine.init s) = some (false, e')) :
    (∀ v, (e'.vars v).domain = (s v).domain) ∧
      ∀ v < cg.nvars, (e'.vars v).is_assigned = false := by
  have hpost := (SolveDFS_post ord cg fuel 0 (Engine.init s) false e' hsz h).1 rfl
  refine ⟨fun v => ?_, fun v hv => (hpost.2 v (hun v hv)).1⟩
  cases hv : (s v).is_assigned with
  | true =>
    have := hpost.1 v (Or.inl hv)
    rw [this]
    rfl
  | false => exact (hpost.2 v hv).2

theorem SolveDFS_failure_restores_witness :
    ∃ e', SolveDFS firstValue triangle 6 0 (Engine.init (freshVars fun _ => [1, 2])) =
        some (false, e') ∧
      (∀ v, (e'.vars v).domain = [1, 2]) ∧ ∀ v < 3, (e'.vars v).is_assigned = false := by
  obtain ⟨e', hrun⟩ := result_of_outcome
    (SolveDFS firstValue triangle 6 0 (Engine.init (freshVars fun _ => [1, 2]))) false
    (by decide!)
  exact ⟨e', hrun, SolveDFS_failure_restores firstValue triangle (freshVars fun _ => [1, 2]) 6 e'
    (by decide) (by unfold Sized; decide) hrun⟩

theorem Sized_of_Restored {n : Nat} {s t : Vars} (h : Restored n s t) (hs : Sized n s) :
    Sized n t := by
  intro u hu hua
  cases hsu : (s u).is_assigned with
  | true => rw [h.1 u (Or.inl hsu), hsu] at hua; cases hua
  | false =>
    have := hs u hu hsu
    simp only [Variable.SizeDomain] at this ⊢
    rw [(h.2 u hsu).2]
    exact this

theorem Restored_trans {n : Nat} {s t w : Vars} (h1 : Restored n s t) (h2 : Restored n t w) :
    Restored n s w := by
  refine ⟨fun v hv => ?_, fun v hv => ?_⟩
  · have h := h1.1 v hv
    rw [h2.1 v (by rw [h]; exact hv), h]
  · have h := h1.2 v hv
    have h3 := h2.2 v h.1
    exact ⟨h3.1, by rw [h3.2, h.2]⟩

/-- One failed pass of the value loop of `SolveDFS`: the state is the state
before the pass with the attempted value stripped from the domain of `v`, or
with the snapshot put back when nothing is left. -/
theorem loopDFS_step {ord : ValueOrder} {cg : ConstraintGraph}
    {self : Engine → Option (Bool × Engine)} {level v : Nat} (domain : List Value)
    (hself : ∀ e r e', Sized cg.nvars e.vars → self e = some (r, e') →
      PostDFS cg.nvars e.vars r e'.vars)
    {e e3 : Engine} (hsz : Sized cg.nvars e.vars)
    (hdesc : descendDFS cg self v (attempt ord level v e) = some (false, e3)) :
    Restored cg.nvars (attempt ord level v e).vars e3.vars ∧
    (retireDFS v domain e3).2 =
      ((e.vars v).domain.filter (fun a => a != ord.choose (e.vars v).domain)).isEmpty ∧
    (retireDFS v domain e3).1 = { e3 with vars := (retireDFS v domain e3).1.vars } ∧
    (retireDFS v domain e3).1.vars v =
      ⟨if ((e.vars v).domain.filter (fun a => a != ord.choose (e.vars v).domain)).isEmpty
        then domain
        else (e.vars v).domain.filter (fun a => a != ord.choose (e.vars v).domain),
        false, ord.choose (e.vars v).domain⟩ ∧
    (∀ u, u ≠ v → (retireDFS v domain e3).1.vars u = e3.vars u) := by
  have hpost := (descendDFS_post hself (Sized_attempt ord level v e hsz) hdesc).1 rfl
  have h3v : e3.vars v = ⟨(e.vars v).domain, true, ord.choose (e.vars v).domain⟩ := by
    rw [hpost.1 v (Or.inl (by rw [attempt_vars_self])), attempt_vars_self]
  refine ⟨hpost, ?_, ?_, ?_, ?_⟩
  · rw [retireDFS_eq]
    simp only [h3v]
  · rw [retireDFS_eq]
  · rw [retireDFS_eq]
    simp only [h3v, setVar_same]
  · intro u hu
    rw [retireDFS_eq]
    simp only [setVar_ne _ _ hu]

/-- After a failed pass every other variable is as before the pass, up to the
stale value of unassigned variables. -/
theorem loopDFS_step_others {ord : ValueOrder} {cg : ConstraintGraph}
    {self : Engine → Option (Bool × Engine)} {level v : Nat} (domain : List Value)
    (hself : ∀ e r e', Sized cg.nvars e.vars → self e = some (r, e') →
      PostDFS cg.nvars e.vars r e'.vars)
    {e e3 : Engine} (hsz : Sized cg.nvars e.vars)
    (hdesc : descendDFS cg self v (attempt ord level v e) = some (false, e3)) :
    ∀ u, u ≠ v →
      (((e.vars u).is_assigned = true ∨ cg.nvars ≤ u) →
        (retireDFS v domain e3).1.vars u = e.vars u) ∧
      ((e.vars u).is_assigned = false →
        ((retireDFS v domain e3).1.vars u).is_assigned = false ∧
        ((retireDFS v domain e3).1.vars u).domain = (e.vars u).domain) := by
  intro u huv
  obtain ⟨hpost, _, _, _, hoth⟩ := loopDFS_step domain hself hsz hdesc
  rw [hoth u huv]
  constructor
  · intro hu
    rw [hpost.1 u (by rw [attempt_vars_other ord level e huv]; exact hu),
      attempt_vars_other ord level e huv]
  · intro hu
    have := hpost.2 u (by rw [attempt_vars_other ord level e huv]; exact hu)
    rw [attempt_vars_other ord level e huv] at this
    exact this

theorem Sized_retireDFS {ord : ValueOrder} {cg : ConstraintGraph}
    {self : Engine → Option (Bool × Engine)} {level v : Nat} (domain : List Value)
    (hself : ∀ e r e', Sized cg.nvars e.vars → self e = some (r, e') →
      PostDFS cg.nvars e.vars r e'.vars)
    {e e3 : Engine} (hsz : Sized cg.nvars e.vars) (hun : (e.vars v).is_assigned = false)
    (hdesc : descendDFS cg self v (attempt ord level v e) = some (false, e3))
    (hflag : (retireDFS v domain e3).2 = false) :
    Sized cg.nvars (retireDFS v domain e3).1.vars := by
  obtain ⟨_, hfl, _, hv4, _⟩ := loopDFS_step domain hself hsz hdesc
  have hoth := loopDFS_step_others domain hself hsz hdesc
  rw [hfl] at hflag
  intro u hu hua
  by_cases huv : u = v
  · subst huv
    rw [hv4]
    simp only [hflag, Bool.false_eq_true, if_false, Variable.SizeDomain]
    have := hsz u hu hun
    simp only [Variable.SizeDomain] at this
    exact lt_of_le_of_lt (filter_ne_length_le _ _) this
  · cases hea : (e.vars u).is_assigned with
    | true => rw [(hoth u huv).1 (Or.inl hea), hea] at hua; cases hua
    | false =>
      have := hsz u hu hea
      simp only [Variable.SizeDomain] at this ⊢
      rw [((hoth u huv).2 hea).2]
      exact this

theorem current_retireDFS {ord : ValueOrder} {cg : ConstraintGraph}
    {self : Engine → Option (Bool × Engine)} {level v : Nat} (domain : List Value)
    (hself : ∀ e r e', Sized cg.nvars e.vars → self e = some (r, e') →
      PostDFS cg.nvars e.vars r e'.vars)
    {e e3 : Engine} (hsz : Sized cg.nvars e.vars) (hun : (e.vars v).is_assigned = false)
    (hdesc : descendDFS cg self v (attempt ord level v e) = some (false, e3)) :
    ∀ u, ((retireDFS v domain e3).1.vars u).current = (e.vars u).current := by
  obtain ⟨_, _, _, hv4, _⟩ := loopDFS_step domain hself hsz hdesc
  have hoth := loopDFS_step_others domain hself hsz hdesc
  intro u
  by_cases huv : u = v
  · subst huv
    rw [hv4]
    simp [Variable.current, hun]
  · cases hea : (e.vars u).is_assigned with
    | true => rw [(hoth u huv).1 (Or.inl hea)]
    | false =>
      have := ((hoth u huv).2 hea).1
      simp [Variable.current, hea, this]

/-! ## Soundness of the naive solver -/

theorem Checked_attempt {ord : ValueOrder} {cg : ConstraintGraph} {level v : Nat} {e : Engine}
    (hch : Checked cg e.vars)
    (hcons : AssignmentIsConsistent cg (attempt ord level v e).vars v = true) :
    Checked cg (attempt ord level v e).vars := by
  intro c hc hall
  by_cases hvc : v ∈ c.scope
  · exact (AssignmentIsConsistent_iff cg _ v).mp hcons c hc hvc
  · have hsame : ∀ u ∈ c.scope, (attempt ord level v e).vars u = e.vars u := by
      intro u hu
      exact attempt_vars_other ord level e (fun h => hvc (h ▸ hu))
    rw [Satisfiable_congr c e.vars _ (fun u hu => by rw [hsame u hu])]
    exact hch c hc (fun u hu => by rw [← hsame u hu]; exact hall u hu)

theorem Checked_of_current {cg : ConstraintGraph} {s t : Vars}
    (h : ∀ u, (t u).current = (s u).current) (hch : Checked cg s) : Checked cg t := by
  intro c hc hall
  rw [Satisfiable_congr c s t (fun u _ => h u)]
  apply hch c hc
  intro u hu
  have h1 := h u
  have h2 := hall u hu
  simp only [Variable.current, h2, if_true] at h1
  by_contra hns
  simp [hns] at h1

theorem loopDFS_sound {ord : ValueOrder} {cg : ConstraintGraph}
    {self : Engine → Option (Bool × Engine)} {level v : Nat} {domain : List Value}
    (hself : ∀ e r e', Sized cg.nvars e.vars → self e = some (r, e') →
      PostDFS cg.nvars e.vars r e'.vars)
    (hsound : ∀ e e', Sized cg.nvars e.vars → Checked cg e.vars → self e = some (true, e') →
      Checked cg e'.vars) :
    ∀ (fuel : Nat) (e : Engine) (e' : Engine), Sized cg.nvars e.vars →
      (e.vars v).is_assigned = false → Checked cg e.vars →
      loopDFS ord cg self level v domain fuel 0 e = some (true, e') → Checked cg e'.vars := by
  intro fuel
  induction fuel with
  | zero => intro e e' _ _ _ h; cases h
  | succ fuel ih =>
    intro e e' hsz hun hch h
    rcases loopDFS_cases h with ⟨_, hr, _⟩ | ⟨hd, e3, ⟨hdesc, _, he⟩ | ⟨_, _, hr, _⟩ |
      ⟨hdesc, hflag, hloop⟩⟩
    · cases hr
    · subst he
      unfold descendDFS at hdesc
      split at hdesc
      · next hcons =>
        exact hsound _ _ (Sized_attempt ord level v e hsz) (Checked_attempt hch hcons) hdesc
      · simp at hdesc
    · cases hr
    · refine ih _ e' (Sized_retireDFS domain hself hsz hun hdesc hflag) ?_ ?_ hloop
      · obtain ⟨_, _, _, hv4, _⟩ := loopDFS_step domain hself hsz hdesc
        rw [hv4]
      · exact Checked_of_current (current_retireDFS domain hself hsz hun hdesc) hch

theorem SolveDFS_sound_aux (ord : ValueOrder) (cg : ConstraintGraph) :
    ∀ (fuel level : Nat) (e e' : Engine), Sized cg.nvars e.vars → Checked cg e.vars →
      SolveDFS ord cg fuel level e = some (true, e') → Checked cg e'.vars := by
  intro fuel
  induction fuel with
  | zero => intro level e e' _ _ h; cases h
  | succ fuel ih =>
    intro level e e' hsz hch h
    rw [SolveDFS_succ] at h
    split at h
    · simp only [Option.some.injEq, Prod.mk.injEq, true_and] at h
      subst h
      exact hch
    · next hall =>
      have hall2 : cg.AllVariablesAssigned e.vars = false := by simpa using hall
      obtain ⟨_, hun⟩ := MinRemVal_unassigned cg e.vars hsz hall2
      exact loopDFS_sound (SolveDFS_post ord cg fuel (level + 1)) (ih (level + 1)) fuel
        (enter level e) e' hsz hun hch h

theorem Checked_of_unassigned {cg : ConstraintGraph} {s : Vars} (hsc : cg.Scoped)
    (hun : ∀ v < cg.nvars, (s v).is_assigned = false) : Checked cg s := by
  intro c hc hall
  obtain ⟨hne, hlt⟩ := hsc c hc
  cases hscope : c.scope with
  | nil => exact absurd hscope hne
  | cons v rest =>
    have hv : v ∈ c.scope := by rw [hscope]; exact List.mem_cons_self _ _
    have := hall v hv
    rw [hun v (hlt v hv)] at this
    cases this

/-- C1: when the top-level `SolveDFS(0)` on an all-unassigned graph returns
`true`, every variable is assigned and every constraint of the graph reports
`Satisfiable()`. -/
theorem SolveDFS_sound (ord : ValueOrder) (cg : ConstraintGraph) (s : Vars)
    (fuel : Nat) (e' : Engine)
    (hun : ∀ v < cg.nvars, (s v).is_assigned = false) (hsz : Sized cg.nvars s)
    (hsc : cg.Scoped)
    (h : SolveDFS ord cg fuel 0 (Engine.init s) = some (true, e')) :
    (∀ v < cg.nvars, (e'.vars v).is_assigned = true) ∧
      ∀ c ∈ cg.constraints, c.Satisfiable e'.vars = true := by
  have hpost := (SolveDFS_post ord cg fuel 0 (Engine.init s) true e' hsz h).2 rfl
  have hch := SolveDFS_sound_aux ord cg fuel 0 (Engine.init s) e' hsz
    (Checked_of_unassigned hsc hun) h
  refine ⟨fun v hv => (hpost.2 v hv).1, fun c hc => hch c hc (fun v hv => ?_)⟩
  exact (hpost.2 v ((hsc c hc).2 v hv)).1

theorem triangle_Scoped : triangle.Scoped := by
  intro c hc
  simp only [triangle, List.mem_cons, List.mem_singleton, List.not_mem_nil, or_false] at hc
  rcases hc with h | h | h <;> subst h <;> simp [notEqual, triangle]

theorem SolveDFS_sound_witness :
    ∃ e', SolveDFS firstValue triangle 7 0 (Engine.init (freshVars fun _ => [1, 2, 3])) =
        some (true, e') ∧
      (∀ v < 3, (e'.vars v).is_assigned = true) ∧
      ∀ c ∈ triangle.constraints, c.Satisfiable e'.vars = true := by
  obtain ⟨e', hrun⟩ := result_of_outcome
    (SolveDFS firstValue triangle 7 0 (Engine.init (freshVars fun _ => [1, 2, 3]))) true
    (by decide!)
  exact ⟨e', hrun, SolveDFS_sound firstValue triangle (freshVars fun _ => [1, 2, 3]) 7 e'
    (by decide) (by unfold Sized; decide) triangle_Scoped hrun⟩

/-! ## Termination of the naive solver -/

theorem unassigned_congr {n : Nat} {s t : Vars}
    (h : ∀ u, (t u).is_assigned = (s u).is_assigned) : unassigned n t = unassigned n s := by
  unfold unassigned
  apply Finset.filter_congr
  intro u _
  rw [h u]

theorem is_assigned_of_current {x y : Variable} (h : x.current = y.current) :
    x.is_assigned = y.is_assigned := by
  unfold Variable.current at h
  cases hx : x.is_assigned <;> cases hy : y.is_assigned <;> simp_all

theorem unassigned_attempt {n : Nat} (ord : ValueOrder) (level v : Nat) (e : Engine) :
    unassigned n (attempt ord level v e).vars = (unassigned n e.vars).erase v := by
  ext u
  simp only [unassigned, Finset.mem_filter, Finset.mem_range, Finset.mem_erase]
  by_cases huv : u = v
  · subst huv
    simp [attempt_vars_self]
  · rw [attempt_vars_other ord level e huv]
    simp [huv]

theorem card_unassigned_attempt {n : Nat} (ord : ValueOrder) (level : Nat) {v : Nat}
    (e : Engine) (hv : v < n) (hun : (e.vars v).is_assigned = false) :
    (unassigned n (attempt ord level v e).vars).card + 1 = (unassigned n e.vars).card := by
  rw [unassigned_attempt]
  have hmem : v ∈ unassigned n e.vars := by
    simp [unassigned, hv, hun]
  rw [Finset.card_erase_of_mem hmem]
  have := Finset.card_pos.mpr ⟨v, hmem⟩
  omega

theorem Bounded_attempt {n D : Nat} (ord : ValueOrder) (level v : Nat) (e : Engine)
    (h : Bounded n D e.vars) : Bounded n D (attempt ord level v e).vars := by
  intro u hu hua
  by_cases huv : u = v
  · subst huv
    rw [attempt_vars_self] at hua
    cases hua
  · rw [attempt_vars_other ord level e huv] at hua ⊢
    exact h u hu hua

theorem Bounded_retireDFS {ord : ValueOrder} {cg : ConstraintGraph} {D : Nat}
    {self : Engine → Option (Bool × Engine)} {level v : Nat} (domain : List Value)
    (hself : ∀ e r e', Sized cg.nvars e.vars → self e = some (r, e') →
      PostDFS cg.nvars e.vars r e'.vars)
    {e e3 : Engine} (hsz : Sized cg.nvars e.vars) (hb : Bounded cg.nvars D e.vars)
    (hun : (e.vars v).is_assigned = false)
    (hdesc : descendDFS cg self v (attempt ord level v e) = some (false, e3))
    (hflag : (retireDFS v domain e3).2 = false) :
    Bounded cg.nvars D (retireDFS v domain e3).1.vars := by
  obtain ⟨_, hfl, _, hv4, _⟩ := loopDFS_step domain hself hsz hdesc
  have hoth := loopDFS_step_others domain hself hsz hdesc
  rw [hfl] at hflag
  intro u hu hua
  by_cases huv : u = v
  · subst huv
    rw [hv4]
    simp only [hflag, Bool.false_eq_true, if_false]
    exact le_trans (List.length_filter_le _ _) (hb u hu hun)
  · cases hea : (e.vars u).is_assigned with
    | true => rw [(hoth u huv).1 (Or.inl hea), hea] at hua; cases hua
    | false =>
      rw [((hoth u huv).2 hea).2]
      exact hb u hu hea

theorem length_filter_ne_lt {d : List Value} {a : Value} (h : a ∈ d) :
    (d.filter (fun b => b != a)).length < d.length := by
  apply List.length_filter_lt_length_iff_exists.mpr
  exact ⟨a, h, by simp⟩

theorem loopDFS_terminates {ord : ValueOrder} {cg : ConstraintGraph} {D U : Nat}
    {self : Engine → Option (Bool × Engine)} {level v : Nat} {domain : List Value}
    (hself : ∀ e r e', Sized cg.nvars e.vars → self e = some (r, e') →
      PostDFS cg.nvars e.vars r e'.vars)
    (hterm : ∀ e, Sized cg.nvars e.vars → Bounded cg.nvars D e.vars →
      (unassigned cg.nvars e.vars).card + 1 ≤ U → ∃ r e', self e = some (r, e'))
    (hv : v < cg.nvars) :
    ∀ (fuel : Nat) (e : Engine), Sized cg.nvars e.vars → Bounded cg.nvars D e.vars →
      (e.vars v).is_assigned = false → (unassigned cg.nvars e.vars).card ≤ U →
      (e.vars v).domain.length + 1 ≤ fuel →
      ∃ r e', loopDFS ord cg self level v domain fuel 0 e = some (r, e') := by
  intro fuel
  induction fuel with
  | zero => intro e _ _ _ _ h; omega
  | succ fuel ih =>
    intro e hsz hb hun hcard hlen
    rw [loopDFS_succ]
    by_cases hd : (e.vars v).domain = []
    · have : ¬ (0 < (e.vars v).SizeDomain) := by simp [Variable.SizeDomain, hd]
      rw [if_neg this]
      exact ⟨false, e, rfl⟩
    · have hpos : 0 < (e.vars v).SizeDomain := by
        simp only [Variable.SizeDomain]
        have := List.length_pos.mpr hd
        omega
      rw [if_pos hpos]
      have hdesc : ∃ r e3, descendDFS cg self v (attempt ord level v e) = some (r, e3) := by
        unfold descendDFS
        split
        · apply hterm _ (Sized_attempt ord level v e hsz) (Bounded_attempt ord level v e hb)
          have := card_unassigned_attempt ord level e hv hun
          omega
        · exact ⟨false, _, rfl⟩
      obtain ⟨r, e3, hdesc⟩ := hdesc
      rw [hdesc]
      cases r with
      | true => exact ⟨true, e3, rfl⟩
      | false =>
        simp only
        cases hret : retireDFS v domain e3 with
        | mk e4 flag =>
          cases flag with
          | true => exact ⟨false, e4, rfl⟩
          | false =>
            simp only
            have hflag : (retireDFS v domain e3).2 = false := by rw [hret]
            have he4 : e4 = (retireDFS v domain e3).1 := by rw [hret]
            obtain ⟨_, hfl, _, hv4, _⟩ := loopDFS_step domain hself hsz hdesc
            rw [he4]
            apply ih _ (Sized_retireDFS domain hself hsz hun hdesc hflag)
              (Bounded_retireDFS domain hself hsz hb hun hdesc hflag)
            · rw [hv4]
            · rw [unassigned_congr (fun u => is_assigned_of_current
                (current_retireDFS domain hself hsz hun hdesc u))]
              exact hcard
            · rw [hv4]
              rw [hfl] at hflag
              simp only [hflag, Bool.false_eq_true, if_false]
              have := length_filter_ne_lt (ord.choose_mem _ hd)
              omega

/-- With `U` variables unassigned and at most `D` values in every domain,
`SolveDFS` returns within `U + D + 1` units of fuel. -/
theorem SolveDFS_terminates (ord : ValueOrder) (cg : ConstraintGraph) (D : Nat) :
    ∀ (fuel level : Nat) (e : Engine), Sized cg.nvars e.vars → Bounded cg.nvars D e.vars →
      (unassigned cg.nvars e.vars).card + D + 1 ≤ fuel →
      ∃ r e', SolveDFS ord cg fuel level e = some (r, e') := by
  intro fuel
  induction fuel with
  | zero => intro level e _ _ h; omega
  | succ fuel ih =>
    intro level e hsz hb hfuel
    rw [SolveDFS_succ]
    split
    · exact ⟨true, _, rfl⟩
    · next hall =>
      have hall2 : cg.AllVariablesAssigned e.vars = false := by simpa using hall
      obtain ⟨hv, hun⟩ := MinRemVal_unassigned cg e.vars hsz hall2
      have hmem : MinRemVal cg e.vars ∈ unassigned cg.nvars e.vars := by
        simp [unassigned, hv, hun]
      have hpos := Finset.card_pos.mpr ⟨_, hmem⟩
      apply loopDFS_terminates (SolveDFS_post ord cg fuel (level + 1))
        (fun e2 h1 h2 h3 => ih (level + 1) e2 h1 h2 (by
          change _ + 1 ≤ (unassigned cg.nvars e.vars).card at h3
          omega)) hv fuel (enter level e)
        hsz hb hun (le_refl _)
      have := hb _ hv hun
      show (e.vars (MinRemVal cg e.vars)).domain.length + 1 ≤ fuel
      omega

theorem Bounded_maxDomain (n : Nat) (s : Vars) : Bounded n (maxDomain n s) s := by
  intro v hv _
  exact Finset.le_sup (f := fun v => (s v).domain.length) (Finset.mem_range.mpr hv)

/-! ## Completeness of the naive solver -/

theorem Satisfiable_of_Compatible {cg : ConstraintGraph} {σ : Nat → Value} {s : Vars}
    (hsc : cg.Scoped) (hperm : ∀ c ∈ cg.constraints, c.Permissive)
    (hsol : ∀ c ∈ cg.constraints, c.Satisfiable (total σ) = true)
    (hcomp : Compatible cg.nvars σ s) : ∀ c ∈ cg.constraints, c.Satisfiable s = true := by
  intro c hc
  apply hperm c hc s (total σ) (fun _ _ => rfl) _ (hsol c hc)
  intro v hv hva
  exact ((hcomp v ((hsc c hc).2 v hv)).1 hva).symm

theorem Compatible_attempt {n : Nat} {σ : Nat → Value} (ord : ValueOrder) (level : Nat)
    {v : Nat} {e : Engine} (hcomp : Compatible n σ e.vars) (ha : ord.choose (e.vars v).domain = σ v) :
    Compatible n σ (attempt ord level v e).vars := by
  intro u hu
  by_cases huv : u = v
  · subst huv
    rw [attempt_vars_self]
    exact ⟨fun _ => ha, fun h => by cases h⟩
  · rw [attempt_vars_other ord level e huv]
    exact hcomp u hu

/-- A failed attempt did not try the value of a solution. -/
theorem descendDFS_misses {ord : ValueOrder} {cg : ConstraintGraph} {σ : Nat → Value}
    {self : Engine → Option (Bool × Engine)} {level v : Nat}
    (hsc : cg.Scoped) (hperm : ∀ c ∈ cg.constraints, c.Permissive)
    (hsol : ∀ c ∈ cg.constraints, c.Satisfiable (total σ) = true)
    (hcompl : ∀ e r e', Sized cg.nvars e.vars → Compatible cg.nvars σ e.vars →
      self e = some (r, e') → r = true)
    {e e3 : Engine} (hsz : Sized cg.nvars e.vars) (hcomp : Compatible cg.nvars σ e.vars)
    (hdesc : descendDFS cg self v (attempt ord level v e) = some (false, e3)) :
    ord.choose (e.vars v).domain ≠ σ v := by
  intro ha
  have hcomp2 := Compatible_attempt ord level hcomp ha
  have hcons : AssignmentIsConsistent cg (attempt ord level v e).vars v = true := by
    rw [AssignmentIsConsistent_iff]
    intro c hc _
    exact Satisfiable_of_Compatible hsc hperm hsol hcomp2 c hc
  unfold descendDFS at hdesc
  rw [if_pos hcons] at hdesc
  have := hcompl _ _ _ (Sized_attempt ord level v e hsz) hcomp2 hdesc
  cases this

theorem loopDFS_complete {ord : ValueOrder} {cg : ConstraintGraph} {σ : Nat → Value}
    {self : Engine → Option (Bool × Engine)} {level v : Nat} {domain : List Value}
    (hsc : cg.Scoped) (hperm : ∀ c ∈ cg.constraints, c.Permissive)
    (hsol : ∀ c ∈ cg.constraints, c.Satisfiable (total σ) = true)
    (hself : ∀ e r e', Sized cg.nvars e.vars → self e = some (r, e') →
      PostDFS cg.nvars e.vars r e'.vars)
    (hcompl : ∀ e r e', Sized cg.nvars e.vars → Compatible cg.nvars σ e.vars →
      self e = some (r, e') → r = true)
    (hv : v < cg.nvars) :
    ∀ (fuel : Nat) (e : Engine) (r : Bool) (e' : Engine), Sized cg.nvars e.vars →
      (e.vars v).is_assigned = false → Compatible cg.nvars σ e.vars →
      loopDFS ord cg self level v domain fuel 0 e = some (r, e') → r = true := by
  intro fuel
  induction fuel with
  | zero => intro e r e' _ _ _ h; cases h
  | succ fuel ih =>
    intro e r e' hsz hun hcomp h
    have hmem : σ v ∈ (e.vars v).domain := (hcomp v hv).2 hun
    rcases loopDFS_cases h with ⟨hd, _, _⟩ | ⟨hd, e3, ⟨_, hr, _⟩ | ⟨hdesc, hflag, _, _⟩ |
      ⟨hdesc, hflag, hloop⟩⟩
    · rw [hd] at hmem; cases hmem
    · exact hr
    · exfalso
      have hmiss := descendDFS_misses hsc hperm hsol hcompl hsz hcomp hdesc
      obtain ⟨_, hfl, _, _, _⟩ := loopDFS_step domain hself hsz hdesc
      rw [hfl, List.isEmpty_iff] at hflag
      have : σ v ∈ (e.vars v).domain.filter (fun a => a != ord.choose (e.vars v).domain) := by
        rw [List.mem_filter]
        exact ⟨hmem, by simpa using fun h => hmiss h.symm⟩
      rw [hflag] at this
      cases this
    · have hmiss := descendDFS_misses hsc hperm hsol hcompl hsz hcomp hdesc
      obtain ⟨_, hfl, _, hv4, _⟩ := loopDFS_step domain hself hsz hdesc
      have hoth := loopDFS_step_others domain hself hsz hdesc
      refine ih _ r e' (Sized_retireDFS domain hself hsz hun hdesc hflag) (by rw [hv4]) ?_ hloop
      rw [hfl] at hflag
      intro u hu
      by_cases huv : u = v
      · subst huv
        rw [hv4]
        refine ⟨fun h => (by cases h), fun _ => ?_⟩
        simp only [hflag, Bool.false_eq_true, if_false]
        rw [List.mem_filter]
        exact ⟨hmem, by simpa using fun h => hmiss h.symm⟩
      · cases hea : (e.vars u).is_assigned with
        | true =>
          rw [(hoth u huv).1 (Or.inl hea)]
          exact hcomp u hu
        | false =>
          have h4 := (hoth u huv).2 hea
          refine ⟨fun h => ?_, fun _ => ?_⟩
          · rw [h4.1] at h; cases h
          · rw [h4.2]
            exact (hcomp u hu).2 hea

theorem SolveDFS_complete_aux (ord : ValueOrder) (cg : ConstraintGraph) (σ : Nat → Value)
    (hsc : cg.Scoped) (hperm : ∀ c ∈ cg.constraints, c.Permissive)
    (hsol : ∀ c ∈ cg.constraints, c.Satisfiable (total σ) = true) :
    ∀ (fuel level : Nat) (e : Engine) (r : Bool) (e' : Engine), Sized cg.nvars e.vars →
      Compatible cg.nvars σ e.vars → SolveDFS ord cg fuel level e = some (r, e') →
      r = true := by
  intro fuel
  induction fuel with
  | zero => intro level e r e' _ _ h; cases h
  | succ fuel ih =>
    intro level e r e' hsz hcomp h
    rw [SolveDFS_succ] at h
    split at h
    · simp only [Option.some.injEq, Prod.mk.injEq] at h
      exact h.1.symm
    · next hall =>
      have hall2 : cg.AllVariablesAssigned e.vars = false := by simpa using hall
      obtain ⟨hv, hun⟩ := MinRemVal_unassigned cg e.vars hsz hall2
      exact loopDFS_complete hsc hperm hsol (SolveDFS_post ord cg fuel (level + 1))
        (ih (level + 1)) hv fuel (enter level e) r e' hsz hun hcomp h

theorem Compatible_of_unassigned {n : Nat} {σ : Nat → Value} {s : Vars}
    (hun : ∀ v < n, (s v).is_assigned = false) (hdom : ∀ v < n, σ v ∈ (s v).domain) :
    Compatible n σ s := by
  intro v hv
  refine ⟨fun h => ?_, fun _ => hdom v hv⟩
  rw [hun v hv] at h
  cases h

/-- The assignment that a successful run leaves is a solution over the
domains the run started from. -/
theorem IsSolution_of_Completed {cg : ConstraintGraph} {s t : Vars} (hsc : cg.Scoped)
    (hun : ∀ v < cg.nvars, (s v).is_assigned = false)
    (hpost : Completed cg.nvars s t) (hsat : ∀ c ∈ cg.constraints, c.Satisfiable t = true) :
    IsSolution cg s (fun v => (t v).assigned_value) := by
  refine ⟨fun v hv => ((hpost.2 v hv).2 (hun v hv)).1, fun c hc => ?_⟩
  rw [Satisfiable_congr c t _ (fun v hv => ?_)]
  · exact hsat c hc
  · have := (hpost.2 v ((hsc c hc).2 v hv)).1
    simp [Variable.current, total, this]

/-- On an all-unassigned graph with permissive constraints `SolveDFS(0)`
returns, with `true` exactly when a solution over the domains exists. -/
theorem SolveDFS_decides (ord : ValueOrder) (cg : ConstraintGraph) (s : Vars)
    (hun : ∀ v < cg.nvars, (s v).is_assigned = false) (hsz : Sized cg.nvars s)
    (hsc : cg.Scoped) (hperm : ∀ c ∈ cg.constraints, c.Permissive) :
    ∀ fuel, cg.nvars + maxDomain cg.nvars s + 1 ≤ fuel →
      ∃ r e', SolveDFS ord cg fuel 0 (Engine.init s) = some (r, e') ∧
        ((∃ σ, IsSolution cg s σ) → r = true) ∧ ((¬ ∃ σ, IsSolution cg s σ) → r = false) := by
  intro fuel hfuel
  have hcard : (unassigned cg.nvars s).card ≤ cg.nvars := by
    have := Finset.card_filter_le (Finset.range cg.nvars) (fun v => (s v).is_assigned = false)
    simpa [unassigned] using this
  obtain ⟨r, e', hrun⟩ := SolveDFS_terminates ord cg (maxDomain cg.nvars s) fuel 0
    (Engine.init s) hsz (Bounded_maxDomain cg.nvars s) (by
      change (unassigned cg.nvars s).card + _ + 1 ≤ fuel
      omega)
  refine ⟨r, e', hrun, ?_, ?_⟩
  · rintro ⟨σ, hdom, hsol⟩
    exact SolveDFS_complete_aux ord cg σ hsc hperm hsol fuel 0 (Engine.init s) r e' hsz
      (Compatible_of_unassigned hun hdom) hrun
  · intro hno
    cases r with
    | false => rfl
    | true =>
      exfalso
      apply hno
      have hpost := (SolveDFS_post ord cg fuel 0 (Engine.init s) true e' hsz hrun).2 rfl
      have hsat := (SolveDFS_sound_aux ord cg fuel 0 (Engine.init s) e' hsz
        (Checked_of_unassigned hsc hun) hrun)
      exact ⟨_, IsSolution_of_Completed hsc hun hpost (fun c hc => hsat c hc
        (fun v hv => (hpost.2 v ((hsc c hc).2 v hv)).1))⟩

/-- C3: on an all-unassigned graph with permissive constraints `SolveDFS(0)`
returns, with `true` when some total assignment over the domains satisfies
every constraint and with `false` when none does. -/
theorem SolveDFS_complete (ord : ValueOrder) (cg : ConstraintGraph) (s : Vars)
    (hun : ∀ v < cg.nvars, (s v).is_assigned = false) (hsz : Sized cg.nvars s)
    (hsc : cg.Scoped) (hperm : ∀ c ∈ cg.constraints, c.Permissive) :
    ∀ fuel, cg.nvars + maxDomain cg.nvars s + 1 ≤ fuel →
      ∃ r e', SolveDFS ord cg fuel 0 (Engine.init s) = some (r, e') ∧
        ((∃ σ, IsSolution cg s σ) → r = true) ∧ ((¬ ∃ σ, IsSolution cg s σ) → r = false) :=
  SolveDFS_decides ord cg s hun hsz hsc hperm

theorem notEqual_Permissive (a b : Nat) : (notEqual a b).Permissive := by
  intro s t ht hst hsat
  simp only [notEqual, List.mem_cons, List.mem_singleton, List.not_mem_nil, or_false,
    forall_eq_or_imp, forall_eq] at ht hst
  simp only [Constraint.Satisfiable, notEqual, List.map_cons, List.map_nil,
    Variable.current, ht.1, ht.2, if_true] at hsat ⊢
  cases ha : (s a).is_assigned <;> cases hb : (s b).is_assigned <;> simp only [if_true,
    Bool.false_eq_true, if_false]
  rw [← hst.1 ha, ← hst.2 hb]
  exact hsat

theorem triangle_Permissive : ∀ c ∈ triangle.constraints, c.Permissive := by
  intro c hc
  simp only [triangle, List.mem_cons, List.mem_singleton, List.not_mem_nil, or_false] at hc
  rcases hc with h | h | h <;> subst h <;> exact notEqual_Permissive _ _

theorem SolveDFS_complete_witness :
    (∃ r e', SolveDFS firstValue triangle 7 0 (Engine.init (freshVars fun _ => [1, 2, 3])) =
        some (r, e') ∧
      ((∃ σ, IsSolution triangle (freshVars fun _ => [1, 2, 3]) σ) → r = true) ∧
      ((¬ ∃ σ, IsSolution triangle (freshVars fun _ => [1, 2, 3]) σ) → r = false)) ∧
    (SolveDFS firstValue triangle 7 0 (Engine.init (freshVars fun _ => [1, 2, 3]))).map
        (fun p => (p.1, (List.range 3).map (fun v => (p.2.vars v).current)))
      = some (true, [some 1, some 2, some 3]) :=
  ⟨SolveDFS_complete firstValue triangle (freshVars fun _ => [1, 2, 3]) (by decide)
    (by unfold Sized; decide) triangle_Scoped triangle_Permissive 7 (by decide), by decide!⟩

/-! ## Forward checking -/

theorem current_setVar_of_unassigned {s : Vars} {n : Nat} {x : Variable}
    (hs : (s n).is_assigned = false) (hx : x.is_assigned = false) (u : Nat) :
    (setVar s n x u).current = (s u).current := by
  by_cases hu : u = n
  · subst hu
    simp [Variable.current, hs, hx]
  · rw [setVar_ne _ _ hu]

theorem tentative_congr (c : Constraint) {s t : Vars} (n : Nat) (d : Value)
    (h : ∀ u, u ≠ n → (t u).current = (s u).current) :
    c.Satisfiable (tentative t n d) = c.Satisfiable (tentative s n d) := by
  apply Satisfiable_congr
  intro u _
  by_cases hu : u = n
  · subst hu
    simp [tentative, Variable.current, Variable.AssignValue]
  · simp only [tentative, setVar_ne _ _ hu]
    exact h u hu

theorem setVar_setVar (s : Vars) (n : Nat) (x y : Variable) :
    setVar (setVar s n x) n y = setVar s n y := by
  funext u
  simp only [setVar_apply]
  split <;> rfl

theorem fcValues_cons (c : Constraint) (n : Nat) (d : Value) (rest : List Value) (s : Vars) :
    fcValues c n (d :: rest) s = fcValues c n rest
      (setVar s n ⟨if c.Satisfiable (tentative s n d) then (s n).domain
        else (s n).domain.filter (fun a => a != d), false, d⟩) := by
  rw [fcValues]
  cases hsat : c.Satisfiable (tentative s n d)
  · have hsat2 : c.Satisfiable (setVar s n ((s n).AssignValue d)) = false := hsat
    simp only [hsat2, Bool.not_false, if_true, setVar_same, setVar_setVar, Bool.false_eq_true,
      if_false]
    rfl
  · have hsat2 : c.Satisfiable (setVar s n ((s n).AssignValue d)) = true := hsat
    simp only [hsat2, Bool.not_true, Bool.false_eq_true, if_false, setVar_same, setVar_setVar,
      if_true]
    rfl

/-- The innermost loop of `ForwardChecking` touches only `n`, leaves it
unassigned, and strips from its domain exactly the values of `dom` that the
constraint rejects. -/
theorem fcValues_spec (c : Constraint) (n : Nat) :
    ∀ (dom : List Value) (s : Vars), (s n).is_assigned = false →
      (∀ u, u ≠ n → fcValues c n dom s u = s u) ∧
      (fcValues c n dom s n).is_assigned = false ∧
      (fcValues c n dom s n).domain =
        (s n).domain.filter (fun a => !(dom.contains a) || c.Satisfiable (tentative s n a)) := by
  intro dom
  induction dom with
  | nil =>
    intro s hs
    refine ⟨fun _ _ => rfl, hs, ?_⟩
    simp [fcValues]
  | cons d rest ih =>
    intro s hs
    have hstep := fcValues_cons c n d rest s
    rw [hstep]
    obtain ⟨h1, h2, h3⟩ := ih (setVar s n ⟨if c.Satisfiable (tentative s n d) then (s n).domain
          else (s n).domain.filter (fun a => a != d), false, d⟩) (by simp)
    refine ⟨fun u hu => by rw [h1 u hu, setVar_ne _ _ hu], h2, ?_⟩
    rw [h3]
    simp only [setVar_same]
    have hcongr : ∀ a, c.Satisfiable (tentative (setVar s n ⟨if c.Satisfiable (tentative s n d)
        then (s n).domain else (s n).domain.filter (fun a => a != d), false, d⟩) n a) =
        c.Satisfiable (tentative s n a) := by
      intro a
      apply tentative_congr
      intro u hu
      rw [setVar_ne _ _ hu]
    simp only [hcongr]
    cases hsat : c.Satisfiable (tentative s n d)
    · simp only [Bool.false_eq_true, if_false, List.filter_filter]
      apply List.filter_congr
      intro a _
      by_cases had : a = d
      · subst had
        simp [hsat]
      · simp [had]
    · simp only [if_true]
      apply List.filter_congr
      intro a _
      by_cases had : a = d
      · subst had
        simp [hsat]
      · simp [had]

theorem fcValues_current (c : Constraint) (n : Nat) (dom : List Value) (s : Vars)
    (hs : (s n).is_assigned = false) (u : Nat) :
    (fcValues c n dom s u).current = (s u).current := by
  obtain ⟨h1, h2, _⟩ := fcValues_spec c n dom s hs
  by_cases hu : u = n
  · subst hu
    simp [Variable.current, hs, h2]
  · rw [h1 u hu]

/-- The scan of the constraints connecting `x` and the unassigned neighbour `n`:
only `n` changes, it stays unassigned, and its domain is filtered by the
constraints scanned; the scan reports `false` exactly when it emptied the
domain. -/
theorem fcConstraints_spec (n : Nat) :
    ∀ (cs : List Constraint) (s : Vars), (s n).is_assigned = false →
      (∀ u, u ≠ n → (fcConstraints n cs s).2 u = s u) ∧
      ((fcConstraints n cs s).2 n).is_assigned = false ∧
      (∀ a ∈ ((fcConstraints n cs s).2 n).domain, a ∈ (s n).domain) ∧
      (∀ a ∈ (s n).domain, passes cs s n a = true → a ∈ ((fcConstraints n cs s).2 n).domain) ∧
      ((fcConstraints n cs s).1 = true →
        ((fcConstraints n cs s).2 n).domain = (s n).domain.filter (passes cs s n)) ∧
      ((fcConstraints n cs s).1 = false → ((fcConstraints n cs s).2 n).domain = []) := by
  intro cs
  induction cs with
  | nil =>
    intro s hs
    refine ⟨fun _ _ => rfl, hs, fun a ha => ha, fun a ha _ => ha, fun _ => ?_, fun h => ?_⟩
    · show (s n).domain = List.filter (fun a => passes [] s n a) (s n).domain
      simp [passes]
    · simp [fcConstraints] at h
  | cons c rest ih =>
    intro s hs
    obtain ⟨h1, h2, h3⟩ := fcValues_spec c n (s n).domain s hs
    have h3b : (fcValues c n (s n).domain s n).domain =
        (s n).domain.filter (fun a => c.Satisfiable (tentative s n a)) := by
      rw [h3]
      apply List.filter_congr
      intro a ha
      simp [ha]
    have hcongr : ∀ a, passes rest (fcValues c n (s n).domain s) n a = passes rest s n a := by
      intro a
      unfold passes
      congr 1
      funext c2
      apply tentative_congr
      intro u hu
      rw [h1 u hu]
    by_cases hemp : (fcValues c n (s n).domain s n).domain = []
    · have hres : fcConstraints n (c :: rest) s = (false, fcValues c n (s n).domain s) := by
        rw [fcConstraints]
        simp only [Variable.GetDomain]
        rw [if_pos]
        simp [Variable.SizeDomain, Variable.IsImpossible, hemp, h2]
      rw [hres]
      refine ⟨h1, h2, fun a ha => ?_, fun a ha hp => ?_, fun h => (by cases h), fun _ => hemp⟩
      · rw [hemp] at ha; cases ha
      · exfalso
        have : a ∈ (fcValues c n (s n).domain s n).domain := by
          rw [h3b, List.mem_filter]
          refine ⟨ha, ?_⟩
          simp only [passes, List.all_cons, Bool.and_eq_true] at hp
          exact hp.1
        rw [hemp] at this
        cases this
    · have hres : fcConstraints n (c :: rest) s =
          fcConstraints n rest (fcValues c n (s n).domain s) := by
        rw [fcConstraints]
        simp only [Variable.GetDomain]
        rw [if_neg]
        simp [Variable.SizeDomain, hemp]
      rw [hres]
      obtain ⟨i1, i2, i3, i4, i5, i6⟩ := ih (fcValues c n (s n).domain s) h2
      refine ⟨fun u hu => by rw [i1 u hu, h1 u hu], i2, fun a ha => ?_, fun a ha hp => ?_,
        fun h => ?_, i6⟩
      · have := i3 a ha
        rw [h3b] at this
        exact (List.mem_filter.mp this).1
      · simp only [passes, List.all_cons, Bool.and_eq_true] at hp
        apply i4 a
        · rw [h3b, List.mem_filter]
          exact ⟨ha, hp.1⟩
        · rw [hcongr]
          exact hp.2
      · rw [i5 h, h3b, List.filter_filter]
        apply List.filter_congr
        intro a _
        rw [hcongr]
        simp only [passes, List.all_cons]
        rw [Bool.and_comm]

theorem fcConstraints_current (n : Nat) (cs : List Constraint) (s : Vars)
    (hs : (s n).is_assigned = false) (u : Nat) :
    ((fcConstraints n cs s).2 u).current = (s u).current := by
  obtain ⟨h1, h2, _⟩ := fcConstraints_spec n cs s hs
  by_cases hu : u = n
  · subst hu
    simp [Variable.current, hs, h2]
  · rw [h1 u hu]

theorem fcNeighbors_nil (cg : ConstraintGraph) (x : Nat) (s : Vars) :
    fcNeighbors cg x [] s = (true, s) := rfl

theorem fcNeighbors_cons (cg : ConstraintGraph) (x n : Nat) (rest : List Nat) (s : Vars) :
    fcNeighbors cg x (n :: rest) s =
      if (s n).is_assigned = true then fcNeighbors cg x rest s
      else if (fcConstraints n (cg.GetConnectingConstraints x n) s).1 = true then
        fcNeighbors cg x rest (fcConstraints n (cg.GetConnectingConstraints x n) s).2
      else (false, (fcConstraints n (cg.GetConnectingConstraints x n) s).2) := by
  rw [fcNeighbors]
  simp only [Variable.IsAssigned]
  split
  · rfl
  · cases h : fcConstraints n (cg.GetConnectingConstraints x n) s with
    | mk b t =>
      cases b <;> simp

theorem fcConstraints_sublist (n : Nat) :
    ∀ (cs : List Constraint) (s : Vars), (s n).is_assigned = false →
      ((fcConstraints n cs s).2 n).domain.Sublist (s n).domain := by
  intro cs
  induction cs with
  | nil => intro s _; exact List.Sublist.refl _
  | cons c rest ih =>
    intro s hs
    obtain ⟨_, h2, h3⟩ := fcValues_spec c n (s n).domain s hs
    have hsub : (fcValues c n (s n).domain s n).domain.Sublist (s n).domain := by
      rw [h3]
      exact List.filter_sublist _
    rw [fcConstraints]
    simp only [Variable.GetDomain]
    split
    · exact hsub
    · exact (ih _ h2).trans hsub

/-- The scan of the neighbours of `x`: assigned variables and positions
outside the graph keep their record, unassigned variables stay unassigned and
their domains only shrink. -/
theorem fcNeighbors_spec (cg : ConstraintGraph) (x : Nat) :
    ∀ (ns : List Nat) (s : Vars), (∀ u ∈ ns, u < cg.nvars) →
      Frame cg.nvars s (fcNeighbors cg x ns s).2 ∧
      (∀ u, (s u).is_assigned = false →
        ((fcNeighbors cg x ns s).2 u).is_assigned = false ∧
        ((fcNeighbors cg x ns s).2 u).domain.Sublist (s u).domain) ∧
      (∀ u, ((fcNeighbors cg x ns s).2 u).current = (s u).current) := by
  intro ns
  induction ns with
  | nil =>
    intro s _
    exact ⟨Frame_refl _ _, fun u hu => ⟨hu, List.Sublist.refl _⟩, fun _ => rfl⟩
  | cons n rest ih =>
    intro s hns
    have hrest : ∀ u ∈ rest, u < cg.nvars := fun u hu => hns u (List.mem_cons_of_mem _ hu)
    rw [fcNeighbors_cons]
    split
    · exact ih s hrest
    · next hn =>
      have hn2 : (s n).is_assigned = false := by simpa using hn
      obtain ⟨c1, c2, _⟩ := fcConstraints_spec n (cg.GetConnectingConstraints x n) s hn2
      have c3 := fcConstraints_sublist n (cg.GetConnectingConstraints x n) s hn2
      have hcur := fcConstraints_current n (cg.GetConnectingConstraints x n) s hn2
      have hfr : Frame cg.nvars s (fcConstraints n (cg.GetConnectingConstraints x n) s).2 := by
        intro u hu
        apply c1 u
        intro hun
        subst hun
        rcases hu with hu | hu
        · rw [hn2] at hu; cases hu
        · have := hns u (List.mem_cons_self _ _)
          omega
      have hsh : ∀ u, (s u).is_assigned = false →
          ((fcConstraints n (cg.GetConnectingConstraints x n) s).2 u).is_assigned = false ∧
          ((fcConstraints n (cg.GetConnectingConstraints x n) s).2 u).domain.Sublist
            (s u).domain := by
        intro u hu
        by_cases hun : u = n
        · subst hun
          exact ⟨c2, c3⟩
        · rw [c1 u hun]
          exact ⟨hu, List.Sublist.refl _⟩
      split
      · obtain ⟨i1, i2, i3⟩ := ih (fcConstraints n (cg.GetConnectingConstraints x n) s).2 hrest
        refine ⟨fun u hu => ?_, fun u hu => ?_, fun u => by rw [i3 u, hcur u]⟩
        · have := hfr u hu
          rw [i1 u (by rw [this]; exact hu), this]
        · have h1 := hsh u hu
          have h2 := i2 u h1.1
          exact ⟨h2.1, h2.2.trans h1.2⟩
      · exact ⟨hfr, hsh, hcur⟩

theorem GetNeighbors_lt (cg : ConstraintGraph) (x : Nat) : ∀ u ∈ cg.GetNeighbors x, u < cg.nvars := by
  intro u hu
  unfold ConstraintGraph.GetNeighbors ConstraintGraph.GetAllVariables at hu
  exact List.mem_range.mp (List.mem_filter.mp hu).1

/-- The frame of `ForwardChecking`. -/
theorem ForwardChecking_spec (cg : ConstraintGraph) (s : Vars) (x : Nat) :
    Frame cg.nvars s (ForwardChecking cg s x).2 ∧
    (∀ u, (s u).is_assigned = false →
      ((ForwardChecking cg s x).2 u).is_assigned = false ∧
      ((ForwardChecking cg s x).2 u).domain.Sublist (s u).domain) ∧
    (∀ u, ((ForwardChecking cg s x).2 u).current = (s u).current) :=
  fcNeighbors_spec cg x (cg.GetNeighbors x) s (GetNeighbors_lt cg x)

theorem passes_congr (cs : List Constraint) {s t : Vars} (n : Nat) (d : Value)
    (h : ∀ u, (t u).current = (s u).current) : passes cs t n d = passes cs s n d := by
  unfold passes
  congr 1
  funext c
  exact tentative_congr c n d (fun u _ => h u)

/-- Forward checking keeps every value that passes all connecting
constraints, and succeeds when every unassigned variable has such a value. -/
theorem fcNeighbors_keeps (cg : ConstraintGraph) (x : Nat) (σ : Nat → Value) :
    ∀ (ns : List Nat) (s : Vars), (∀ u ∈ ns, u < cg.nvars) →
      (∀ u < cg.nvars, (s u).is_assigned = false → σ u ∈ (s u).domain) →
      (∀ u ∈ ns, (s u).is_assigned = false →
        passes (cg.GetConnectingConstraints x u) s u (σ u) = true) →
      (fcNeighbors cg x ns s).1 = true ∧
      ∀ u < cg.nvars, (s u).is_assigned = false →
        σ u ∈ ((fcNeighbors cg x ns s).2 u).domain := by
  intro ns
  induction ns with
  | nil =>
    intro s _ hdom _
    exact ⟨rfl, hdom⟩
  | cons n rest ih =>
    intro s hns hdom hpass
    have hrest : ∀ u ∈ rest, u < cg.nvars := fun u hu => hns u (List.mem_cons_of_mem _ hu)
    rw [fcNeighbors_cons]
    split
    · exact ih s hrest hdom (fun u hu => hpass u (List.mem_cons_of_mem _ hu))
    · next hn =>
      have hn2 : (s n).is_assigned = false := by simpa using hn
      obtain ⟨c1, c2, _, c4, _, c6⟩ :=
        fcConstraints_spec n (cg.GetConnectingConstraints x n) s hn2
      have hcur := fcConstraints_current n (cg.GetConnectingConstraints x n) s hn2
      have hmem := c4 (σ n) (hdom n (hns n (List.mem_cons_self _ _)) hn2)
        (hpass n (List.mem_cons_self _ _) hn2)
      have htrue : (fcConstraints n (cg.GetConnectingConstraints x n) s).1 = true := by
        by_contra hf
        have := c6 (by simpa using hf)
        rw [this] at hmem
        cases hmem
      rw [if_pos htrue]
      have hun : ∀ u, ((fcConstraints n (cg.GetConnectingConstraints x n) s).2 u).is_assigned
          = (s u).is_assigned := fun u => is_assigned_of_current (hcur u)
      have key := ih (fcConstraints n (cg.GetConnectingConstraints x n) s).2 hrest
        (fun u hlt hu => by
          rw [hun u] at hu
          by_cases hun2 : u = n
          · subst hun2; exact hmem
          · rw [c1 u hun2]; exact hdom u hlt hu)
        (fun u hu hua => by
          rw [hun u] at hua
          rw [passes_congr _ u (σ u) hcur]
          exact hpass u (List.mem_cons_of_mem _ hu) hua)
      exact ⟨key.1, fun u hlt hu => key.2 u hlt (by rw [hun u]; exact hu)⟩

/-! ## The domain snapshot -/

theorem LoadState_nil (s : Vars) : LoadState s [] = s := rfl

theorem LoadState_cons (s : Vars) (p : Nat × List Value) (rest : List (Nat × List Value)) :
    LoadState s (p :: rest) = LoadState (setVar s p.1 ((s p.1).SetDomain p.2)) rest := rfl

/-- Loading a snapshot taken over a duplicate-free enumeration `l` sets the
domain of every saved variable and touches nothing else. -/
theorem LoadState_filterMap (p : Nat → Bool) (f : Nat → List Value) :
    ∀ (l : List Nat) (s : Vars) (u : Nat), l.Nodup →
      LoadState s (l.filterMap (fun v => if p v then some (v, f v) else none)) u =
        if u ∈ l ∧ p u = true then (s u).SetDomain (f u) else s u := by
  intro l
  induction l with
  | nil => intro s u _; simp [LoadState_nil]
  | cons a rest ih =>
    intro s u hnd
    have hnd2 := (List.nodup_cons.mp hnd)
    cases hpa : p a
    · rw [List.filterMap_cons_none (by simp [hpa]), ih s u hnd2.2]
      by_cases hua : u = a
      · subst hua
        simp [hpa, hnd2.1]
      · simp [hua]
    · rw [List.filterMap_cons_some (b := (a, f a)) (by simp [hpa]), LoadState_cons,
        ih _ u hnd2.2]
      by_cases hua : u = a
      · subst hua
        simp [hpa, hnd2.1]
      · simp [hua, setVar_ne _ _ hua]

/-- Loading the snapshot that `SaveState` took in `s0` puts back the domain of
every variable of the graph that was unassigned in `s0`, `x` apart. -/
theorem LoadState_SaveState (cg : ConstraintGraph) (s0 s : Vars) (x u : Nat) :
    LoadState s (SaveState cg s0 x) u =
      if u < cg.nvars ∧ (s0 u).is_assigned = false ∧ u ≠ x then (s u).SetDomain (s0 u).domain
      else s u := by
  unfold SaveState ConstraintGraph.GetAllVariables
  have := LoadState_filterMap (fun v => !(s0 v).IsAssigned && decide (v ≠ x))
    (fun v => (s0 v).GetDomain) (List.range cg.nvars) s u (List.nodup_range _)
  rw [this]
  simp only [List.mem_range, Variable.IsAssigned, Variable.GetDomain, Bool.and_eq_true,
    Bool.not_eq_true', decide_eq_true_eq]

theorem retireFC_eq (v : Nat) (state : List (Nat × List Value)) (e : Engine) :
    retireFC v state e =
      ({ e with vars := (setVar (LoadState e.vars state) v
          ⟨(LoadState e.vars state v).domain.filter
            (fun a => a != (LoadState e.vars state v).assigned_value),
            false, (LoadState e.vars state v).assigned_value⟩) },
        ((LoadState e.vars state v).domain.filter
            (fun a => a != (LoadState e.vars state v).assigned_value)).isEmpty) := by
  unfold retireFC
  simp only [setVar_same, setVar_setVar, Variable.UnAssign, Variable.RemoveValue,
    Variable.GetValue, Variable.IsImpossible, Bool.not_false, Bool.true_and]

/-! ## Unfolding the forward-checking solver -/

theorem SolveFC_succ (ord : ValueOrder) (cg : ConstraintGraph) (fuel level : Nat) (e : Engine) :
    SolveFC ord cg (fuel + 1) level e =
      if cg.AllVariablesAssigned e.vars then
        some (true, { enter level e with solution_counter := e.solution_counter + 1 })
      else
        loopFC ord cg (SolveFC ord cg fuel (level + 1)) level (MinRemVal cg e.vars)
          (SaveState cg e.vars (MinRemVal cg e.vars)) fuel 0 (enter level e) := rfl

theorem loopFC_succ (ord : ValueOrder) (cg : ConstraintGraph)
    (self : Engine → Option (Bool × Engine)) (level v : Nat) (state : List (Nat × List Value))
    (fuel : Nat) (e : Engine) :
    loopFC ord cg self level v state (fuel + 1) 0 e =
      if 0 < (e.vars v).SizeDomain then
        match descendFC cg self v (attempt ord level v e) with
        | none => none
        | some (true, e3) => some (true, e3)
        | some (false, e3) =>
          match retireFC v state e3 with
          | (e4, true) => some (false, e4)
          | (e4, false) => loopFC ord cg self level v state fuel 0 e4
      else some (false, e) := rfl

/-- The ways in which one pass of the value loop of `SolveFC` ends. -/
theorem loopFC_cases {ord : ValueOrder} {cg : ConstraintGraph}
    {self : Engine → Option (Bool × Engine)} {level v : Nat} {state : List (Nat × List Value)}
    {fuel : Nat} {e : Engine} {r : Bool} {e' : Engine}
    (h : loopFC ord cg self level v state (fuel + 1) 0 e = some (r, e')) :
    ((e.vars v).domain = [] ∧ r = false ∧ e' = e) ∨
    ((e.vars v).domain ≠ [] ∧ ∃ e3,
      (descendFC cg self v (attempt ord level v e) = some (true, e3) ∧ r = true ∧ e' = e3) ∨
      (descendFC cg self v (attempt ord level v e) = some (false, e3) ∧
        (retireFC v state e3).2 = true ∧ r = false ∧ e' = (retireFC v state e3).1) ∨
      (descendFC cg self v (attempt ord level v e) = some (false, e3) ∧
        (retireFC v state e3).2 = false ∧
        loopFC ord cg self level v state fuel 0 (retireFC v state e3).1 = some (r, e'))) := by
  rw [loopFC_succ] at h
  by_cases hd : (e.vars v).domain = []
  · left
    have : ¬ (0 < (e.vars v).SizeDomain) := by simp [Variable.SizeDomain, hd]
    rw [if_neg this] at h
    simp only [Option.some.injEq, Prod.mk.injEq] at h
    exact ⟨hd, h.1.symm, h.2.symm⟩
  · right
    refine ⟨hd, ?_⟩
    have : 0 < (e.vars v).SizeDomain := by
      simp only [Variable.SizeDomain]
      have := List.length_pos.mpr hd
      omega
    rw [if_pos this] at h
    cases hdesc : descendFC cg self v (attempt ord level v e) with
    | none => rw [hdesc] at h; cases h
    | some p =>
      obtain ⟨b, e3⟩ := p
      rw [hdesc] at h
      refine ⟨e3, ?_⟩
      cases b with
      | true =>
        simp only [Option.some.injEq, Prod.mk.injEq] at h
        exact Or.inl ⟨rfl, h.1.symm, h.2.symm⟩
      | false =>
        simp only at h
        cases hret : retireFC v state e3 with
        | mk e4 flag =>
          rw [hret] at h
          cases flag with
          | true =>
            simp only [Option.some.injEq, Prod.mk.injEq] at h
            exact Or.inr (Or.inl ⟨rfl, rfl, h.1.symm, h.2.symm⟩)
          | false =>
            simp only at h
            exact Or.inr (Or.inr ⟨rfl, rfl, h⟩)

theorem descendFC_eq (cg : ConstraintGraph) (self : Engine → Option (Bool × Engine))
    (v : Nat) (e : Engine) :
    descendFC cg self v e =
      if AssignmentIsConsistent cg e.vars v = true then
        if (ForwardChecking cg e.vars v).1 = true then
          self { e with vars := (ForwardChecking cg e.vars v).2 }
        else some (false, { e with vars := (ForwardChecking cg e.vars v).2 })
      else some (false, e) := by
  unfold descendFC
  split
  · cases h : ForwardChecking cg e.vars v with
    | mk b t => cases b <;> simp
  · rfl

/-! ## What the forward-checking solver leaves behind -/

theorem Scratched_refl (n : Nat) (s : Vars) : Scratched n s s :=
  ⟨Frame_refl n s, fun _ h => h⟩

theorem Scratched_current {n : Nat} {s t : Vars} (h : Scratched n s t) (v : Nat) :
    (t v).current = (s v).current := by
  cases hv : (s v).is_assigned with
  | true => rw [h.1 v (Or.inl hv)]
  | false =>
    have := h.2 v hv
    simp [Variable.current, hv, this]

theorem RestoredBut_refl (n v : Nat) (s : Vars) : RestoredBut n v s s :=
  fun _ _ => ⟨fun _ => rfl, fun h => ⟨h, rfl⟩⟩

theorem RestoredBut_trans {n v : Nat} {s t w : Vars} (h1 : RestoredBut n v s t)
    (h2 : RestoredBut n v t w) : RestoredBut n v s w := by
  intro u hu
  refine ⟨fun hs => ?_, fun hs => ?_⟩
  · have h := (h1 u hu).1 hs
    rw [(h2 u hu).1 (by rw [h]; exact hs), h]
  · have h := (h1 u hu).2 hs
    have h3 := (h2 u hu).2 h.1
    exact ⟨h3.1, by rw [h3.2, h.2]⟩

theorem RestoredBut_current {n v : Nat} {s t : Vars} (h : RestoredBut n v s t)
    (hs : (s v).is_assigned = false) (ht : (t v).is_assigned = false) (u : Nat) :
    (t u).current = (s u).current := by
  by_cases hu : u = v
  · subst hu
    simp [Variable.current, hs, ht]
  · cases hv : (s u).is_assigned with
    | true => rw [(h u hu).1 (Or.inl hv)]
    | false =>
      have := ((h u hu).2 hv).1
      simp [Variable.current, hv, this]

theorem Sized_of_RestoredBut {n v : Nat} {s t : Vars} (h : RestoredBut n v s t)
    (hsz : Sized n s) (hs : (s v).is_assigned = false)
    (hlen : (t v).domain.length ≤ (s v).domain.length) : Sized n t := by
  intro u hu hua
  by_cases huv : u = v
  · subst huv
    have := hsz u hu hs
    simp only [Variable.SizeDomain] at this ⊢
    omega
  · cases hsu : (s u).is_assigned with
    | true => rw [(h u huv).1 (Or.inl hsu), hsu] at hua; cases hua
    | false =>
      have := hsz u hu hsu
      simp only [Variable.SizeDomain] at this ⊢
      rw [((h u huv).2 hsu).2]
      exact this

theorem Bounded_of_RestoredBut {n v D : Nat} {s t : Vars} (h : RestoredBut n v s t)
    (hb : Bounded n D s) (hs : (s v).is_assigned = false)
    (hlen : (t v).domain.length ≤ (s v).domain.length) : Bounded n D t := by
  intro u hu hua
  by_cases huv : u = v
  · subst huv
    exact le_trans hlen (hb u hu hs)
  · cases hsu : (s u).is_assigned with
    | true => rw [(h u huv).1 (Or.inl hsu), hsu] at hua; cases hua
    | false =>
      rw [((h u huv).2 hsu).2]
      exact hb u hu hsu

theorem Compatible_of_RestoredBut {n v : Nat} {σ : Nat → Value} {s t : Vars}
    (h : RestoredBut n v s t) (hc : Compatible n σ s) (ht : (t v).is_assigned = false)
    (hmem : σ v ∈ (t v).domain) : Compatible n σ t := by
  intro u hu
  by_cases huv : u = v
  · subst huv
    exact ⟨fun h => (by rw [ht] at h; cases h), fun _ => hmem⟩
  · cases hsu : (s u).is_assigned with
    | true =>
      rw [(h u huv).1 (Or.inl hsu)]
      exact hc u hu
    | false =>
      have h4 := (h u huv).2 hsu
      refine ⟨fun h => ?_, fun _ => ?_⟩
      · rw [h4.1] at h; cases h
      · rw [h4.2]
        exact (hc u hu).2 hsu

theorem Sized_of_shrink {n : Nat} {s t : Vars} (hf : Frame n s t)
    (hsh : ∀ u, (s u).is_assigned = false → (t u).is_assigned = false ∧
      (t u).domain.Sublist (s u).domain) (hsz : Sized n s) : Sized n t := by
  intro u hu hua
  cases hsu : (s u).is_assigned with
  | true => rw [hf u (Or.inl hsu), hsu] at hua; cases hua
  | false =>
    have := hsz u hu hsu
    have hl := (hsh u hsu).2.length_le
    simp only [Variable.SizeDomain] at this ⊢
    omega

theorem Bounded_of_shrink {n D : Nat} {s t : Vars} (hf : Frame n s t)
    (hsh : ∀ u, (s u).is_assigned = false → (t u).is_assigned = false ∧
      (t u).domain.Sublist (s u).domain) (hb : Bounded n D s) : Bounded n D t := by
  intro u hu hua
  cases hsu : (s u).is_assigned with
  | true => rw [hf u (Or.inl hsu), hsu] at hua; cases hua
  | false => exact le_trans (hsh u hsu).2.length_le (hb u hu hsu)

/-- What `descendFC` leaves: after a failed attempt the assignment is that of
the attempt, after a successful one the assignment is complete. -/
theorem descendFC_post {cg : ConstraintGraph} {self : Engine → Option (Bool × Engine)}
    {v : Nat}
    (hself : ∀ e r e', Sized cg.nvars e.vars → self e = some (r, e') →
      PostFC cg e.vars r e'.vars)
    {e : Engine} {r : Bool} {e' : Engine} (hsz : Sized cg.nvars e.vars)
    (h : descendFC cg self v e = some (r, e')) :
    (r = false → Scratched cg.nvars e.vars e'.vars) ∧
    (r = true → Completed cg.nvars e.vars e'.vars) := by
  obtain ⟨f1, f2, _⟩ := ForwardChecking_spec cg e.vars v
  rw [descendFC_eq] at h
  split at h
  · split at h
    · have hsz2 : Sized cg.nvars (ForwardChecking cg e.vars v).2 := Sized_of_shrink f1 f2 hsz
      have hpost : PostFC cg (ForwardChecking cg e.vars v).2 r e'.vars := hself _ r e' hsz2 h
      refine ⟨fun hr => ?_, fun hr => ?_⟩
      · obtain ⟨g1, g2⟩ := hpost.1 hr
        refine ⟨fun u hu => ?_, fun u hu => (g2 u (f2 u hu).1).1⟩
        have := f1 u hu
        rw [g1 u (by rw [this]; exact hu), this]
      · obtain ⟨g1, g2⟩ := hpost.2 hr
        refine ⟨fun u hu => ?_, fun u hu => ⟨(g2 u hu).1, fun hua => ?_⟩⟩
        · have := f1 u hu
          rw [g1 u (by rw [this]; exact hu), this]
        · have h3 := (g2 u hu).2 (f2 u hua).1
          have hsub := (f2 u hua).2.subset
          exact ⟨hsub h3.1, h3.2.1, fun a ha => hsub (h3.2.2 a ha)⟩
    · simp only [Option.some.injEq, Prod.mk.injEq] at h
      obtain ⟨h1, h2⟩ := h
      subst h1 h2
      exact ⟨fun _ => ⟨f1, fun u hu => (f2 u hu).1⟩, fun h => (by cases h)⟩
  · simp only [Option.some.injEq, Prod.mk.injEq] at h
    obtain ⟨h1, h2⟩ := h
    subst h1 h2
    exact ⟨fun _ => Scratched_refl _ _, fun h => (by cases h)⟩

theorem Completed_of_attempt {n : Nat} {ord : ValueOrder} {level v : Nat} {e : Engine}
    {t : Vars} (h : Completed n (attempt ord level v e).vars t) (hv : v < n)
    (hun : (e.vars v).is_assigned = false) (hd : (e.vars v).domain ≠ []) :
    Completed n e.vars t := by
  have hne : ∀ u, (e.vars u).is_assigned = true ∨ n ≤ u → u ≠ v := by
    intro u hu huv
    subst huv
    rcases hu with hu | hu
    · rw [hun] at hu; cases hu
    · omega
  refine ⟨fun u hu => ?_, fun u hu => ⟨(h.2 u hu).1, fun hua => ?_⟩⟩
  · have huv := hne u hu
    rw [h.1 u (by rw [attempt_vars_other ord level e huv]; exact hu),
      attempt_vars_other ord level e huv]
  · by_cases huv : u = v
    · subst huv
      have := h.1 u (Or.inl (by rw [attempt_vars_self]))
      rw [attempt_vars_self] at this
      rw [this]
      exact ⟨ord.choose_mem _ hd, ord.choose_mem _ hd, fun a ha => ha⟩
    · have := (h.2 u hu).2
      rw [attempt_vars_other ord level e huv] at this
      exact this hua

theorem Completed_of_RestoredBut {n v : Nat} {s t w : Vars} (h : RestoredBut n v s t)
    (hv : v < n) (hs : (s v).is_assigned = false) (ht : (t v).is_assigned = false)
    (hsub : ∀ a ∈ (t v).domain, a ∈ (s v).domain) (hc : Completed n t w) :
    Completed n s w := by
  have hne : ∀ u, (s u).is_assigned = true ∨ n ≤ u → u ≠ v := by
    intro u hu huv
    subst huv
    rcases hu with hu | hu
    · rw [hs] at hu; cases hu
    · omega
  refine ⟨fun u hu => ?_, fun u hu => ⟨(hc.2 u hu).1, fun hua => ?_⟩⟩
  · have htu := (h u (hne u hu)).1 hu
    rw [hc.1 u (by rw [htu]; exact hu), htu]
  · by_cases huv : u = v
    · subst huv
      have := (hc.2 u hu).2 ht
      exact ⟨hsub _ this.1, this.2.1, fun a ha => hsub _ (this.2.2 a ha)⟩
    · have h4 := (h u huv).2 hua
      have := (hc.2 u hu).2 h4.1
      rw [h4.2] at this
      exact this

/-- One failed pass of the value loop of `SolveFC`, whose snapshot was taken in
`e0`: every other variable is as before the pass, and the attempted value is
stripped from the domain of `v`. -/
theorem loopFC_step {ord : ValueOrder} {cg : ConstraintGraph}
    {self : Engine → Option (Bool × Engine)} {level v : Nat} (e0 : Vars)
    (hself : ∀ e r e', Sized cg.nvars e.vars → self e = some (r, e') →
      PostFC cg e.vars r e'.vars)
    {e e3 : Engine} (hsz : Sized cg.nvars e.vars)
    (hinv : RestoredBut cg.nvars v e0 e.vars)
    (hdesc : descendFC cg self v (attempt ord level v e) = some (false, e3)) :
    Scratched cg.nvars (attempt ord level v e).vars e3.vars ∧
    (retireFC v (SaveState cg e0 v) e3).2 =
      ((e.vars v).domain.filter (fun a => a != ord.choose (e.vars v).domain)).isEmpty ∧
    (retireFC v (SaveState cg e0 v) e3).1 =
      { e3 with vars := (retireFC v (SaveState cg e0 v) e3).1.vars } ∧
    (retireFC v (SaveState cg e0 v) e3).1.vars v =
      ⟨(e.vars v).domain.filter (fun a => a != ord.choose (e.vars v).domain), false,
        ord.choose (e.vars v).domain⟩ ∧
    RestoredBut cg.nvars v e.vars (retireFC v (SaveState cg e0 v) e3).1.vars := by
  have hpost := (descendFC_post hself (Sized_attempt ord level v e hsz) hdesc).1 rfl
  have hLv : LoadState e3.vars (SaveState cg e0 v) v =
      ⟨(e.vars v).domain, true, ord.choose (e.vars v).domain⟩ := by
    rw [LoadState_SaveState, if_neg (by simp),
      hpost.1 v (Or.inl (by rw [attempt_vars_self])), attempt_vars_self]
  refine ⟨hpost, ?_, ?_, ?_, ?_⟩
  · rw [retireFC_eq]
    simp only [hLv]
  · rw [retireFC_eq]
  · rw [retireFC_eq]
    simp only [hLv, setVar_same]
  · intro u huv
    rw [retireFC_eq]
    simp only [setVar_ne _ _ huv]
    rw [LoadState_SaveState]
    have h2u : (attempt ord level v e).vars u = e.vars u := attempt_vars_other ord level e huv
    constructor
    · intro hu
      have h3u : e3.vars u = e.vars u := by
        rw [hpost.1 u (by rw [h2u]; exact hu), h2u]
      split
      · next hcond =>
        exfalso
        have := ((hinv u huv).2 hcond.2.1).1
        rcases hu with hu | hu
        · rw [this] at hu; cases hu
        · omega
      · exact h3u
    · intro hu
      have h3u : (e3.vars u).is_assigned = false := hpost.2 u (by rw [h2u]; exact hu)
      split
      · next hcond =>
        exact ⟨h3u, by rw [← ((hinv u huv).2 hcond.2.1).2]; rfl⟩
      · next hcond =>
        have hcase : cg.nvars ≤ u ∨ (e0 u).is_assigned = true := by
          by_contra hno
          apply hcond
          push_neg at hno
          exact ⟨by omega, by simpa using hno.2, huv⟩
        rcases hcase with hge | h0a
        · have : e3.vars u = e.vars u := by
            rw [hpost.1 u (Or.inr hge), h2u]
          rw [this]
          exact ⟨hu, rfl⟩
        · have := (hinv u huv).1 (Or.inl h0a)
          rw [this, h0a] at hu
          cases hu

theorem loopFC_post {ord : ValueOrder} {cg : ConstraintGraph}
    {self : Engine → Option (Bool × Engine)} {level v : Nat} (e0 : Vars)
    (hself : ∀ e r e', Sized cg.nvars e.vars → self e = some (r, e') →
      PostFC cg e.vars r e'.vars)
    (hv : v < cg.nvars) :
    ∀ (fuel : Nat) (e : Engine) (r : Bool) (e' : Engine), Sized cg.nvars e.vars →
      (e.vars v).is_assigned = false → RestoredBut cg.nvars v e0 e.vars →
      loopFC ord cg self level v (SaveState cg e0 v) fuel 0 e = some (r, e') →
      (r = false → RestoredBut cg.nvars v e.vars e'.vars ∧
        (e'.vars v).is_assigned = false ∧ (e'.vars v).domain = []) ∧
      (r = true → Completed cg.nvars e.vars e'.vars) := by
  intro fuel
  induction fuel with
  | zero => intro e r e' _ _ _ h; cases h
  | succ fuel ih =>
    intro e r e' hsz hun hinv h
    rcases loopFC_cases h with ⟨hd, hr, he⟩ | ⟨hd, e3, ⟨hdesc, hr, he⟩ | ⟨hdesc, hflag, hr, he⟩ |
      ⟨hdesc, hflag, hloop⟩⟩
    · subst hr he
      exact ⟨fun _ => ⟨RestoredBut_refl _ _ _, hun, hd⟩, fun h => (by cases h)⟩
    · subst hr he
      have hpost := (descendFC_post hself (Sized_attempt ord level v e hsz) hdesc).2 rfl
      exact ⟨fun h => (by cases h), fun _ => Completed_of_attempt hpost hv hun hd⟩
    · obtain ⟨_, hfl, _, hv4, hrb⟩ := loopFC_step e0 hself hsz hinv hdesc
      subst hr he
      refine ⟨fun _ => ⟨hrb, ?_, ?_⟩, fun h => (by cases h)⟩
      · rw [hv4]
      · rw [hv4]
        rw [hfl] at hflag
        exact List.isEmpty_iff.mp hflag
    · obtain ⟨_, hfl, _, hv4, hrb⟩ := loopFC_step e0 hself hsz hinv hdesc
      have hun4 : ((retireFC v (SaveState cg e0 v) e3).1.vars v).is_assigned = false := by
        rw [hv4]
      have hsub4 : ∀ a ∈ ((retireFC v (SaveState cg e0 v) e3).1.vars v).domain,
          a ∈ (e.vars v).domain := by
        rw [hv4]
        exact fun a ha => (List.mem_filter.mp ha).1
      have hlen4 : ((retireFC v (SaveState cg e0 v) e3).1.vars v).domain.length ≤
          (e.vars v).domain.length := by
        rw [hv4]
        exact List.length_filter_le _ _
      have key := ih _ r e' (Sized_of_RestoredBut hrb hsz hun hlen4) hun4 (RestoredBut_trans hinv hrb) hloop
      refine ⟨fun hr => ?_, fun hr => ?_⟩
      · obtain ⟨k1, k2, k3⟩ := key.1 hr
        exact ⟨RestoredBut_trans hrb k1, k2, k3⟩
      · exact Completed_of_RestoredBut hrb hv hun hun4 hsub4 (key.2 hr)

/-- The postcondition of `SolveFC`: a failed invocation unassigns what it
assigned and hands back every domain but that of the variable it selected,
which is left empty; a successful one completes the assignment with values of
the domains it found. -/
theorem SolveFC_post (ord : ValueOrder) (cg : ConstraintGraph) :
    ∀ (fuel level : Nat) (e : Engine) (r : Bool) (e' : Engine), Sized cg.nvars e.vars →
      SolveFC ord cg fuel level e = some (r, e') → PostFC cg e.vars r e'.vars := by
  intro fuel
  induction fuel with
  | zero => intro level e r e' _ h; cases h
  | succ fuel ih =>
    intro level e r e' hsz h
    rw [SolveFC_succ] at h
    split at h
    · next hall =>
      simp only [Option.some.injEq, Prod.mk.injEq] at h
      obtain ⟨h1, h2⟩ := h
      subst h1 h2
      exact ⟨fun h => (by cases h),
        fun _ => Completed_of_all_assigned ((AllVariablesAssigned_iff cg e.vars).mp hall)⟩
    · next hall =>
      have hall2 : cg.AllVariablesAssigned e.vars = false := by simpa using hall
      obtain ⟨hv, hun⟩ := MinRemVal_unassigned cg e.vars hsz hall2
      have key := loopFC_post e.vars (ih (level + 1)) hv fuel (enter level e) r e' hsz hun
        (RestoredBut_refl _ _ _) h
      refine ⟨fun hr => ?_, fun hr => key.2 hr⟩
      obtain ⟨k1, k2, k3⟩ := key.1 hr
      refine ⟨fun u hu => ?_, fun u hu => ?_⟩
      · apply (k1 u ?_).1 hu
        intro huv
        subst huv
        rcases hu with hu | hu
        · change (e.vars (MinRemVal cg e.vars)).is_assigned = true at hu
          rw [hun] at hu; cases hu
        · omega
      · by_cases huv : u = MinRemVal cg e.vars
        · subst huv
          rw [if_pos rfl]
          exact ⟨k2, k3⟩
        · rw [if_neg huv]
          exact (k1 u huv).2 hu

/-! ## Soundness of the forward-checking solver -/

theorem loopFC_sound {ord : ValueOrder} {cg : ConstraintGraph}
    {self : Engine → Option (Bool × Engine)} {level v : Nat} (e0 : Vars)
    (hself : ∀ e r e', Sized cg.nvars e.vars → self e = some (r, e') →
      PostFC cg e.vars r e'.vars)
    (hsound : ∀ e e', Sized cg.nvars e.vars → Checked cg e.vars → self e = some (true, e') →
      Checked cg e'.vars) :
    ∀ (fuel : Nat) (e : Engine) (e' : Engine), Sized cg.nvars e.vars →
      (e.vars v).is_assigned = false → RestoredBut cg.nvars v e0 e.vars → Checked cg e.vars →
      loopFC ord cg self level v (SaveState cg e0 v) fuel 0 e = some (true, e') →
      Checked cg e'.vars := by
  intro fuel
  induction fuel with
  | zero => intro e e' _ _ _ _ h; cases h
  | succ fuel ih =>
    intro e e' hsz hun hinv hch h
    rcases loopFC_cases h with ⟨_, hr, _⟩ | ⟨hd, e3, ⟨hdesc, _, he⟩ | ⟨_, _, hr, _⟩ |
      ⟨hdesc, hflag, hloop⟩⟩
    · cases hr
    · subst he
      obtain ⟨f1, f2, f3⟩ := ForwardChecking_spec cg (attempt ord level v e).vars v
      rw [descendFC_eq] at hdesc
      split at hdesc
      · next hcons =>
        split at hdesc
        · exact hsound _ _ (Sized_of_shrink f1 f2 (Sized_attempt ord level v e hsz))
            (Checked_of_current f3 (Checked_attempt hch hcons)) hdesc
        · simp at hdesc
      · simp at hdesc
    · cases hr
    · obtain ⟨_, hfl, _, hv4, hrb⟩ := loopFC_step e0 hself hsz hinv hdesc
      have hun4 : ((retireFC v (SaveState cg e0 v) e3).1.vars v).is_assigned = false := by
        rw [hv4]
      have hlen4 : ((retireFC v (SaveState cg e0 v) e3).1.vars v).domain.length ≤
          (e.vars v).domain.length := by
        rw [hv4]
        exact List.length_filter_le _ _
      exact ih _ e' (Sized_of_RestoredBut hrb hsz hun hlen4) hun4 (RestoredBut_trans hinv hrb)
        (Checked_of_current (RestoredBut_current hrb hun hun4) hch) hloop

theorem SolveFC_sound_aux (ord : ValueOrder) (cg : ConstraintGraph) :
    ∀ (fuel level : Nat) (e e' : Engine), Sized cg.nvars e.vars → Checked cg e.vars →
      SolveFC ord cg fuel level e = some (true, e') → Checked cg e'.vars := by
  intro fuel
  induction fuel with
  | zero => intro level e e' _ _ h; cases h
  | succ fuel ih =>
    intro level e e' hsz hch h
    rw [SolveFC_succ] at h
    split at h
    · simp only [Option.some.injEq, Prod.mk.injEq, true_and] at h
      subst h
      exact hch
    · next hall =>
      have hall2 : cg.AllVariablesAssigned e.vars = false := by simpa using hall
      obtain ⟨_, hun⟩ := MinRemVal_unassigned cg e.vars hsz hall2
      exact loopFC_sound e.vars (SolveFC_post ord cg fuel (level + 1)) (ih (level + 1)) fuel
        (enter level e) e' hsz hun (RestoredBut_refl _ _ _) hch h

/-- C2: when the top-level `SolveFC(0)` on an all-unassigned graph returns
`true`, every variable is assigned and every constraint of the graph reports
`Satisfiable()`. -/
theorem SolveFC_sound (ord : ValueOrder) (cg : ConstraintGraph) (s : Vars)
    (fuel : Nat) (e' : Engine)
    (hun : ∀ v < cg.nvars, (s v).is_assigned = false) (hsz : Sized cg.nvars s)
    (hsc : cg.Scoped)
    (h : SolveFC ord cg fuel 0 (Engine.init s) = some (true, e')) :
    (∀ v < cg.nvars, (e'.vars v).is_assigned = true) ∧
      ∀ c ∈ cg.constraints, c.Satisfiable e'.vars = true := by
  have hpost := (SolveFC_post ord cg fuel 0 (Engine.init s) true e' hsz h).2 rfl
  have hch := SolveFC_sound_aux ord cg fuel 0 (Engine.init s) e' hsz
    (Checked_of_unassigned hsc hun) h
  refine ⟨fun v hv => (hpost.2 v hv).1, fun c hc => hch c hc (fun v hv => ?_)⟩
  exact (hpost.2 v ((hsc c hc).2 v hv)).1

theorem SolveFC_sound_witness :
    ∃ e', SolveFC firstValue triangle 7 0 (Engine.init (freshVars fun _ => [1, 2, 3])) =
        some (true, e') ∧
      (∀ v < 3, (e'.vars v).is_assigned = true) ∧
      ∀ c ∈ triangle.constraints, c.Satisfiable e'.vars = true := by
  obtain ⟨e', hrun⟩ := result_of_outcome
    (SolveFC firstValue triangle 7 0 (Engine.init (freshVars fun _ => [1, 2, 3]))) true
    (by decide!)
  exact ⟨e', hrun, SolveFC_sound firstValue triangle (freshVars fun _ => [1, 2, 3]) 7 e'
    (by decide) (by unfold Sized; decide) triangle_Scoped hrun⟩

/-! ## Termination of the forward-checking solver -/

theorem loopFC_terminates {ord : ValueOrder} {cg : ConstraintGraph} {D U : Nat}
    {self : Engine → Option (Bool × Engine)} {level v : Nat} (e0 : Vars)
    (hself : ∀ e r e', Sized cg.nvars e.vars → self e = some (r, e') →
      PostFC cg e.vars r e'.vars)
    (hterm : ∀ e, Sized cg.nvars e.vars → Bounded cg.nvars D e.vars →
      (unassigned cg.nvars e.vars).card + 1 ≤ U → ∃ r e', self e = some (r, e'))
    (hv : v < cg.nvars) :
    ∀ (fuel : Nat) (e : Engine), Sized cg.nvars e.vars → Bounded cg.nvars D e.vars →
      (e.vars v).is_assigned = false → RestoredBut cg.nvars v e0 e.vars →
      (unassigned cg.nvars e.vars).card ≤ U →
      (e.vars v).domain.length + 1 ≤ fuel →
      ∃ r e', loopFC ord cg self level v (SaveState cg e0 v) fuel 0 e = some (r, e') := by
  intro fuel
  induction fuel with
  | zero => intro e _ _ _ _ _ h; omega
  | succ fuel ih =>
    intro e hsz hb hun hinv hcard hlen
    rw [loopFC_succ]
    by_cases hd : (e.vars v).domain = []
    · have : ¬ (0 < (e.vars v).SizeDomain) := by simp [Variable.SizeDomain, hd]
      rw [if_neg this]
      exact ⟨false, e, rfl⟩
    · have hpos : 0 < (e.vars v).SizeDomain := by
        simp only [Variable.SizeDomain]
        have := List.length_pos.mpr hd
        omega
      rw [if_pos hpos]
      have hdesc : ∃ r e3, descendFC cg self v (attempt ord level v e) = some (r, e3) := by
        obtain ⟨f1, f2, f3⟩ := ForwardChecking_spec cg (attempt ord level v e).vars v
        rw [descendFC_eq]
        split
        · split
          · apply hterm _ (Sized_of_shrink f1 f2 (Sized_attempt ord level v e hsz))
              (Bounded_of_shrink f1 f2 (Bounded_attempt ord level v e hb))
            have := card_unassigned_attempt ord level e hv hun
            have hc : unassigned cg.nvars (ForwardChecking cg (attempt ord level v e).vars v).2
                = unassigned cg.nvars (attempt ord level v e).vars :=
              unassigned_congr (fun u => is_assigned_of_current (f3 u))
            change (unassigned cg.nvars
              (ForwardChecking cg (attempt ord level v e).vars v).2).card + 1 ≤ U
            rw [hc]
            omega
          · exact ⟨false, _, rfl⟩
        · exact ⟨false, _, rfl⟩
      obtain ⟨r, e3, hdesc⟩ := hdesc
      rw [hdesc]
      cases r with
      | true => exact ⟨true, e3, rfl⟩
      | false =>
        simp only
        cases hret : retireFC v (SaveState cg e0 v) e3 with
        | mk e4 flag =>
          cases flag with
          | true => exact ⟨false, e4, rfl⟩
          | false =>
            simp only
            have hflag : (retireFC v (SaveState cg e0 v) e3).2 = false := by rw [hret]
            have he4 : e4 = (retireFC v (SaveState cg e0 v) e3).1 := by rw [hret]
            obtain ⟨_, hfl, _, hv4, hrb⟩ := loopFC_step e0 hself hsz hinv hdesc
            have hun4 : ((retireFC v (SaveState cg e0 v) e3).1.vars v).is_assigned = false := by
              rw [hv4]
            have hlen4 : ((retireFC v (SaveState cg e0 v) e3).1.vars v).domain.length ≤
                (e.vars v).domain.length := by
              rw [hv4]
              exact List.length_filter_le _ _
            rw [he4]
            apply ih _ (Sized_of_RestoredBut hrb hsz hun hlen4)
              (Bounded_of_RestoredBut hrb hb hun hlen4) hun4 (RestoredBut_trans hinv hrb)
            · rw [unassigned_congr (fun u => is_assigned_of_current
                (RestoredBut_current hrb hun hun4 u))]
              exact hcard
            · rw [hv4]
              have := length_filter_ne_lt (ord.choose_mem _ hd)
              simp only
              omega

/-- With `U` variables unassigned and at most `D` values in every domain,
`SolveFC` returns within `U + D + 1` units of fuel. -/
theorem SolveFC_terminates (ord : ValueOrder) (cg : ConstraintGraph) (D : Nat) :
    ∀ (fuel level : Nat) (e : Engine), Sized cg.nvars e.vars → Bounded cg.nvars D e.vars →
      (unassigned cg.nvars e.vars).card + D + 1 ≤ fuel →
      ∃ r e', SolveFC ord cg fuel level e = some (r, e') := by
  intro fuel
  induction fuel with
  | zero => intro level e _ _ h; omega
  | succ fuel ih =>
    intro level e hsz hb hfuel
    rw [SolveFC_succ]
    split
    · exact ⟨true, _, rfl⟩
    · next hall =>
      have hall2 : cg.AllVariablesAssigned e.vars = false := by simpa using hall
      obtain ⟨hv, hun⟩ := MinRemVal_unassigned cg e.vars hsz hall2
      have hmem : MinRemVal cg e.vars ∈ unassigned cg.nvars e.vars := by
        simp [unassigned, hv, hun]
      have hpos := Finset.card_pos.mpr ⟨_, hmem⟩
      apply loopFC_terminates e.vars (SolveFC_post ord cg fuel (level + 1))
        (fun e2 h1 h2 h3 => ih (level + 1) e2 h1 h2 (by
          change _ + 1 ≤ (unassigned cg.nvars e.vars).card at h3
          omega)) hv fuel (enter level e)
        hsz hb hun (RestoredBut_refl _ _ _) (le_refl _)
      have := hb _ hv hun
      show (e.vars (MinRemVal cg e.vars)).domain.length + 1 ≤ fuel
      omega

/-! ## Completeness of the forward-checking solver -/

theorem Compatible_tentative {n : Nat} {σ : Nat → Value} {s : Vars} (u : Nat)
    (hc : Compatible n σ s) : Compatible n σ (tentative s u (σ u)) := by
  intro w hw
  by_cases hwu : w = u
  · subst hwu
    simp only [tentative, setVar_same, Variable.AssignValue]
    exact ⟨fun _ => trivial, fun h => (by cases h)⟩
  · simp only [tentative, setVar_ne _ _ hwu]
    exact hc w hw

/-- Forward checking from a state that a solution extends succeeds and keeps
the values of the solution. -/
theorem ForwardChecking_keeps {cg : ConstraintGraph} {σ : Nat → Value} {s : Vars} (x : Nat)
    (hsc : cg.Scoped) (hperm : ∀ c ∈ cg.constraints, c.Permissive)
    (hsol : ∀ c ∈ cg.constraints, c.Satisfiable (total σ) = true)
    (hc : Compatible cg.nvars σ s) :
    (ForwardChecking cg s x).1 = true ∧ Compatible cg.nvars σ (ForwardChecking cg s x).2 := by
  obtain ⟨f1, f2, _⟩ := ForwardChecking_spec cg s x
  have key := fcNeighbors_keeps cg x σ (cg.GetNeighbors x) s (GetNeighbors_lt cg x)
    (fun u hu hua => (hc u hu).2 hua)
    (fun u _ _ => by
      unfold passes
      rw [List.all_eq_true]
      intro c hcm
      have hcc : c ∈ cg.constraints := (List.mem_filter.mp hcm).1
      exact Satisfiable_of_Compatible hsc hperm hsol (Compatible_tentative u hc) c hcc)
  refine ⟨key.1, fun u hu => ?_⟩
  cases hsu : (s u).is_assigned with
  | true =>
    have : (ForwardChecking cg s x).2 u = s u := f1 u (Or.inl hsu)
    rw [this]
    exact hc u hu
  | false =>
    refine ⟨fun h => ?_, fun _ => key.2 u hu hsu⟩
    rw [(f2 u hsu).1] at h
    cases h

/-- A failed attempt of `SolveFC` did not try the value of a solution. -/
theorem descendFC_misses {ord : ValueOrder} {cg : ConstraintGraph} {σ : Nat → Value}
    {self : Engine → Option (Bool × Engine)} {level v : Nat}
    (hsc : cg.Scoped) (hperm : ∀ c ∈ cg.constraints, c.Permissive)
    (hsol : ∀ c ∈ cg.constraints, c.Satisfiable (total σ) = true)
    (hcompl : ∀ e r e', Sized cg.nvars e.vars → Compatible cg.nvars σ e.vars →
      self e = some (r, e') → r = true)
    {e e3 : Engine} (hsz : Sized cg.nvars e.vars) (hcomp : Compatible cg.nvars σ e.vars)
    (hdesc : descendFC cg self v (attempt ord level v e) = some (false, e3)) :
    ord.choose (e.vars v).domain ≠ σ v := by
  intro ha
  have hcomp2 := Compatible_attempt ord level hcomp ha
  have hcons : AssignmentIsConsistent cg (attempt ord level v e).vars v = true := by
    rw [AssignmentIsConsistent_iff]
    intro c hc _
    exact Satisfiable_of_Compatible hsc hperm hsol hcomp2 c hc
  obtain ⟨f1, f2, _⟩ := ForwardChecking_spec cg (attempt ord level v e).vars v
  obtain ⟨k1, k2⟩ := ForwardChecking_keeps v hsc hperm hsol hcomp2
  rw [descendFC_eq, if_pos hcons, if_pos k1] at hdesc
  have := hcompl _ _ _ (Sized_of_shrink f1 f2 (Sized_attempt ord level v e hsz)) k2 hdesc
  cases this

theorem loopFC_complete {ord : ValueOrder} {cg : ConstraintGraph} {σ : Nat → Value}
    {self : Engine → Option (Bool × Engine)} {level v : Nat} (e0 : Vars)
    (hsc : cg.Scoped) (hperm : ∀ c ∈ cg.constraints, c.Permissive)
    (hsol : ∀ c ∈ cg.constraints, c.Satisfiable (total σ) = true)
    (hself : ∀ e r e', Sized cg.nvars e.vars → self e = some (r, e') →
      PostFC cg e.vars r e'.vars)
    (hcompl : ∀ e r e', Sized cg.nvars e.vars → Compatible cg.nvars σ e.vars →
      self e = some (r, e') → r = true)
    (hv : v < cg.nvars) :
    ∀ (fuel : Nat) (e : Engine) (r : Bool) (e' : Engine), Sized cg.nvars e.vars →
      (e.vars v).is_assigned = false → RestoredBut cg.nvars v e0 e.vars →
      Compatible cg.nvars σ e.vars →
      loopFC ord cg self level v (SaveState cg e0 v) fuel 0 e = some (r, e') → r = true := by
  intro fuel
  induction fuel with
  | zero => intro e r e' _ _ _ _ h; cases h
  | succ fuel ih =>
    intro e r e' hsz hun hinv hcomp h
    have hmem : σ v ∈ (e.vars v).domain := (hcomp v hv).2 hun
    rcases loopFC_cases h with ⟨hd, _, _⟩ | ⟨hd, e3, ⟨_, hr, _⟩ | ⟨hdesc, hflag, _, _⟩ |
      ⟨hdesc, hflag, hloop⟩⟩
    · rw [hd] at hmem; cases hmem
    · exact hr
    · exfalso
      have hmiss := descendFC_misses hsc hperm hsol hcompl hsz hcomp hdesc
      obtain ⟨_, hfl, _, _, _⟩ := loopFC_step e0 hself hsz hinv hdesc
      rw [hfl, List.isEmpty_iff] at hflag
      have : σ v ∈ (e.vars v).domain.filter (fun a => a != ord.choose (e.vars v).domain) := by
        rw [List.mem_filter]
        exact ⟨hmem, by simpa using fun h => hmiss h.symm⟩
      rw [hflag] at this
      cases this
    · have hmiss := descendFC_misses hsc hperm hsol hcompl hsz hcomp hdesc
      obtain ⟨_, hfl, _, hv4, hrb⟩ := loopFC_step e0 hself hsz hinv hdesc
      have hun4 : ((retireFC v (SaveState cg e0 v) e3).1.vars v).is_assigned = false := by
        rw [hv4]
      have hlen4 : ((retireFC v (SaveState cg e0 v) e3).1.vars v).domain.length ≤
          (e.vars v).domain.length := by
        rw [hv4]
        exact List.length_filter_le _ _
      refine ih _ r e' (Sized_of_RestoredBut hrb hsz hun hlen4) hun4 (RestoredBut_trans hinv hrb) ?_ hloop
      apply Compatible_of_RestoredBut hrb hcomp hun4
      rw [hv4]
      simp only
      rw [List.mem_filter]
      exact ⟨hmem, by simpa using fun h => hmiss h.symm⟩

theorem SolveFC_complete_aux (ord : ValueOrder) (cg : ConstraintGraph) (σ : Nat → Value)
    (hsc : cg.Scoped) (hperm : ∀ c ∈ cg.constraints, c.Permissive)
    (hsol : ∀ c ∈ cg.constraints, c.Satisfiable (total σ) = true) :
    ∀ (fuel level : Nat) (e : Engine) (r : Bool) (e' : Engine), Sized cg.nvars e.vars →
      Compatible cg.nvars σ e.vars → SolveFC ord cg fuel level e = some (r, e') →
      r = true := by
  intro fuel
  induction fuel with
  | zero => intro level e r e' _ _ h; cases h
  | succ fuel ih =>
    intro level e r e' hsz hcomp h
    rw [SolveFC_succ] at h
    split at h
    · simp only [Option.some.injEq, Prod.mk.injEq] at h
      exact h.1.symm
    · next hall =>
      have hall2 : cg.AllVariablesAssigned e.vars = false := by simpa using hall
      obtain ⟨hv, hun⟩ := MinRemVal_unassigned cg e.vars hsz hall2
      exact loopFC_complete e.vars hsc hperm hsol (SolveFC_post ord cg fuel (level + 1))
        (ih (level + 1)) hv fuel (enter level e) r e' hsz hun (RestoredBut_refl _ _ _) hcomp h

/-- On an all-unassigned graph with permissive constraints `SolveFC(0)`
returns, with `true` exactly when a solution over the domains exists. -/
theorem SolveFC_decides (ord : ValueOrder) (cg : ConstraintGraph) (s : Vars)
    (hun : ∀ v < cg.nvars, (s v).is_assigned = false) (hsz : Sized cg.nvars s)
    (hsc : cg.Scoped) (hperm : ∀ c ∈ cg.constraints, c.Permissive) :
    ∀ fuel, cg.nvars + maxDomain cg.nvars s + 1 ≤ fuel →
      ∃ r e', SolveFC ord cg fuel 0 (Engine.init s) = some (r, e') ∧
        ((∃ σ, IsSolution cg s σ) → r = true) ∧ ((¬ ∃ σ, IsSolution cg s σ) → r = false) := by
  intro fuel hfuel
  have hcard : (unassigned cg.nvars s).card ≤ cg.nvars := by
    have := Finset.card_filter_le (Finset.range cg.nvars) (fun v => (s v).is_assigned = false)
    simpa [unassigned] using this
  obtain ⟨r, e', hrun⟩ := SolveFC_terminates ord cg (maxDomain cg.nvars s) fuel 0
    (Engine.init s) hsz (Bounded_maxDomain cg.nvars s) (by
      change (unassigned cg.nvars s).card + _ + 1 ≤ fuel
      omega)
  refine ⟨r, e', hrun, ?_, ?_⟩
  · rintro ⟨σ, hdom, hsol⟩
    exact SolveFC_complete_aux ord cg σ hsc hperm hsol fuel 0 (Engine.init s) r e' hsz
      (Compatible_of_unassigned hun hdom) hrun
  · intro hno
    cases r with
    | false => rfl
    | true =>
      exfalso
      apply hno
      have hpost := (SolveFC_post ord cg fuel 0 (Engine.init s) true e' hsz hrun).2 rfl
      have hsat := (SolveFC_sound_aux ord cg fuel 0 (Engine.init s) e' hsz
        (Checked_of_unassigned hsc hun) hrun)
      exact ⟨_, IsSolution_of_Completed hsc hun hpost (fun c hc => hsat c hc
        (fun v hv => (hpost.2 v ((hsc c hc).2 v hv)).1))⟩

/-- C4: on an all-unassigned graph with permissive constraints `SolveFC(0)`
and `SolveDFS(0)`, each run from the same start, both return and return the
same Boolean. -/
theorem SolveFC_SolveDFS_same_outcome (ord : ValueOrder) (cg : ConstraintGraph) (s : Vars)
    (hun : ∀ v < cg.nvars, (s v).is_assigned = false) (hsz : Sized cg.nvars s)
    (hsc : cg.Scoped) (hperm : ∀ c ∈ cg.constraints, c.Permissive) :
    ∀ fuel, cg.nvars + maxDomain cg.nvars s + 1 ≤ fuel →
      ∃ r e1 e2, SolveFC ord cg fuel 0 (Engine.init s) = some (r, e1) ∧
        SolveDFS ord cg fuel 0 (Engine.init s) = some (r, e2) := by
  intro fuel hfuel
  obtain ⟨r1, e1, hfc, ht1, hf1⟩ := SolveFC_decides ord cg s hun hsz hsc hperm fuel hfuel
  obtain ⟨r2, e2, hdfs, ht2, hf2⟩ := SolveDFS_decides ord cg s hun hsz hsc hperm fuel hfuel
  by_cases hex : ∃ σ, IsSolution cg s σ
  · rw [ht1 hex] at hfc
    rw [ht2 hex] at hdfs
    exact ⟨true, e1, e2, hfc, hdfs⟩
  · rw [hf1 hex] at hfc
    rw [hf2 hex] at hdfs
    exact ⟨false, e1, e2, hfc, hdfs⟩

theorem SolveFC_SolveDFS_same_outcome_witness :
    (∃ r e1 e2, SolveFC firstValue triangle 6 0 (Engine.init (freshVars fun _ => [1, 2])) =
        some (r, e1) ∧
      SolveDFS firstValue triangle 6 0 (Engine.init (freshVars fun _ => [1, 2])) =
        some (r, e2)) ∧
    (SolveFC firstValue triangle 6 0 (Engine.init (freshVars fun _ => [1, 2]))).map Prod.fst =
      some false :=
  ⟨SolveFC_SolveDFS_same_outcome firstValue triangle (freshVars fun _ => [1, 2]) (by decide)
    (by unfold Sized; decide) triangle_Scoped triangle_Permissive 6 (by decide), by decide!⟩

/-! ## No value is attempted twice -/

theorem attemptsAt_append (L : Nat) (xs ys : List Event) :
    attemptsAt L (xs ++ ys) = attemptsAt L xs ++ attemptsAt L ys := by
  unfold attemptsAt
  exact List.filterMap_append _ _ _

theorem attemptsAt_deeper {L : Nat} {evs : List Event} (h : ∀ ev ∈ evs, L + 1 ≤ ev.level) :
    attemptsAt L evs = [] := by
  unfold attemptsAt
  rw [List.filterMap_eq_nil_iff]
  intro ev hev
  have := h ev hev
  cases ev with
  | call l => rfl
  | attempt l v a =>
    simp only [Event.level] at this
    have : ¬ l = L := by omega
    simp [this]

theorem LogsFrom_refl (L : Nat) (e : Engine) : LogsFrom L e e :=
  ⟨[], rfl, fun _ h => by cases h⟩

theorem descendDFS_logs {cg : ConstraintGraph} {self : Engine → Option (Bool × Engine)}
    {v L : Nat} (hlog : ∀ e r e', Sized cg.nvars e.vars → self e = some (r, e') → LogsFrom L e e')
    {e : Engine} {r : Bool} {e' : Engine} (hsz : Sized cg.nvars e.vars)
    (h : descendDFS cg self v e = some (r, e')) : LogsFrom L e e' := by
  unfold descendDFS at h
  split at h
  · exact hlog e r e' hsz h
  · simp only [Option.some.injEq, Prod.mk.injEq] at h
    rw [← h.2]
    exact LogsFrom_refl _ _

theorem descendFC_logs {cg : ConstraintGraph} {self : Engine → Option (Bool × Engine)}
    {v L : Nat} (hlog : ∀ e r e', Sized cg.nvars e.vars → self e = some (r, e') → LogsFrom L e e')
    {e : Engine} {r : Bool} {e' : Engine} (hsz : Sized cg.nvars e.vars)
    (h : descendFC cg self v e = some (r, e')) : LogsFrom L e e' := by
  obtain ⟨f1, f2, _⟩ := ForwardChecking_spec cg e.vars v
  rw [descendFC_eq] at h
  split at h
  · split at h
    · have hsz2 : Sized cg.nvars (ForwardChecking cg e.vars v).2 := Sized_of_shrink f1 f2 hsz
      have := hlog { e with vars := (ForwardChecking cg e.vars v).2 } r e' hsz2 h
      exact this
    · simp only [Option.some.injEq, Prod.mk.injEq] at h
      rw [← h.2]
      exact LogsFrom_refl _ _
  · simp only [Option.some.injEq, Prod.mk.injEq] at h
    rw [← h.2]
    exact LogsFrom_refl _ _

/-- The bookkeeping of one pass: the attempts so far, plus the attempt of this
pass, plus what the nested invocation logged. -/
theorem attempts_pass {L v : Nat} {a : Value} {dom : List Value} {log0 log3 log' : List Event}
    (hnested : ∃ evs, log3 = evs ++ (Event.attempt L v a :: log0) ∧ ∀ ev ∈ evs, L + 1 ≤ ev.level)
    (hrest : ∃ (evs : List Event) (tried : List Value), log' = evs ++ log3 ∧ (∀ ev ∈ evs, L ≤ ev.level) ∧
      attemptsAt L evs = tried.map (fun b => (v, b)) ∧ tried.Nodup ∧
      ∀ b ∈ tried, b ∈ dom.filter (fun b => b != a))
    (ha : a ∈ dom) :
    ∃ (evs : List Event) (tried : List Value), log' = evs ++ log0 ∧ (∀ ev ∈ evs, L ≤ ev.level) ∧
      attemptsAt L evs = tried.map (fun b => (v, b)) ∧ tried.Nodup ∧ ∀ b ∈ tried, b ∈ dom := by
  obtain ⟨evs3, h3, hl3⟩ := hnested
  obtain ⟨evs, tried, h', hl, hat, hnd, hsub⟩ := hrest
  refine ⟨evs ++ evs3 ++ [Event.attempt L v a], tried ++ [a], ?_, ?_, ?_, ?_, ?_⟩
  · rw [h', h3]
    simp
  · intro ev hev
    simp only [List.mem_append, List.mem_singleton] at hev
    rcases hev with (hev | hev) | hev
    · exact hl ev hev
    · have := hl3 ev hev
      omega
    · subst hev
      exact le_refl _
  · rw [attemptsAt_append, attemptsAt_append, hat, attemptsAt_deeper hl3]
    simp [attemptsAt]
  · rw [List.nodup_append]
    refine ⟨hnd, List.nodup_singleton a, ?_⟩
    intro b hb hb2
    rw [List.mem_singleton] at hb2
    subst hb2
    have := (List.mem_filter.mp (hsub b hb)).2
    simp at this
  · intro b hb
    rw [List.mem_append, List.mem_singleton] at hb
    rcases hb with hb | hb
    · exact (List.mem_filter.mp (hsub b hb)).1
    · subst hb
      exact ha

theorem loopDFS_attempts {ord : ValueOrder} {cg : ConstraintGraph}
    {self : Engine → Option (Bool × Engine)} {level v : Nat} {domain : List Value}
    (hself : ∀ e r e', Sized cg.nvars e.vars → self e = some (r, e') →
      PostDFS cg.nvars e.vars r e'.vars)
    (hlog : ∀ e r e', Sized cg.nvars e.vars → self e = some (r, e') →
      LogsFrom (level + 1) e e') :
    ∀ (fuel : Nat) (e : Engine) (r : Bool) (e' : Engine), Sized cg.nvars e.vars →
      (e.vars v).is_assigned = false →
      loopDFS ord cg self level v domain fuel 0 e = some (r, e') →
      ∃ (evs : List Event) (tried : List Value), e'.log = evs ++ e.log ∧ (∀ ev ∈ evs, level ≤ ev.level) ∧
        attemptsAt level evs = tried.map (fun b => (v, b)) ∧ tried.Nodup ∧
        ∀ b ∈ tried, b ∈ (e.vars v).domain := by
  intro fuel
  induction fuel with
  | zero => intro e r e' _ _ h; cases h
  | succ fuel ih =>
    intro e r e' hsz hun h
    have hnil : ∀ (t : Engine) (dom : List Value), ∃ (evs : List Event) (tried : List Value), t.log = evs ++ t.log ∧
        (∀ ev ∈ evs, level ≤ ev.level) ∧
        attemptsAt level evs = tried.map (fun b => (v, b)) ∧ tried.Nodup ∧
        ∀ b ∈ tried, b ∈ dom :=
      fun t dom => ⟨[], [], rfl, fun _ h => (by cases h), rfl, List.nodup_nil,
        fun _ h => (by cases h)⟩
    rcases loopDFS_cases h with ⟨hd, hr, he⟩ | ⟨hd, e3, ⟨hdesc, hr, he⟩ | ⟨hdesc, hflag, hr, he⟩ |
      ⟨hdesc, hflag, hloop⟩⟩
    · subst he
      exact hnil _ _
    · subst he
      exact attempts_pass (descendDFS_logs hlog (Sized_attempt ord level v e hsz) hdesc)
        (hnil _ _) (ord.choose_mem _ hd)
    · obtain ⟨_, _, hrec, _, _⟩ := loopDFS_step domain hself hsz hdesc
      have hl4 : e'.log = e3.log := by rw [he, hrec]
      rw [hl4]
      exact attempts_pass (descendDFS_logs hlog (Sized_attempt ord level v e hsz) hdesc)
        (hnil _ _) (ord.choose_mem _ hd)
    · obtain ⟨_, hfl, hrec, hv4, _⟩ := loopDFS_step domain hself hsz hdesc
      have key := ih _ r e' (Sized_retireDFS domain hself hsz hun hdesc hflag)
        (by rw [hv4]) hloop
      have hl4 : (retireDFS v domain e3).1.log = e3.log := by rw [hrec]
      rw [hl4, hv4] at key
      rw [hfl] at hflag
      simp only [hflag, Bool.false_eq_true, if_false] at key
      exact attempts_pass (descendDFS_logs hlog (Sized_attempt ord level v e hsz) hdesc)
        key (ord.choose_mem _ hd)

theorem loopFC_attempts {ord : ValueOrder} {cg : ConstraintGraph}
    {self : Engine → Option (Bool × Engine)} {level v : Nat} (e0 : Vars)
    (hself : ∀ e r e', Sized cg.nvars e.vars → self e = some (r, e') →
      PostFC cg e.vars r e'.vars)
    (hlog : ∀ e r e', Sized cg.nvars e.vars → self e = some (r, e') →
      LogsFrom (level + 1) e e') :
    ∀ (fuel : Nat) (e : Engine) (r : Bool) (e' : Engine), Sized cg.nvars e.vars →
      (e.vars v).is_assigned = false → RestoredBut cg.nvars v e0 e.vars →
      loopFC ord cg self level v (SaveState cg e0 v) fuel 0 e = some (r, e') →
      ∃ (evs : List Event) (tried : List Value), e'.log = evs ++ e.log ∧ (∀ ev ∈ evs, level ≤ ev.level) ∧
        attemptsAt level evs = tried.map (fun b => (v, b)) ∧ tried.Nodup ∧
        ∀ b ∈ tried, b ∈ (e.vars v).domain := by
  intro fuel
  induction fuel with
  | zero => intro e r e' _ _ _ h; cases h
  | succ fuel ih =>
    intro e r e' hsz hun hinv h
    have hnil : ∀ (t : Engine) (dom : List Value), ∃ (evs : List Event) (tried : List Value), t.log = evs ++ t.log ∧
        (∀ ev ∈ evs, level ≤ ev.level) ∧
        attemptsAt level evs = tried.map (fun b => (v, b)) ∧ tried.Nodup ∧
        ∀ b ∈ tried, b ∈ dom :=
      fun t dom => ⟨[], [], rfl, fun _ h => (by cases h), rfl, List.nodup_nil,
        fun _ h => (by cases h)⟩
    rcases loopFC_cases h with ⟨hd, hr, he⟩ | ⟨hd, e3, ⟨hdesc, hr, he⟩ | ⟨hdesc, hflag, hr, he⟩ |
      ⟨hdesc, hflag, hloop⟩⟩
    · subst he
      exact hnil _ _
    · subst he
      exact attempts_pass (descendFC_logs hlog (Sized_attempt ord level v e hsz) hdesc)
        (hnil _ _) (ord.choose_mem _ hd)
    · obtain ⟨_, _, hrec, _, _⟩ := loopFC_step e0 hself hsz hinv hdesc
      have hl4 : e'.log = e3.log := by rw [he, hrec]
      rw [hl4]
      exact attempts_pass (descendFC_logs hlog (Sized_attempt ord level v e hsz) hdesc)
        (hnil _ _) (ord.choose_mem _ hd)
    · obtain ⟨_, hfl, hrec, hv4, hrb⟩ := loopFC_step e0 hself hsz hinv hdesc
      have hun4 : ((retireFC v (SaveState cg e0 v) e3).1.vars v).is_assigned = false := by
        rw [hv4]
      have hlen4 : ((retireFC v (SaveState cg e0 v) e3).1.vars v).domain.length ≤
          (e.vars v).domain.length := by
        rw [hv4]
        exact List.length_filter_le _ _
      have key := ih _ r e' (Sized_of_RestoredBut hrb hsz hun hlen4) hun4 (RestoredBut_trans hinv hrb) hloop
      have hl4 : (retireFC v (SaveState cg e0 v) e3).1.log = e3.log := by rw [hrec]
      rw [hl4, hv4] at key
      exact attempts_pass (descendFC_logs hlog (Sized_attempt ord level v e hsz) hdesc)
        key (ord.choose_mem _ hd)

theorem DistinctAttempts_of_loop {L v : Nat} {dom : List Value} {e t : Engine}
    (h : ∃ (evs : List Event) (tried : List Value), t.log = evs ++ (Event.call L :: e.log) ∧ (∀ ev ∈ evs, L ≤ ev.level) ∧
      attemptsAt L evs = tried.map (fun b => (v, b)) ∧ tried.Nodup ∧ ∀ b ∈ tried, b ∈ dom) :
    DistinctAttempts L v dom e t := by
  obtain ⟨evs, tried, hl, hlev, hat, hnd, hsub⟩ := h
  refine ⟨evs ++ [Event.call L], tried, ?_, ?_, ?_, hnd, hsub, ?_⟩
  · rw [hl]; simp
  · intro ev hev
    rw [List.mem_append, List.mem_singleton] at hev
    rcases hev with hev | hev
    · exact hlev ev hev
    · subst hev; exact le_refl _
  · rw [attemptsAt_append, hat]
    simp [attemptsAt]
  · exact (List.subperm_of_subset hnd hsub).length_le

theorem SolveDFS_attempts (ord : ValueOrder) (cg : ConstraintGraph) :
    ∀ (fuel level : Nat) (e : Engine) (r : Bool) (e' : Engine), Sized cg.nvars e.vars →
      SolveDFS ord cg fuel level e = some (r, e') →
      DistinctAttempts level (MinRemVal cg e.vars) (e.vars (MinRemVal cg e.vars)).domain e e' := by
  intro fuel
  induction fuel with
  | zero => intro level e r e' _ h; cases h
  | succ fuel ih =>
    intro level e r e' hsz h
    rw [SolveDFS_succ] at h
    split at h
    · simp only [Option.some.injEq, Prod.mk.injEq] at h
      rw [← h.2]
      exact DistinctAttempts_of_loop ⟨[], [], rfl, fun _ h => (by cases h), rfl,
        List.nodup_nil, fun _ h => (by cases h)⟩
    · next hall =>
      have hall2 : cg.AllVariablesAssigned e.vars = false := by simpa using hall
      obtain ⟨_, hun⟩ := MinRemVal_unassigned cg e.vars hsz hall2
      exact DistinctAttempts_of_loop (loopDFS_attempts (SolveDFS_post ord cg fuel (level + 1))
        (fun e2 r2 e2' hs2 h2 => by
          obtain ⟨evs, _, hl, hlev, _⟩ := ih (level + 1) e2 r2 e2' hs2 h2
          exact ⟨evs, hl, hlev⟩)
        fuel (enter level e) r e' hsz hun h)

theorem SolveFC_attempts (ord : ValueOrder) (cg : ConstraintGraph) :
    ∀ (fuel level : Nat) (e : Engine) (r : Bool) (e' : Engine), Sized cg.nvars e.vars →
      SolveFC ord cg fuel level e = some (r, e') →
      DistinctAttempts level (MinRemVal cg e.vars) (e.vars (MinRemVal cg e.vars)).domain e e' := by
  intro fuel
  induction fuel with
  | zero => intro level e r e' _ h; cases h
  | succ fuel ih =>
    intro level e r e' hsz h
    rw [SolveFC_succ] at h
    split at h
    · simp only [Option.some.injEq, Prod.mk.injEq] at h
      rw [← h.2]
      exact DistinctAttempts_of_loop ⟨[], [], rfl, fun _ h => (by cases h), rfl,
        List.nodup_nil, fun _ h => (by cases h)⟩
    · next hall =>
      have hall2 : cg.AllVariablesAssigned e.vars = false := by simpa using hall
      obtain ⟨_, hun⟩ := MinRemVal_unassigned cg e.vars hsz hall2
      exact DistinctAttempts_of_loop (loopFC_attempts e.vars (SolveFC_post ord cg fuel (level + 1))
        (fun e2 r2 e2' hs2 h2 => by
          obtain ⟨evs, _, hl, hlev, _⟩ := ih (level + 1) e2 r2 e2' hs2 h2
          exact ⟨evs, hl, hlev⟩)
        fuel (enter level e) r e' hsz hun (RestoredBut_refl _ _ _) h)

/-- C8: within one invocation of `SolveDFS`, and likewise of `SolveFC`, the
values that the loop passes of this invocation assign to the selected variable
are pairwise distinct members of the domain the variable had when it was
selected, so the loop body runs at most as often as that domain has elements. -/
theorem no_duplicate_retry (ord : ValueOrder) (cg : ConstraintGraph) (fuel level : Nat)
    (e : Engine) (r : Bool) (e' : Engine) (hsz : Sized cg.nvars e.vars) :
    (SolveDFS ord cg fuel level e = some (r, e') →
      DistinctAttempts level (MinRemVal cg e.vars) (e.vars (MinRemVal cg e.vars)).domain e e') ∧
    (SolveFC ord cg fuel level e = some (r, e') →
      DistinctAttempts level (MinRemVal cg e.vars) (e.vars (MinRemVal cg e.vars)).domain e e') :=
  ⟨SolveDFS_attempts ord cg fuel level e r e' hsz, SolveFC_attempts ord cg fuel level e r e' hsz⟩

theorem no_duplicate_retry_witness :
    ∃ e', SolveDFS firstValue triangle 6 0 (Engine.init (freshVars fun _ => [1, 2])) =
        some (false, e') ∧
      DistinctAttempts 0 (MinRemVal triangle (freshVars fun _ => [1, 2]))
        ((freshVars fun _ => [1, 2]) (MinRemVal triangle (freshVars fun _ => [1, 2]))).domain
        (Engine.init (freshVars fun _ => [1, 2])) e' ∧
      attemptsAt 0 e'.log = [(0, 2), (0, 1)] := by
  obtain ⟨e', hrun⟩ := result_of_outcome
    (SolveDFS firstValue triangle 6 0 (Engine.init (freshVars fun _ => [1, 2]))) false
    (by decide!)
  refine ⟨e', hrun, (no_duplicate_retry firstValue triangle 6 0
    (Engine.init (freshVars fun _ => [1, 2])) false e' (by unfold Sized; decide)).1 hrun, ?_⟩
  have hlog : (SolveDFS firstValue triangle 6 0 (Engine.init (freshVars fun _ => [1, 2]))).map
      (fun p => attemptsAt 0 p.2.log) = some [(0, 2), (0, 1)] := by decide!
  rw [hrun] at hlog
  simpa using hlog

/-! ## Forward checking can make more invocations -/

/-- C7, refuted: on `chain3` the forward-checking solver makes three
invocations and the naive solver two; on the map-colouring instance
`coloring4` it makes six and the naive solver five. -/
theorem pruning_dominance_fails :
    ((SolveFC firstValue chain3 6 0 (Engine.init (freshVars chain3Domains))).map
        (fun p => (p.1, p.2.recursive_call_counter)) = some (false, 3) ∧
      (SolveDFS firstValue chain3 6 0 (Engine.init (freshVars chain3Domains))).map
        (fun p => (p.1, p.2.recursive_call_counter)) = some (false, 2)) ∧
    ((SolveFC firstValue coloring4 8 0 (Engine.init (freshVars coloring4Domains))).map
        (fun p => (p.1, p.2.recursive_call_counter)) = some (true, 6) ∧
      (SolveDFS firstValue coloring4 8 0 (Engine.init (freshVars coloring4Domains))).map
        (fun p => (p.1, p.2.recursive_call_counter)) = some (true, 5)) := by
  decide!

/-! ## The last unassigned variable -/

theorem AssignmentIsConsistent_congr (cg : ConstraintGraph) {s t : Vars} (w : Nat)
    (h : ∀ u, (t u).current = (s u).current) :
    AssignmentIsConsistent cg t w = AssignmentIsConsistent cg s w := by
  unfold AssignmentIsConsistent
  congr 1
  funext c
  exact Satisfiable_congr c s t (fun u _ => h u)

theorem consistentAt_congr (cg : ConstraintGraph) {s t : Vars} (w : Nat) (b : Value)
    (h : ∀ u, (t u).current = (s u).current) :
    consistentAt cg t w b = consistentAt cg s w b := by
  unfold consistentAt
  apply AssignmentIsConsistent_congr
  intro u
  by_cases hu : u = w
  · subst hu
    simp [tentative, Variable.current, Variable.AssignValue]
  · simp only [tentative, setVar_ne _ _ hu]
    exact h u

theorem attempt_consistent (cg : ConstraintGraph) (ord : ValueOrder) (level w : Nat)
    (e : Engine) :
    AssignmentIsConsistent cg (attempt ord level w e).vars w =
      consistentAt cg e.vars w (ord.choose (e.vars w).domain) := rfl

theorem attempt_counter (ord : ValueOrder) (level w : Nat) (e : Engine) :
    (attempt ord level w e).recursive_call_counter = e.recursive_call_counter := rfl

/-- Removing an inconsistent value does not change whether a consistent value
is left. -/
theorem exists_consistent_filter {cg : ConstraintGraph} {s : Vars} {w : Nat} {a : Value}
    {d : List Value} (ha : consistentAt cg s w a = false) :
    (∃ b ∈ d.filter (fun b => b != a), consistentAt cg s w b = true) ↔
      ∃ b ∈ d, consistentAt cg s w b = true := by
  constructor
  · rintro ⟨b, hb, hc⟩
    exact ⟨b, (List.mem_filter.mp hb).1, hc⟩
  · rintro ⟨b, hb, hc⟩
    refine ⟨b, List.mem_filter.mpr ⟨hb, ?_⟩, hc⟩
    have : b ≠ a := by
      intro hba
      subst hba
      rw [ha] at hc
      cases hc
    simpa using this

theorem all_assigned_attempt {n : Nat} (ord : ValueOrder) (level : Nat) {w : Nat} (e : Engine)
    (hoth : ∀ u < n, u ≠ w → (e.vars u).is_assigned = true) :
    ∀ u < n, ((attempt ord level w e).vars u).is_assigned = true := by
  intro u hu
  by_cases huw : u = w
  · subst huw
    rw [attempt_vars_self]
  · rw [attempt_vars_other ord level e huw]
    exact hoth u hu huw

theorem SolveDFS_all_assigned {ord : ValueOrder} {cg : ConstraintGraph} {fuel level : Nat}
    {e : Engine} {r : Bool} {e' : Engine}
    (hall : ∀ u < cg.nvars, (e.vars u).is_assigned = true)
    (h : SolveDFS ord cg fuel level e = some (r, e')) :
    r = true ∧ e'.recursive_call_counter = e.recursive_call_counter + 1 := by
  cases fuel with
  | zero => cases h
  | succ fuel =>
    rw [SolveDFS_succ, if_pos ((AllVariablesAssigned_iff cg e.vars).mpr hall)] at h
    simp only [Option.some.injEq, Prod.mk.injEq] at h
    obtain ⟨h1, h2⟩ := h
    subst h1 h2
    exact ⟨rfl, rfl⟩

theorem SolveFC_all_assigned {ord : ValueOrder} {cg : ConstraintGraph} {fuel level : Nat}
    {e : Engine} {r : Bool} {e' : Engine}
    (hall : ∀ u < cg.nvars, (e.vars u).is_assigned = true)
    (h : SolveFC ord cg fuel level e = some (r, e')) :
    r = true ∧ e'.recursive_call_counter = e.recursive_call_counter + 1 := by
  cases fuel with
  | zero => cases h
  | succ fuel =>
    rw [SolveFC_succ, if_pos ((AllVariablesAssigned_iff cg e.vars).mpr hall)] at h
    simp only [Option.some.injEq, Prod.mk.injEq] at h
    obtain ⟨h1, h2⟩ := h
    subst h1 h2
    exact ⟨rfl, rfl⟩

/-- The value loop of `SolveDFS` on the last unassigned variable `w`: it
succeeds exactly when a consistent value is left, and then makes one nested
invocation. -/
theorem loopDFS_last {ord : ValueOrder} {cg : ConstraintGraph} {fuel0 level w : Nat}
    {domain : List Value} :
    ∀ (fuel : Nat) (e : Engine) (r : Bool) (e' : Engine), Sized cg.nvars e.vars →
      (e.vars w).is_assigned = false →
      (∀ u < cg.nvars, u ≠ w → (e.vars u).is_assigned = true) →
      loopDFS ord cg (SolveDFS ord cg fuel0 (level + 1)) level w domain fuel 0 e = some (r, e') →
      (r = true ↔ ∃ b ∈ (e.vars w).domain, consistentAt cg e.vars w b = true) ∧
      e'.recursive_call_counter = e.recursive_call_counter + (if r = true then 1 else 0) := by
  intro fuel
  induction fuel with
  | zero => intro e r e' _ _ _ h; cases h
  | succ fuel ih =>
    intro e r e' hsz hun hoth h
    have hself := SolveDFS_post ord cg fuel0 (level + 1)
    have hall2 := all_assigned_attempt ord level e hoth
    have hbad : ∀ e3, descendDFS cg (SolveDFS ord cg fuel0 (level + 1)) w (attempt ord level w e)
        = some (false, e3) →
        consistentAt cg e.vars w (ord.choose (e.vars w).domain) = false ∧
        e3.recursive_call_counter = e.recursive_call_counter := by
      intro e3 hdesc
      unfold descendDFS at hdesc
      split at hdesc
      · have := (SolveDFS_all_assigned hall2 hdesc).1
        cases this
      · next hcons =>
        simp only [Option.some.injEq, Prod.mk.injEq, true_and] at hdesc
        rw [← hdesc]
        rw [attempt_consistent] at hcons
        exact ⟨by simpa using hcons, rfl⟩
    rcases loopDFS_cases h with ⟨hd, hr, he⟩ | ⟨hd, e3, ⟨hdesc, hr, he⟩ | ⟨hdesc, hflag, hr, he⟩ |
      ⟨hdesc, hflag, hloop⟩⟩
    · subst hr he
      refine ⟨⟨fun h => (by cases h), ?_⟩, by simp⟩
      rintro ⟨b, hb, _⟩
      rw [hd] at hb
      cases hb
    · subst hr he
      unfold descendDFS at hdesc
      split at hdesc
      · next hcons =>
        refine ⟨⟨fun _ => ⟨_, ord.choose_mem _ hd, ?_⟩, fun _ => rfl⟩, ?_⟩
        · rw [← attempt_consistent]
          exact hcons
        · rw [(SolveDFS_all_assigned hall2 hdesc).2, attempt_counter]
          simp
      · simp at hdesc
    · obtain ⟨hbad1, hbad2⟩ := hbad e3 hdesc
      obtain ⟨_, hfl, hrec, _, _⟩ := loopDFS_step domain hself hsz hdesc
      subst hr
      refine ⟨⟨fun h => (by cases h), ?_⟩, ?_⟩
      · intro hex
        have := (exists_consistent_filter (d := (e.vars w).domain) hbad1).mpr hex
        obtain ⟨b, hb, _⟩ := this
        rw [hfl, List.isEmpty_iff] at hflag
        rw [hflag] at hb
        cases hb
      · rw [he, hrec]
        simp [hbad2]
    · obtain ⟨hbad1, hbad2⟩ := hbad e3 hdesc
      obtain ⟨_, hfl, hrec, hv4, _⟩ := loopDFS_step domain hself hsz hdesc
      have hcur := current_retireDFS domain hself hsz hun hdesc
      have key := ih _ r e' (Sized_retireDFS domain hself hsz hun hdesc hflag) (by rw [hv4])
        (fun u hu huw => by
          rw [is_assigned_of_current (hcur u)]
          exact hoth u hu huw) hloop
      rw [hfl] at hflag
      rw [hv4] at key
      simp only [hflag, Bool.false_eq_true, if_false] at key
      have hc : ∀ b, consistentAt cg (retireDFS w domain e3).1.vars w b =
          consistentAt cg e.vars w b := fun b => consistentAt_congr cg w b hcur
      simp only [hc] at key
      rw [exists_consistent_filter hbad1] at key
      refine ⟨key.1, ?_⟩
      rw [key.2, hrec]
      simp [hbad2]

theorem unique_unassigned {cg : ConstraintGraph} {s : Vars} {w : Nat} (hsz : Sized cg.nvars s)
    (hw : w < cg.nvars) (hun : (s w).is_assigned = false)
    (hoth : ∀ u < cg.nvars, u ≠ w → (s u).is_assigned = true) :
    cg.AllVariablesAssigned s = false ∧ MinRemVal cg s = w := by
  have hall : cg.AllVariablesAssigned s = false := by
    by_contra hc
    have := (AllVariablesAssigned_iff cg s).mp (by simpa using hc) w hw
    rw [hun] at this
    cases this
  refine ⟨hall, ?_⟩
  obtain ⟨hlt, hu⟩ := MinRemVal_unassigned cg s hsz hall
  by_contra hne
  rw [hoth _ hlt hne] at hu
  cases hu

/-- `SolveDFS` with one variable `w` left: it succeeds exactly when `w` has a
consistent value, and counts itself plus the invocation that finds everything
assigned. -/
theorem SolveDFS_last {ord : ValueOrder} {cg : ConstraintGraph} {fuel level w : Nat}
    {e : Engine} {r : Bool} {e' : Engine} (hsz : Sized cg.nvars e.vars)
    (hw : w < cg.nvars) (hun : (e.vars w).is_assigned = false)
    (hoth : ∀ u < cg.nvars, u ≠ w → (e.vars u).is_assigned = true)
    (h : SolveDFS ord cg fuel level e = some (r, e')) :
    (r = true ↔ ∃ b ∈ (e.vars w).domain, consistentAt cg e.vars w b = true) ∧
    e'.recursive_call_counter = e.recursive_call_counter + 1 + (if r = true then 1 else 0) := by
  cases fuel with
  | zero => cases h
  | succ fuel =>
    obtain ⟨hall, hmin⟩ := unique_unassigned hsz hw hun hoth
    rw [SolveDFS_succ, hall, hmin] at h
    simp only [Bool.false_eq_true, if_false] at h
    exact loopDFS_last fuel (enter level e) r e' hsz hun hoth h

theorem fcNeighbors_all_assigned (cg : ConstraintGraph) (x : Nat) :
    ∀ (ns : List Nat) (s : Vars), (∀ u ∈ ns, (s u).is_assigned = true) →
      fcNeighbors cg x ns s = (true, s) := by
  intro ns
  induction ns with
  | nil => intro s _; rfl
  | cons n rest ih =>
    intro s h
    rw [fcNeighbors_cons, if_pos (h n (List.mem_cons_self _ _))]
    exact ih s (fun u hu => h u (List.mem_cons_of_mem _ hu))

/-- With every variable of the graph assigned, forward checking changes
nothing and succeeds. -/
theorem ForwardChecking_all_assigned {cg : ConstraintGraph} {s : Vars} (x : Nat)
    (hall : ∀ u < cg.nvars, (s u).is_assigned = true) :
    ForwardChecking cg s x = (true, s) :=
  fcNeighbors_all_assigned cg x _ s (fun u hu => hall u (GetNeighbors_lt cg x u hu))

theorem descendFC_all_assigned {cg : ConstraintGraph} {self : Engine → Option (Bool × Engine)}
    {w : Nat} {e : Engine} (hall : ∀ u < cg.nvars, (e.vars u).is_assigned = true) :
    descendFC cg self w e =
      if AssignmentIsConsistent cg e.vars w = true then self e else some (false, e) := by
  rw [descendFC_eq, ForwardChecking_all_assigned w hall]
  simp

/-- The value loop of `SolveFC` on the last unassigned variable `w`. -/
theorem loopFC_last {ord : ValueOrder} {cg : ConstraintGraph} {fuel0 level w : Nat}
    (e0 : Vars) :
    ∀ (fuel : Nat) (e : Engine) (r : Bool) (e' : Engine), Sized cg.nvars e.vars →
      (e.vars w).is_assigned = false → RestoredBut cg.nvars w e0 e.vars →
      (∀ u < cg.nvars, u ≠ w → (e.vars u).is_assigned = true) →
      loopFC ord cg (SolveFC ord cg fuel0 (level + 1)) level w (SaveState cg e0 w) fuel 0 e
        = some (r, e') →
      (r = true ↔ ∃ b ∈ (e.vars w).domain, consistentAt cg e.vars w b = true) ∧
      e'.recursive_call_counter = e.recursive_call_counter + (if r = true then 1 else 0) := by
  intro fuel
  induction fuel with
  | zero => intro e r e' _ _ _ _ h; cases h
  | succ fuel ih =>
    intro e r e' hsz hun hinv hoth h
    have hself := SolveFC_post ord cg fuel0 (level + 1)
    have hall2 := all_assigned_attempt ord level e hoth
    have hbad : ∀ e3, descendFC cg (SolveFC ord cg fuel0 (level + 1)) w (attempt ord level w e)
        = some (false, e3) →
        consistentAt cg e.vars w (ord.choose (e.vars w).domain) = false ∧
        e3.recursive_call_counter = e.recursive_call_counter := by
      intro e3 hdesc
      rw [descendFC_all_assigned hall2] at hdesc
      split at hdesc
      · have := (SolveFC_all_assigned hall2 hdesc).1
        cases this
      · next hcons =>
        simp only [Option.some.injEq, Prod.mk.injEq, true_and] at hdesc
        rw [← hdesc]
        rw [attempt_consistent] at hcons
        exact ⟨by simpa using hcons, rfl⟩
    rcases loopFC_cases h with ⟨hd, hr, he⟩ | ⟨hd, e3, ⟨hdesc, hr, he⟩ | ⟨hdesc, hflag, hr, he⟩ |
      ⟨hdesc, hflag, hloop⟩⟩
    · subst hr he
      refine ⟨⟨fun h => (by cases h), ?_⟩, by simp⟩
      rintro ⟨b, hb, _⟩
      rw [hd] at hb
      cases hb
    · subst hr he
      rw [descendFC_all_assigned hall2] at hdesc
      split at hdesc
      · next hcons =>
        refine ⟨⟨fun _ => ⟨_, ord.choose_mem _ hd, ?_⟩, fun _ => rfl⟩, ?_⟩
        · rw [← attempt_consistent]
          exact hcons
        · rw [(SolveFC_all_assigned hall2 hdesc).2, attempt_counter]
          simp
      · simp at hdesc
    · obtain ⟨hbad1, hbad2⟩ := hbad e3 hdesc
      obtain ⟨_, hfl, hrec, _, _⟩ := loopFC_step e0 hself hsz hinv hdesc
      subst hr
      refine ⟨⟨fun h => (by cases h), ?_⟩, ?_⟩
      · intro hex
        have := (exists_consistent_filter (d := (e.vars w).domain) hbad1).mpr hex
        obtain ⟨b, hb, _⟩ := this
        rw [hfl, List.isEmpty_iff] at hflag
        rw [hflag] at hb
        cases hb
      · rw [he, hrec]
        simp [hbad2]
    · obtain ⟨hbad1, hbad2⟩ := hbad e3 hdesc
      obtain ⟨_, hfl, hrec, hv4, hrb⟩ := loopFC_step e0 hself hsz hinv hdesc
      have hun4 : ((retireFC w (SaveState cg e0 w) e3).1.vars w).is_assigned = false := by
        rw [hv4]
      have hlen4 : ((retireFC w (SaveState cg e0 w) e3).1.vars w).domain.length ≤
          (e.vars w).domain.length := by
        rw [hv4]
        exact List.length_filter_le _ _
      have hcur := RestoredBut_current hrb hun hun4
      have key := ih _ r e' (Sized_of_RestoredBut hrb hsz hun hlen4) hun4 (RestoredBut_trans hinv hrb)
        (fun u hu huw => by
          rw [is_assigned_of_current (hcur u)]
          exact hoth u hu huw) hloop
      rw [hv4] at key
      simp only at key
      have hc : ∀ b, consistentAt cg (retireFC w (SaveState cg e0 w) e3).1.vars w b =
          consistentAt cg e.vars w b := fun b => consistentAt_congr cg w b hcur
      simp only [hc] at key
      rw [exists_consistent_filter hbad1] at key
      refine ⟨key.1, ?_⟩
      rw [key.2, hrec]
      simp [hbad2]

/-- `SolveFC` with one variable `w` left. -/
theorem SolveFC_last {ord : ValueOrder} {cg : ConstraintGraph} {fuel level w : Nat}
    {e : Engine} {r : Bool} {e' : Engine} (hsz : Sized cg.nvars e.vars)
    (hw : w < cg.nvars) (hun : (e.vars w).is_assigned = false)
    (hoth : ∀ u < cg.nvars, u ≠ w → (e.vars u).is_assigned = true)
    (h : SolveFC ord cg fuel level e = some (r, e')) :
    (r = true ↔ ∃ b ∈ (e.vars w).domain, consistentAt cg e.vars w b = true) ∧
    e'.recursive_call_counter = e.recursive_call_counter + 1 + (if r = true then 1 else 0) := by
  cases fuel with
  | zero => cases h
  | succ fuel =>
    obtain ⟨hall, hmin⟩ := unique_unassigned hsz hw hun hoth
    rw [SolveFC_succ, hall, hmin] at h
    simp only [Bool.false_eq_true, if_false] at h
    exact loopFC_last e.vars fuel (enter level e) r e' hsz hun (RestoredBut_refl _ _ _) hoth h

/-! ## Pruning dominance on graphs of at most two variables -/

theorem Agree_is_assigned {s t : Vars} (h : Agree s t) (u : Nat) :
    (s u).is_assigned = (t u).is_assigned :=
  is_assigned_of_current (h u).2

theorem Agree_attempt {ord : ValueOrder} {lf ld v : Nat} {ef ed : Engine}
    (h : Agree ef.vars ed.vars) :
    Agree (attempt ord lf v ef).vars (attempt ord ld v ed).vars := by
  intro u
  by_cases hu : u = v
  · subst hu
    rw [attempt_vars_self, attempt_vars_self, (h u).1]
    exact ⟨rfl, rfl⟩
  · rw [attempt_vars_other ord lf ef hu, attempt_vars_other ord ld ed hu]
    exact h u

/-- A consistent value of the only unassigned variable survives forward
checking, which then succeeds. -/
theorem ForwardChecking_keeps_consistent {cg : ConstraintGraph} {s : Vars} {x w : Nat}
    {b : Value} (hw : w < cg.nvars)
    (honly : ∀ u < cg.nvars, (s u).is_assigned = false → u = w)
    (hun : (s w).is_assigned = false)
    (hb : b ∈ (s w).domain) (hc : consistentAt cg s w b = true) :
    (ForwardChecking cg s x).1 = true ∧ b ∈ ((ForwardChecking cg s x).2 w).domain := by
  have key := fcNeighbors_keeps cg x (fun _ => b) (cg.GetNeighbors x) s (GetNeighbors_lt cg x)
    (fun u hu hua => by rw [honly u hu hua]; exact hb)
    (fun u hu hua => by
      have huw := honly u (GetNeighbors_lt cg x u hu) hua
      subst huw
      unfold passes
      rw [List.all_eq_true]
      intro c hcm
      unfold ConstraintGraph.GetConnectingConstraints at hcm
      rw [List.mem_filter] at hcm
      have hscope : u ∈ c.scope := by
        have := hcm.2
        simp only [Bool.and_eq_true, decide_eq_true_eq] at this
        exact this.2
      exact (AssignmentIsConsistent_iff cg _ u).mp hc c hcm.1 hscope)
  exact ⟨key.1, key.2 w hw hun⟩

/-- One attempt with at most one other variable unassigned: both solvers end
it alike, and the forward-checking solver adds no more invocations. -/
theorem descend_dominance {ord : ValueOrder} {cg : ConstraintGraph}
    {fuelF fuelD LF LD lf ld v : Nat} {ef ed e3f e3d : Engine} {rf rd : Bool}
    (hszf : Sized cg.nvars ef.vars) (hszd : Sized cg.nvars ed.vars)
    (hag : Agree ef.vars ed.vars)
    (hone : ∀ u1 < cg.nvars, ∀ u2 < cg.nvars, u1 ≠ v → u2 ≠ v →
      (ef.vars u1).is_assigned = false → (ef.vars u2).is_assigned = false → u1 = u2)
    (hf : descendFC cg (SolveFC ord cg fuelF LF) v (attempt ord lf v ef) = some (rf, e3f))
    (hd : descendDFS cg (SolveDFS ord cg fuelD LD) v (attempt ord ld v ed) = some (rd, e3d)) :
    rf = rd ∧ e3f.recursive_call_counter + ed.recursive_call_counter ≤
      e3d.recursive_call_counter + ef.recursive_call_counter := by
  have hag2 : Agree (attempt ord lf v ef).vars (attempt ord ld v ed).vars := Agree_attempt hag
  have hcons : AssignmentIsConsistent cg (attempt ord lf v ef).vars v =
      AssignmentIsConsistent cg (attempt ord ld v ed).vars v :=
    AssignmentIsConsistent_congr cg v (fun u => (hag2 u).2)
  have hsz2f := Sized_attempt ord lf v ef hszf
  have hsz2d := Sized_attempt ord ld v ed hszd
  obtain ⟨f1, f2, f3⟩ := ForwardChecking_spec cg (attempt ord lf v ef).vars v
  rw [descendFC_eq] at hf
  unfold descendDFS at hd
  rw [← hcons] at hd
  by_cases hc : AssignmentIsConsistent cg (attempt ord lf v ef).vars v = true
  · rw [if_pos hc] at hf hd
    by_cases hex : ∃ w < cg.nvars, ((attempt ord lf v ef).vars w).is_assigned = false
    · obtain ⟨w, hw, hwun⟩ := hex
      have hwv : w ≠ v := by
        intro h
        subst h
        rw [attempt_vars_self] at hwun
        cases hwun
      have honly : ∀ u < cg.nvars, ((attempt ord lf v ef).vars u).is_assigned = false →
          u = w := by
        intro u hu hua
        have huv : u ≠ v := by
          intro h
          subst h
          rw [attempt_vars_self] at hua
          cases hua
        rw [attempt_vars_other ord lf ef huv] at hua
        rw [attempt_vars_other ord lf ef hwv] at hwun
        exact hone u hu w hw huv hwv hua hwun
      have hothf : ∀ u < cg.nvars, u ≠ w →
          ((attempt ord lf v ef).vars u).is_assigned = true := by
        intro u hu huw
        by_contra hna
        exact huw (honly u hu (by simpa using hna))
      have hwund : ((attempt ord ld v ed).vars w).is_assigned = false := by
        rw [← Agree_is_assigned hag2 w]; exact hwun
      have hothd : ∀ u < cg.nvars, u ≠ w →
          ((attempt ord ld v ed).vars u).is_assigned = true := by
        intro u hu huw
        rw [← Agree_is_assigned hag2 u]
        exact hothf u hu huw
      obtain ⟨d1, d2⟩ := SolveDFS_last hsz2d hw hwund hothd hd
      have hdc : ∀ b, consistentAt cg (attempt ord ld v ed).vars w b =
          consistentAt cg (attempt ord lf v ef).vars w b :=
        fun b => consistentAt_congr cg w b (fun u => ((hag2 u).2).symm)
      rw [attempt_counter] at d2
      by_cases hfw : (ForwardChecking cg (attempt ord lf v ef).vars v).1 = true
      · rw [if_pos hfw] at hf
        have hszt : Sized cg.nvars (ForwardChecking cg (attempt ord lf v ef).vars v).2 :=
          Sized_of_shrink f1 f2 hsz2f
        have hwt := (f2 w hwun).1
        have hotht : ∀ u < cg.nvars, u ≠ w →
            ((ForwardChecking cg (attempt ord lf v ef).vars v).2 u).is_assigned = true := by
          intro u hu huw
          rw [is_assigned_of_current (f3 u)]
          exact hothf u hu huw
        obtain ⟨g1, g2⟩ := SolveFC_last (e := { attempt ord lf v ef with
          vars := (ForwardChecking cg (attempt ord lf v ef).vars v).2 }) hszt hw hwt hotht hf
        have g2b : e3f.recursive_call_counter =
            ef.recursive_call_counter + 1 + (if rf = true then 1 else 0) := g2
        have htc : ∀ b, consistentAt cg (ForwardChecking cg (attempt ord lf v ef).vars v).2 w b =
            consistentAt cg (attempt ord lf v ef).vars w b :=
          fun b => consistentAt_congr cg w b f3
        have hiff : rf = true ↔ rd = true := by
          rw [g1, d1]
          constructor
          · rintro ⟨b, hb, hcb⟩
            refine ⟨b, ?_, ?_⟩
            · rw [← (hag2 w).1]
              exact (f2 w hwun).2.subset hb
            · rw [hdc, ← htc]
              exact hcb
          · rintro ⟨b, hb, hcb⟩
            rw [hdc] at hcb
            rw [← (hag2 w).1] at hb
            refine ⟨b, (ForwardChecking_keeps_consistent hw honly hwun hb hcb).2, ?_⟩
            show consistentAt cg (ForwardChecking cg (attempt ord lf v ef).vars v).2 w b = true
            rw [htc]
            exact hcb
        have hrr : rf = rd := Bool.eq_iff_iff.mpr hiff
        refine ⟨hrr, ?_⟩
        rw [g2b, d2, hrr]
        omega
      · rw [if_neg hfw] at hf
        simp only [Option.some.injEq, Prod.mk.injEq] at hf
        obtain ⟨hf1, hf2⟩ := hf
        have hrd : rd = false := by
          by_contra hrd
          have hrd2 : rd = true := by simpa using hrd
          obtain ⟨b, hb, hcb⟩ := d1.mp hrd2
          rw [hdc] at hcb
          rw [← (hag2 w).1] at hb
          exact hfw (ForwardChecking_keeps_consistent hw honly hwun hb hcb).1
        refine ⟨by rw [← hf1, hrd], ?_⟩
        rw [← hf2, d2]
        show ef.recursive_call_counter + ed.recursive_call_counter ≤ _
        omega
    · have hallf : ∀ u < cg.nvars, ((attempt ord lf v ef).vars u).is_assigned = true := by
        intro u hu
        by_contra hna
        exact hex ⟨u, hu, by simpa using hna⟩
      have halld : ∀ u < cg.nvars, ((attempt ord ld v ed).vars u).is_assigned = true := by
        intro u hu
        rw [← Agree_is_assigned hag2 u]
        exact hallf u hu
      rw [ForwardChecking_all_assigned v hallf] at hf
      simp only [if_true] at hf
      obtain ⟨a1, a2⟩ := SolveFC_all_assigned hallf hf
      obtain ⟨b1, b2⟩ := SolveDFS_all_assigned halld hd
      refine ⟨by rw [a1, b1], ?_⟩
      rw [a2, b2, attempt_counter, attempt_counter]
      omega
  · rw [if_neg hc] at hf hd
    simp only [Option.some.injEq, Prod.mk.injEq] at hf hd
    refine ⟨by rw [← hf.1, ← hd.1], ?_⟩
    rw [← hf.2, ← hd.2, attempt_counter, attempt_counter]
    omega

/-- The value loops of the two solvers on the same variable, from states that
agree, with at most one other variable unassigned: they end alike and the
forward-checking loop has counted no more invocations. -/
theorem loop_dominance {ord : ValueOrder} {cg : ConstraintGraph}
    {fuelF fuelD LF LD lf ld v : Nat} {domain : List Value} (e0 : Vars) :
    ∀ (kf kd : Nat) (ef ed : Engine) (r1 r2 : Bool) (e1 e2 : Engine),
      Sized cg.nvars ef.vars → Sized cg.nvars ed.vars → Agree ef.vars ed.vars →
      (ef.vars v).is_assigned = false → RestoredBut cg.nvars v e0 ef.vars →
      (∀ u1 < cg.nvars, ∀ u2 < cg.nvars, u1 ≠ v → u2 ≠ v →
        (ef.vars u1).is_assigned = false → (ef.vars u2).is_assigned = false → u1 = u2) →
      ef.recursive_call_counter ≤ ed.recursive_call_counter →
      loopFC ord cg (SolveFC ord cg fuelF LF) lf v (SaveState cg e0 v) kf 0 ef = some (r1, e1) →
      loopDFS ord cg (SolveDFS ord cg fuelD LD) ld v domain kd 0 ed = some (r2, e2) →
      r1 = r2 ∧ e1.recursive_call_counter ≤ e2.recursive_call_counter := by
  intro kf
  induction kf with
  | zero => intro kd ef ed r1 r2 e1 e2 _ _ _ _ _ _ _ h; cases h
  | succ kf ih =>
    intro kd ef ed r1 r2 e1 e2 hszf hszd hag hunf hinv hone hle hf hd
    cases kd with
    | zero => cases hd
    | succ kd =>
      have hund : (ed.vars v).is_assigned = false := by rw [← Agree_is_assigned hag v]; exact hunf
      have hdom : (ed.vars v).domain = (ef.vars v).domain := ((hag v).1).symm
      have hselfF := SolveFC_post ord cg fuelF LF
      have hselfD := SolveDFS_post ord cg fuelD LD
      rcases loopFC_cases hf with ⟨hdf, hr1, he1⟩ | ⟨hdf, e3f, hcaseF⟩
      · rcases loopDFS_cases hd with ⟨_, hr2, he2⟩ | ⟨hdd, _⟩
        · subst hr1 he1 hr2 he2
          exact ⟨rfl, hle⟩
        · rw [hdom] at hdd
          exact absurd hdf hdd
      · rcases loopDFS_cases hd with ⟨hdd, _⟩ | ⟨_, e3d, hcaseD⟩
        · rw [hdom] at hdd
          exact absurd hdd hdf
        · have hcmp : ∀ rf rd,
              descendFC cg (SolveFC ord cg fuelF LF) v (attempt ord lf v ef) = some (rf, e3f) →
              descendDFS cg (SolveDFS ord cg fuelD LD) v (attempt ord ld v ed) = some (rd, e3d) →
              rf = rd ∧ e3f.recursive_call_counter ≤ e3d.recursive_call_counter := by
            intro rf rd h1 h2
            have := descend_dominance hszf hszd hag hone h1 h2
            exact ⟨this.1, by omega⟩
          have hflags : ∀ (h1 : descendFC cg (SolveFC ord cg fuelF LF) v (attempt ord lf v ef)
                = some (false, e3f))
              (h2 : descendDFS cg (SolveDFS ord cg fuelD LD) v (attempt ord ld v ed)
                = some (false, e3d)),
              (retireFC v (SaveState cg e0 v) e3f).2 = (retireDFS v domain e3d).2 := by
            intro h1 h2
            obtain ⟨_, hflF, _⟩ := loopFC_step e0 hselfF hszf hinv h1
            obtain ⟨_, hflD, _⟩ := loopDFS_step domain hselfD hszd h2
            rw [hflF, hflD, hdom]
          rcases hcaseF with ⟨hdescF, hr1, he1⟩ | ⟨hdescF, hflagF, hr1, he1⟩ |
            ⟨hdescF, hflagF, hloopF⟩
          · rcases hcaseD with ⟨hdescD, hr2, he2⟩ | ⟨hdescD, _, _, _⟩ | ⟨hdescD, _, _⟩
            · subst hr1 he1 hr2 he2
              exact ⟨rfl, (hcmp _ _ hdescF hdescD).2⟩
            · cases (hcmp _ _ hdescF hdescD).1
            · cases (hcmp _ _ hdescF hdescD).1
          · rcases hcaseD with ⟨hdescD, _, _⟩ | ⟨hdescD, hflagD, hr2, he2⟩ |
              ⟨hdescD, hflagD, _⟩
            · cases (hcmp _ _ hdescF hdescD).1
            · obtain ⟨_, _, hrecF, _⟩ := loopFC_step e0 hselfF hszf hinv hdescF
              obtain ⟨_, _, hrecD, _⟩ := loopDFS_step domain hselfD hszd hdescD
              subst hr1 hr2
              refine ⟨rfl, ?_⟩
              rw [he1, he2, hrecF, hrecD]
              exact (hcmp _ _ hdescF hdescD).2
            · rw [hflags hdescF hdescD, hflagD] at hflagF
              cases hflagF
          · rcases hcaseD with ⟨hdescD, _, _⟩ | ⟨hdescD, hflagD, _, _⟩ |
              ⟨hdescD, hflagD, hloopD⟩
            · cases (hcmp _ _ hdescF hdescD).1
            · rw [hflags hdescF hdescD, hflagD] at hflagF
              cases hflagF
            · obtain ⟨_, hflF, hrecF, hv4F, hrbF⟩ := loopFC_step e0 hselfF hszf hinv hdescF
              obtain ⟨_, hflD, hrecD, hv4D, _⟩ := loopDFS_step domain hselfD hszd hdescD
              have hothD := loopDFS_step_others domain hselfD hszd hdescD
              have hun4 : ((retireFC v (SaveState cg e0 v) e3f).1.vars v).is_assigned
                  = false := by rw [hv4F]
              have hlen4 : ((retireFC v (SaveState cg e0 v) e3f).1.vars v).domain.length ≤
                  (ef.vars v).domain.length := by
                rw [hv4F]
                exact List.length_filter_le _ _
              have hcurF := RestoredBut_current hrbF hunf hun4
              rw [hflD] at hflagD
              refine ih kd _ _ r1 r2 e1 e2 (Sized_of_RestoredBut hrbF hszf hunf hlen4)
                (Sized_retireDFS domain hselfD hszd hund hdescD (by rw [hflD]; exact hflagD))
                ?_ hun4 (RestoredBut_trans hinv hrbF) ?_ ?_ hloopF hloopD
              · intro u
                by_cases huv : u = v
                · subst huv
                  rw [hdom] at hflagD
                  rw [hv4F, hv4D, hdom]
                  simp only [hflagD, Bool.false_eq_true, if_false]
                  exact ⟨trivial, trivial⟩
                · cases hua : (ef.vars u).is_assigned with
                  | true =>
                    have hda : (ed.vars u).is_assigned = true := by
                      rw [← Agree_is_assigned hag u]; exact hua
                    rw [(hrbF u huv).1 (Or.inl hua), (hothD u huv).1 (Or.inl hda)]
                    exact hag u
                  | false =>
                    have hda : (ed.vars u).is_assigned = false := by
                      rw [← Agree_is_assigned hag u]; exact hua
                    have h4f := (hrbF u huv).2 hua
                    have h4d := (hothD u huv).2 hda
                    refine ⟨by rw [h4f.2, h4d.2]; exact (hag u).1, ?_⟩
                    simp [Variable.current, h4f.1, h4d.1]
              · intro u1 hu1 u2 hu2 h1 h2 ha1 ha2
                rw [is_assigned_of_current (hcurF u1)] at ha1
                rw [is_assigned_of_current (hcurF u2)] at ha2
                exact hone u1 hu1 u2 hu2 h1 h2 ha1 ha2
              · rw [hrecF, hrecD]
                exact (hcmp _ _ hdescF hdescD).2

/-- C7, amended: on a graph of at most two variables both solvers return, with
the same outcome, and `recursive_call_counter` after
`SolveFC(0)` is at most `recursive_call_counter` after `SolveDFS(0)`, each run
on a fresh engine from the same start. -/
theorem pruning_dominance_two (ord : ValueOrder) (cg : ConstraintGraph) (s : Vars)
    (hn : cg.nvars ≤ 2) (hsz : Sized cg.nvars s) :
    ∀ fuel, cg.nvars + maxDomain cg.nvars s + 1 ≤ fuel →
      ∃ r e1 e2, SolveFC ord cg fuel 0 (Engine.init s) = some (r, e1) ∧
        SolveDFS ord cg fuel 0 (Engine.init s) = some (r, e2) ∧
        e1.recursive_call_counter ≤ e2.recursive_call_counter := by
  intro fuel hfuel
  have hcard : (unassigned cg.nvars s).card ≤ cg.nvars := by
    have := Finset.card_filter_le (Finset.range cg.nvars) (fun v => (s v).is_assigned = false)
    simpa [unassigned] using this
  have hfuel2 : (unassigned cg.nvars (Engine.init s).vars).card + maxDomain cg.nvars s + 1
      ≤ fuel := by
    change (unassigned cg.nvars s).card + _ + 1 ≤ fuel
    omega
  obtain ⟨r1, e1, h1⟩ := SolveFC_terminates ord cg (maxDomain cg.nvars s) fuel 0
    (Engine.init s) hsz (Bounded_maxDomain cg.nvars s) hfuel2
  obtain ⟨r2, e2, h2⟩ := SolveDFS_terminates ord cg (maxDomain cg.nvars s) fuel 0
    (Engine.init s) hsz (Bounded_maxDomain cg.nvars s) hfuel2
  have key : r1 = r2 ∧ e1.recursive_call_counter ≤ e2.recursive_call_counter := by
    cases fuel with
    | zero => cases h1
    | succ fuel =>
      rw [SolveFC_succ] at h1
      rw [SolveDFS_succ] at h2
      by_cases hall : cg.AllVariablesAssigned (Engine.init s).vars = true
      · rw [if_pos hall] at h1 h2
        simp only [Option.some.injEq, Prod.mk.injEq] at h1 h2
        rw [← h1.1, ← h2.1, ← h1.2, ← h2.2]
        exact ⟨rfl, le_refl _⟩
      · rw [if_neg hall] at h1 h2
        have hall2 : cg.AllVariablesAssigned s = false := by simpa using hall
        obtain ⟨hv, hvun⟩ := MinRemVal_unassigned cg s hsz hall2
        exact loop_dominance s fuel fuel (enter 0 (Engine.init s)) (enter 0 (Engine.init s))
          r1 r2 e1 e2 hsz hsz (fun u => ⟨rfl, rfl⟩) hvun (RestoredBut_refl _ _ _)
          (fun u1 hu1 u2 hu2 h1 h2 _ _ => by
            have hv2 : MinRemVal cg s < cg.nvars := hv
            change u1 ≠ MinRemVal cg s at h1
            change u2 ≠ MinRemVal cg s at h2
            omega)
          (le_refl _) h1 h2
  obtain ⟨hr, hle⟩ := key
  subst hr
  exact ⟨r1, e1, e2, h1, h2, hle⟩

theorem pruning_dominance_two_witness :
    (∃ r e1 e2, SolveFC firstValue pair 4 0 (Engine.init (freshVars fun _ => [1])) =
        some (r, e1) ∧
      SolveDFS firstValue pair 4 0 (Engine.init (freshVars fun _ => [1])) = some (r, e2) ∧
      e1.recursive_call_counter ≤ e2.recursive_call_counter) ∧
    (SolveFC firstValue pair 4 0 (Engine.init (freshVars fun _ => [1]))).map
      (fun p => (p.1, p.2.recursive_call_counter)) = some (false, 1) ∧
    (SolveDFS firstValue pair 4 0 (Engine.init (freshVars fun _ => [1]))).map
      (fun p => (p.1, p.2.recursive_call_counter)) = some (false, 2) :=
  ⟨pruning_dominance_two firstValue pair (freshVars fun _ => [1]) (by decide)
    (by unfold Sized; decide) 4 (by decide), by decide!, by decide!⟩

/-! ## The snapshot round trip -/

theorem mem_SaveState (cg : ConstraintGraph) (s : Vars) (x v : Nat) (d : List Value) :
    (v, d) ∈ SaveState cg s x ↔
      v < cg.nvars ∧ (s v).is_assigned = false ∧ v ≠ x ∧ d = (s v).domain := by
  unfold SaveState ConstraintGraph.GetAllVariables
  rw [List.mem_filterMap]
  constructor
  · rintro ⟨u, hu, hval⟩
    split at hval
    · next hc =>
      simp only [Option.some.injEq, Prod.mk.injEq] at hval
      obtain ⟨h1, h2⟩ := hval
      subst h1
      simp only [Variable.IsAssigned, Bool.and_eq_true, Bool.not_eq_true',
        decide_eq_true_eq] at hc
      exact ⟨List.mem_range.mp hu, hc.1, hc.2, h2.symm⟩
    · cases hval
  · rintro ⟨hv, hun, hx, hd⟩
    refine ⟨v, List.mem_range.mpr hv, ?_⟩
    have hc : (!(s v).IsAssigned && decide (v ≠ x)) = true := by
      simp [Variable.IsAssigned, hun, hx]
    rw [if_pos hc, hd]
    rfl

theorem SaveState_keys (cg : ConstraintGraph) (s : Vars) (x : Nat) :
    (SaveState cg s x).map Prod.fst =
      (List.range cg.nvars).filter (fun v => !(s v).IsAssigned && decide (v ≠ x)) := by
  unfold SaveState ConstraintGraph.GetAllVariables
  induction List.range cg.nvars with
  | nil => rfl
  | cons a rest ih =>
    cases hp : (!(s a).IsAssigned && decide (a ≠ x))
    · rw [List.filterMap_cons_none (by simp only [hp, Bool.false_eq_true, if_false]),
        List.filter_cons_of_neg (by rw [hp]; exact Bool.false_ne_true)]
      exact ih
    · rw [List.filterMap_cons_some (b := (a, (s a).GetDomain)) (by simp only [hp, if_true]),
        List.filter_cons_of_pos (p := fun v => !(s v).IsAssigned && decide (v ≠ x)) hp,
        List.map_cons, ih]

/-- C11: `SaveState(x)` maps exactly the unassigned variables other than `x`
to their domains; `LoadState` of that map in any later state sets the domain of
each key to the saved one and leaves every other domain, every assigned flag
and every value as they are, and applied at once it changes nothing. -/
theorem SaveState_LoadState_round_trip (cg : ConstraintGraph) (s : Vars) (x : Nat) :
    (∀ v d, (v, d) ∈ SaveState cg s x ↔
      v < cg.nvars ∧ (s v).is_assigned = false ∧ v ≠ x ∧ d = (s v).domain) ∧
    ((SaveState cg s x).map Prod.fst).Nodup ∧
    (∀ (t : Vars) (u : Nat),
      (LoadState t (SaveState cg s x) u).is_assigned = (t u).is_assigned ∧
      (LoadState t (SaveState cg s x) u).assigned_value = (t u).assigned_value ∧
      (LoadState t (SaveState cg s x) u).domain =
        if u < cg.nvars ∧ (s u).is_assigned = false ∧ u ≠ x then (s u).domain
        else (t u).domain) ∧
    LoadState s (SaveState cg s x) = s := by
  refine ⟨mem_SaveState cg s x, ?_, ?_, ?_⟩
  · rw [SaveState_keys]
    exact (List.nodup_range _).filter _
  · intro t u
    rw [LoadState_SaveState]
    split <;> simp [Variable.SetDomain]
  · funext u
    rw [LoadState_SaveState]
    split <;> rfl

/-! ## The arc-consistency placeholder -/

/-- C14: `SolveARC(level)` and `CheckArcConsistency(x)` return `false` and
leave the variables and every counter of the engine as they are, for every
state, level and variable. -/
theorem arc_consistency_stub (level x : Nat) (e : Engine) :
    SolveARC level e = (false, e) ∧ CheckArcConsistency x e = (false, e) :=
  ⟨rfl, rfl⟩

/-! ## Complete states, failed forward checking, and the values of a solution -/

/-- C16: from a state in which every variable is assigned, `SolveDFS(level)`
and `SolveFC(level)` return `true`, add one to `recursive_call_counter` and to
`solution_counter`, and leave `iteration_counter` and every variable as they
are, whatever the constraints of the graph say about the assigned values. -/
theorem complete_state_accepted (ord : ValueOrder) (cg : ConstraintGraph) (fuel level : Nat)
    (e : Engine) (hall : ∀ v < cg.nvars, (e.vars v).is_assigned = true) :
    (∃ e', SolveDFS ord cg (fuel + 1) level e = some (true, e') ∧ e'.vars = e.vars ∧
      e'.recursive_call_counter = e.recursive_call_counter + 1 ∧
      e'.solution_counter = e.solution_counter + 1 ∧
      e'.iteration_counter = e.iteration_counter) ∧
    (∃ e', SolveFC ord cg (fuel + 1) level e = some (true, e') ∧ e'.vars = e.vars ∧
      e'.recursive_call_counter = e.recursive_call_counter + 1 ∧
      e'.solution_counter = e.solution_counter + 1 ∧
      e'.iteration_counter = e.iteration_counter) := by
  have h := (AllVariablesAssigned_iff cg e.vars).mpr hall
  constructor
  · rw [SolveDFS_succ, if_pos h]
    exact ⟨_, rfl, rfl, rfl, rfl, rfl⟩
  · rw [SolveFC_succ, if_pos h]
    exact ⟨_, rfl, rfl, rfl, rfl, rfl⟩

theorem complete_state_accepted_witness :
    (∀ c ∈ triangle.constraints, c.Satisfiable allOnes = false) ∧
    (∃ e', SolveDFS firstValue triangle 1 0 (Engine.init allOnes) = some (true, e') ∧
      e'.vars = allOnes ∧ e'.recursive_call_counter = 1 ∧ e'.solution_counter = 1 ∧
      e'.iteration_counter = 0) ∧
    (∃ e', SolveFC firstValue triangle 1 0 (Engine.init allOnes) = some (true, e') ∧
      e'.vars = allOnes ∧ e'.recursive_call_counter = 1 ∧ e'.solution_counter = 1 ∧
      e'.iteration_counter = 0) :=
  ⟨by decide, complete_state_accepted firstValue triangle 0 0 (Engine.init allOnes)
    (fun _ _ => rfl)⟩

/-- C19: when the top-level `SolveFC(0)` on an all-unassigned graph returns
`false`, every variable is unassigned, the variable that `MinRemVal` selected
at the root has an empty domain, and every other domain is the domain at the
start of the call. -/
theorem SolveFC_failure_state (ord : ValueOrder) (cg : ConstraintGraph) (s : Vars)
    (fuel : Nat) (e' : Engine)
    (hun : ∀ v < cg.nvars, (s v).is_assigned = false) (hsz : Sized cg.nvars s)
    (h : SolveFC ord cg fuel 0 (Engine.init s) = some (false, e')) :
    (∀ v < cg.nvars, (e'.vars v).is_assigned = false) ∧
    (e'.vars (MinRemVal cg s)).domain = [] ∧
    ∀ v, v ≠ MinRemVal cg s → (e'.vars v).domain = (s v).domain := by
  have hpost := (SolveFC_post ord cg fuel 0 (Engine.init s) false e' hsz h).1 rfl
  have hall : cg.AllVariablesAssigned s = false := by
    cases fuel with
    | zero => cases h
    | succ fuel =>
      by_contra hc
      rw [SolveFC_succ, if_pos (by simpa using hc)] at h
      cases h
  obtain ⟨hv, hvun⟩ := MinRemVal_unassigned cg s hsz hall
  refine ⟨fun v hv => (hpost.2 v (hun v hv)).1, ?_, fun v hne => ?_⟩
  · have := (hpost.2 _ hvun).2
    rw [this]
    exact if_pos rfl
  · cases hva : (s v).is_assigned with
    | true =>
      have := hpost.1 v (Or.inl hva)
      rw [this]
      rfl
    | false =>
      have := (hpost.2 v hva).2
      rw [this]
      exact if_neg hne

theorem SolveFC_failure_state_witness :
    ∃ e', SolveFC firstValue triangle 6 0 (Engine.init (freshVars fun _ => [1, 2])) =
        some (false, e') ∧
      MinRemVal triangle (freshVars fun _ => [1, 2]) = 0 ∧
      (∀ v < 3, (e'.vars v).is_assigned = false) ∧
      (e'.vars (MinRemVal triangle (freshVars fun _ => [1, 2]))).domain = [] ∧
      ∀ v, v ≠ MinRemVal triangle (freshVars fun _ => [1, 2]) → (e'.vars v).domain = [1, 2] := by
  obtain ⟨e', hrun⟩ := result_of_outcome
    (SolveFC firstValue triangle 6 0 (Engine.init (freshVars fun _ => [1, 2]))) false
    (by decide!)
  exact ⟨e', hrun, by decide,
    SolveFC_failure_state firstValue triangle (freshVars fun _ => [1, 2]) 6 e'
      (by decide) (by unfold Sized; decide) hrun⟩

theorem Completed_values {n : Nat} {s t : Vars} (h : Completed n s t)
    (hun : ∀ v < n, (s v).is_assigned = false) :
    ∀ v < n, (t v).is_assigned = true ∧ (t v).assigned_value ∈ (s v).domain ∧
      (∀ a ∈ (t v).domain, a ∈ (s v).domain) ∧ (t v).assigned_value ∈ (t v).domain := by
  intro v hv
  obtain ⟨h1, h2⟩ := h.2 v hv
  obtain ⟨a, b, c⟩ := h2 (hun v hv)
  exact ⟨h1, a, c, b⟩

/-- C20: when `SolveDFS(0)` or `SolveFC(0)` on an all-unassigned graph returns
`true`, every variable carries a value of the domain it had at the start, and
its domain on return is a subset of that domain which still holds the value. -/
theorem solution_within_domains (ord : ValueOrder) (cg : ConstraintGraph) (s : Vars)
    (fuel : Nat) (e' : Engine)
    (hun : ∀ v < cg.nvars, (s v).is_assigned = false) (hsz : Sized cg.nvars s) :
    (SolveDFS ord cg fuel 0 (Engine.init s) = some (true, e') →
      ∀ v < cg.nvars, (e'.vars v).is_assigned = true ∧
        (e'.vars v).assigned_value ∈ (s v).domain ∧
        (∀ a ∈ (e'.vars v).domain, a ∈ (s v).domain) ∧
        (e'.vars v).assigned_value ∈ (e'.vars v).domain) ∧
    (SolveFC ord cg fuel 0 (Engine.init s) = some (true, e') →
      ∀ v < cg.nvars, (e'.vars v).is_assigned = true ∧
        (e'.vars v).assigned_value ∈ (s v).domain ∧
        (∀ a ∈ (e'.vars v).domain, a ∈ (s v).domain) ∧
        (e'.vars v).assigned_value ∈ (e'.vars v).domain) :=
  ⟨fun h => Completed_values
      ((SolveDFS_post ord cg fuel 0 (Engine.init s) true e' hsz h).2 rfl) hun,
    fun h => Completed_values
      ((SolveFC_post ord cg fuel 0 (Engine.init s) true e' hsz h).2 rfl) hun⟩

theorem solution_within_domains_witness :
    ∃ e', SolveFC firstValue triangle 7 0 (Engine.init (freshVars fun _ => [1, 2, 3])) =
        some (true, e') ∧
      (SolveFC firstValue triangle 7 0 (Engine.init (freshVars fun _ => [1, 2, 3]))).map
        (fun p => (List.range 3).map (fun v => ((p.2.vars v).assigned_value, (p.2.vars v).domain)))
        = some [(1, [1, 2, 3]), (2, [2, 3]), (3, [3])] ∧
      ∀ v < 3, (e'.vars v).is_assigned = true ∧
        (e'.vars v).assigned_value ∈ [1, 2, 3] ∧
        (∀ a ∈ (e'.vars v).domain, a ∈ [1, 2, 3]) ∧
        (e'.vars v).assigned_value ∈ (e'.vars v).domain := by
  obtain ⟨e', hrun⟩ := result_of_outcome
    (SolveFC firstValue triangle 7 0 (Engine.init (freshVars fun _ => [1, 2, 3]))) true
    (by decide!)
  exact ⟨e', hrun, by decide!,
    (solution_within_domains firstValue triangle (freshVars fun _ => [1, 2, 3]) 7 e'
      (by decide) (by unfold Sized; decide)).2 hrun⟩

/-! ## Degenerate instances: an empty domain, no constraints -/

/-- Once the scan of `MinRemVal` holds an unassigned variable with an empty
domain, it keeps it. -/
theorem minRemVal_keeps_empty (s : Vars) :
    ∀ (l : List Nat) (acc : Nat × Int),
      (acc.2 = 0 ∧ (s acc.1).is_assigned = false ∧ (s acc.1).domain = []) →
      l.foldl (minRemValStep s) acc = acc := by
  intro l
  induction l with
  | nil => intro acc _; rfl
  | cons a l ih =>
    intro acc h
    have hstep : minRemValStep s acc a = acc := by
      unfold minRemValStep
      split
      · have : ¬ (s a).SizeDomain < acc.2 := by
          rw [h.1]; unfold Variable.SizeDomain; omega
        simp only [this, if_false]
      · rfl
    rw [List.foldl_cons, hstep]
    exact ih acc h

/-- The scan of `MinRemVal` ends on an unassigned variable with an empty
domain as soon as the list holds one. -/
theorem minRemVal_finds_empty (s : Vars) :
    ∀ (l : List Nat) (acc : Nat × Int), 0 < acc.2 →
      (∃ v ∈ l, (s v).is_assigned = false ∧ (s v).domain = []) →
      (s (l.foldl (minRemValStep s) acc).1).is_assigned = false ∧
        (s (l.foldl (minRemValStep s) acc).1).domain = [] := by
  intro l
  induction l with
  | nil => intro acc _ h; obtain ⟨v, hv, _⟩ := h; cases hv
  | cons a l ih =>
    intro acc hpos h
    rw [List.foldl_cons]
    by_cases ha : (s a).is_assigned = false ∧ (s a).domain = []
    · have hstep : minRemValStep s acc a = (a, 0) := by
        unfold minRemValStep Variable.IsAssigned Variable.SizeDomain
        rw [ha.1, ha.2]
        simp only [Bool.not_false, if_true, List.length_nil, Nat.cast_zero, hpos]
      rw [hstep, minRemVal_keeps_empty s l (a, 0) ⟨rfl, ha.1, ha.2⟩]
      exact ha
    · have hrest : ∃ v ∈ l, (s v).is_assigned = false ∧ (s v).domain = [] := by
        obtain ⟨v, hv, hp⟩ := h
        rcases List.mem_cons.mp hv with rfl | hv
        · exact absurd hp ha
        · exact ⟨v, hv, hp⟩
      by_cases hnew : (!(s a).IsAssigned) = true ∧ (s a).SizeDomain < acc.2
      · have hstep : minRemValStep s acc a = (a, (s a).SizeDomain) := by
          unfold minRemValStep
          rw [if_pos hnew.1]
          simp only [hnew.2, if_true]
        rw [hstep]
        by_cases hz : (s a).SizeDomain = 0
        · exfalso
          apply ha
          refine ⟨by simpa [Variable.IsAssigned] using hnew.1, ?_⟩
          unfold Variable.SizeDomain at hz
          exact List.length_eq_zero.mp (by exact_mod_cast hz)
        · apply ih _ _ hrest
          have : (0 : Int) ≤ (s a).SizeDomain := by unfold Variable.SizeDomain; omega
          show 0 < (s a).SizeDomain
          omega
      · have hstep : minRemValStep s acc a = acc := by
          unfold minRemValStep
          by_cases h1 : (!(s a).IsAssigned) = true
          · have h2 : ¬ (s a).SizeDomain < acc.2 := fun h2 => hnew ⟨h1, h2⟩
            rw [if_pos h1]
            simp only [h2, if_false]
          · rw [if_neg h1]
        rw [hstep]
        exact ih acc hpos hrest

theorem MinRemVal_empty (cg : ConstraintGraph) (s : Vars)
    (h : ∃ v < cg.nvars, (s v).is_assigned = false ∧ (s v).domain = []) :
    (s (MinRemVal cg s)).is_assigned = false ∧ (s (MinRemVal cg s)).domain = [] := by
  unfold MinRemVal
  apply minRemVal_finds_empty s _ _ (show (0 : Int) < INT_MAX by decide)
  obtain ⟨v, hv, hp⟩ := h
  exact ⟨v, by simpa [ConstraintGraph.GetAllVariables] using hv, hp⟩

/-- C13: on a graph whose variables are all unassigned and one of which has an
empty domain, the top-level `SolveDFS(0)` and `SolveFC(0)` on a fresh engine
return `false` right after counting their own invocation: no value is
attempted, nothing recurses, `recursive_call_counter` is 1, the other counters
are 0, and every variable is as it was. -/
theorem empty_domain_fails_immediately (ord : ValueOrder) (cg : ConstraintGraph) (s : Vars)
    (fuel : Nat) (hun : ∀ v < cg.nvars, (s v).is_assigned = false)
    (hempty : ∃ v < cg.nvars, (s v).domain = []) :
    SolveDFS ord cg (fuel + 2) 0 (Engine.init s) =
      some (false, { vars := s, solution_counter := 0, recursive_call_counter := 1,
                     iteration_counter := 0, log := [Event.call 0] }) ∧
    SolveFC ord cg (fuel + 2) 0 (Engine.init s) =
      some (false, { vars := s, solution_counter := 0, recursive_call_counter := 1,
                     iteration_counter := 0, log := [Event.call 0] }) := by
  obtain ⟨v, hv, hd⟩ := hempty
  have hall : ¬ cg.AllVariablesAssigned (Engine.init s).vars = true := by
    intro hc
    have := (AllVariablesAssigned_iff cg s).mp hc v hv
    rw [hun v hv] at this
    cases this
  have hx := (MinRemVal_empty cg s ⟨v, hv, hun v hv, hd⟩).2
  have hsize : ¬ (0 : Int) <
      ((enter 0 (Engine.init s)).vars (MinRemVal cg (Engine.init s).vars)).SizeDomain := by
    show ¬ (0 : Int) < (s (MinRemVal cg s)).SizeDomain
    unfold Variable.SizeDomain
    rw [hx]
    decide
  constructor
  · rw [SolveDFS_succ, if_neg hall, loopDFS_succ, if_neg hsize]
    rfl
  · rw [SolveFC_succ, if_neg hall, loopFC_succ, if_neg hsize]
    rfl

theorem empty_domain_fails_immediately_witness :
    SolveDFS firstValue single 2 0 (Engine.init (freshVars fun _ => [])) =
      some (false, { vars := freshVars fun _ => [], solution_counter := 0,
                     recursive_call_counter := 1, iteration_counter := 0,
                     log := [Event.call 0] }) ∧
    SolveFC firstValue single 2 0 (Engine.init (freshVars fun _ => [])) =
      some (false, { vars := freshVars fun _ => [], solution_counter := 0,
                     recursive_call_counter := 1, iteration_counter := 0,
                     log := [Event.call 0] }) :=
  empty_domain_fails_immediately firstValue single (freshVars fun _ => []) 0
    (fun _ _ => rfl) ⟨0, by decide, rfl⟩

theorem card_unassigned_eq_zero {n : Nat} {s : Vars}
    (h : ∀ v < n, (s v).is_assigned = true) : (unassigned n s).card = 0 := by
  rw [Finset.card_eq_zero]
  unfold unassigned
  rw [Finset.filter_eq_empty_iff]
  intro v hv
  rw [h v (Finset.mem_range.mp hv)]
  exact Bool.noConfusion

theorem AssignmentIsConsistent_unconstrained {cg : ConstraintGraph}
    (hcs : cg.constraints = []) (s : Vars) (v : Nat) :
    AssignmentIsConsistent cg s v = true := by
  rw [AssignmentIsConsistent_iff, hcs]
  intro c hc
  cases hc

theorem ForwardChecking_unconstrained {cg : ConstraintGraph}
    (hcs : cg.constraints = []) (s : Vars) (x : Nat) :
    ForwardChecking cg s x = (true, s) := by
  have hn : cg.GetNeighbors x = [] := by
    unfold ConstraintGraph.GetNeighbors
    rw [hcs]
    simp
  unfold ForwardChecking
  rw [hn]
  rfl

/-- Without constraints every invocation of `SolveDFS` succeeds on the first
value of each unassigned variable. -/
theorem SolveDFS_unconstrained (ord : ValueOrder) (cg : ConstraintGraph)
    (hcs : cg.constraints = []) :
    ∀ (fuel level : Nat) (e : Engine), Sized cg.nvars e.vars →
      (∀ v < cg.nvars, (e.vars v).is_assigned = false → (e.vars v).domain ≠ []) →
      (unassigned cg.nvars e.vars).card + 1 ≤ fuel →
      ∃ e', SolveDFS ord cg fuel level e = some (true, e') ∧
        e'.recursive_call_counter =
          e.recursive_call_counter + (unassigned cg.nvars e.vars).card + 1 ∧
        e'.iteration_counter = e.iteration_counter + (unassigned cg.nvars e.vars).card ∧
        e'.solution_counter = e.solution_counter + 1 := by
  intro fuel
  induction fuel with
  | zero => intro level e _ _ h; omega
  | succ fuel ih =>
    intro level e hsz hne hfuel
    rw [SolveDFS_succ]
    by_cases hall : cg.AllVariablesAssigned e.vars = true
    · rw [if_pos hall]
      have h0 := card_unassigned_eq_zero ((AllVariablesAssigned_iff cg e.vars).mp hall)
      exact ⟨_, rfl, by rw [h0]; rfl, by rw [h0]; rfl, rfl⟩
    · rw [if_neg hall]
      obtain ⟨hx, hxun⟩ := MinRemVal_unassigned cg e.vars hsz (by simpa using hall)
      have hcard := card_unassigned_attempt ord level (enter level e) hx hxun
      have hpos : (0 : Int) < ((enter level e).vars (MinRemVal cg e.vars)).SizeDomain := by
        show (0 : Int) < ((e.vars (MinRemVal cg e.vars)).domain.length : Int)
        have := List.length_pos.mpr (hne _ hx hxun)
        omega
      have hne2 : ∀ v < cg.nvars,
          ((attempt ord level (MinRemVal cg e.vars) (enter level e)).vars v).is_assigned = false →
          ((attempt ord level (MinRemVal cg e.vars) (enter level e)).vars v).domain ≠ [] := by
        intro v hv hva
        by_cases hvx : v = MinRemVal cg e.vars
        · rw [hvx, attempt_vars_self] at hva
          cases hva
        · rw [attempt_vars_other ord level _ hvx] at hva ⊢
          exact hne v hv hva
      have hc : (unassigned cg.nvars (enter level e).vars).card =
          (unassigned cg.nvars e.vars).card := rfl
      obtain ⟨f, rfl⟩ : ∃ f, fuel = f + 1 := ⟨fuel - 1, by omega⟩
      obtain ⟨e', hrun, h1, h2, h3⟩ := ih (level + 1)
        (attempt ord level (MinRemVal cg e.vars) (enter level e))
        (Sized_attempt ord level _ (enter level e) hsz) hne2 (by omega)
      rw [loopDFS_succ, if_pos hpos]
      unfold descendDFS
      rw [if_pos (AssignmentIsConsistent_unconstrained hcs _ _), hrun]
      refine ⟨e', rfl, ?_, ?_, ?_⟩
      · rw [h1, attempt_counter]
        show e.recursive_call_counter + 1 + _ + 1 = _
        omega
      · rw [h2]
        show e.iteration_counter + 1 + _ = _
        omega
      · rw [h3]
        rfl

/-- Without constraints every invocation of `SolveFC` succeeds on the first
value of each unassigned variable. -/
theorem SolveFC_unconstrained (ord : ValueOrder) (cg : ConstraintGraph)
    (hcs : cg.constraints = []) :
    ∀ (fuel level : Nat) (e : Engine), Sized cg.nvars e.vars →
      (∀ v < cg.nvars, (e.vars v).is_assigned = false → (e.vars v).domain ≠ []) →
      (unassigned cg.nvars e.vars).card + 1 ≤ fuel →
      ∃ e', SolveFC ord cg fuel level e = some (true, e') ∧
        e'.recursive_call_counter =
          e.recursive_call_counter + (unassigned cg.nvars e.vars).card + 1 ∧
        e'.iteration_counter = e.iteration_counter + (unassigned cg.nvars e.vars).card ∧
        e'.solution_counter = e.solution_counter + 1 := by
  intro fuel
  induction fuel with
  | zero => intro level e _ _ h; omega
  | succ fuel ih =>
    intro level e hsz hne hfuel
    rw [SolveFC_succ]
    by_cases hall : cg.AllVariablesAssigned e.vars = true
    · rw [if_pos hall]
      have h0 := card_unassigned_eq_zero ((AllVariablesAssigned_iff cg e.vars).mp hall)
      exact ⟨_, rfl, by rw [h0]; rfl, by rw [h0]; rfl, rfl⟩
    · rw [if_neg hall]
      obtain ⟨hx, hxun⟩ := MinRemVal_unassigned cg e.vars hsz (by simpa using hall)
      have hcard := card_unassigned_attempt ord level (enter level e) hx hxun
      have hpos : (0 : Int) < ((enter level e).vars (MinRemVal cg e.vars)).SizeDomain := by
        show (0 : Int) < ((e.vars (MinRemVal cg e.vars)).domain.length : Int)
        have := List.length_pos.mpr (hne _ hx hxun)
        omega
      have hne2 : ∀ v < cg.nvars,
          ((attempt ord level (MinRemVal cg e.vars) (enter level e)).vars v).is_assigned = false →
          ((attempt ord level (MinRemVal cg e.vars) (enter level e)).vars v).domain ≠ [] := by
        intro v hv hva
        by_cases hvx : v = MinRemVal cg e.vars
        · rw [hvx, attempt_vars_self] at hva
          cases hva
        · rw [attempt_vars_other ord level _ hvx] at hva ⊢
          exact hne v hv hva
      have hc : (unassigned cg.nvars (enter level e).vars).card =
          (unassigned cg.nvars e.vars).card := rfl
      obtain ⟨f, rfl⟩ : ∃ f, fuel = f + 1 := ⟨fuel - 1, by omega⟩
      obtain ⟨e', hrun, h1, h2, h3⟩ := ih (level + 1)
        (attempt ord level (MinRemVal cg e.vars) (enter level e))
        (Sized_attempt ord level _ (enter level e) hsz) hne2 (by omega)
      rw [loopFC_succ, if_pos hpos, descendFC_eq,
        if_pos (AssignmentIsConsistent_unconstrained hcs _ _),
        ForwardChecking_unconstrained hcs, if_pos rfl]
      have hsame : ({ attempt ord level (MinRemVal cg e.vars) (enter level e) with
          vars := (attempt ord level (MinRemVal cg e.vars) (enter level e)).vars } : Engine) =
          attempt ord level (MinRemVal cg e.vars) (enter level e) := rfl
      rw [hsame, hrun]
      refine ⟨e', rfl, ?_, ?_, ?_⟩
      · rw [h1, attempt_counter]
        show e.recursive_call_counter + 1 + _ + 1 = _
        omega
      · rw [h2]
        show e.iteration_counter + 1 + _ = _
        omega
      · rw [h3]
        rfl

theorem card_unassigned_fresh {n : Nat} {s : Vars}
    (h : ∀ v < n, (s v).is_assigned = false) : (unassigned n s).card = n := by
  unfold unassigned
  rw [Finset.filter_true_of_mem (fun v hv => h v (Finset.mem_range.mp hv)), Finset.card_range]

/-- C12: on a graph of `n` variables without constraints, all unassigned
with non-empty domains, the top-level `SolveDFS(0)` and `SolveFC(0)` on a
fresh engine return `true` with `recursive_call_counter = n + 1`,
`iteration_counter = n` and `solution_counter = 1`. -/
theorem unconstrained_succeeds (ord : ValueOrder) (cg : ConstraintGraph) (s : Vars)
    (fuel : Nat) (hcs : cg.constraints = [])
    (hun : ∀ v < cg.nvars, (s v).is_assigned = false)
    (hne : ∀ v < cg.nvars, (s v).domain ≠ []) (hsz : Sized cg.nvars s)
    (hfuel : cg.nvars + 1 ≤ fuel) :
    (∃ e', SolveDFS ord cg fuel 0 (Engine.init s) = some (true, e') ∧
      e'.recursive_call_counter = cg.nvars + 1 ∧ e'.iteration_counter = cg.nvars ∧
      e'.solution_counter = 1) ∧
    (∃ e', SolveFC ord cg fuel 0 (Engine.init s) = some (true, e') ∧
      e'.recursive_call_counter = cg.nvars + 1 ∧ e'.iteration_counter = cg.nvars ∧
      e'.solution_counter = 1) := by
  have hcard : (unassigned cg.nvars (Engine.init s).vars).card = cg.nvars :=
    card_unassigned_fresh hun
  constructor
  · obtain ⟨e', hrun, h1, h2, h3⟩ := SolveDFS_unconstrained ord cg hcs fuel 0 (Engine.init s)
      hsz (fun v hv _ => hne v hv) (by rw [hcard]; exact hfuel)
    rw [hcard] at h1 h2
    exact ⟨e', hrun, by rw [h1]; show 0 + _ + 1 = _; omega,
      by rw [h2]; show 0 + _ = _; omega, by rw [h3]; rfl⟩
  · obtain ⟨e', hrun, h1, h2, h3⟩ := SolveFC_unconstrained ord cg hcs fuel 0 (Engine.init s)
      hsz (fun v hv _ => hne v hv) (by rw [hcard]; exact hfuel)
    rw [hcard] at h1 h2
    exact ⟨e', hrun, by rw [h1]; show 0 + _ + 1 = _; omega,
      by rw [h2]; show 0 + _ = _; omega, by rw [h3]; rfl⟩

theorem unconstrained_succeeds_witness :
    (∃ e', SolveDFS firstValue independent 3 0 (Engine.init (freshVars fun _ => [1, 2])) =
        some (true, e') ∧
      e'.recursive_call_counter = 3 ∧ e'.iteration_counter = 2 ∧ e'.solution_counter = 1) ∧
    (∃ e', SolveFC firstValue independent 3 0 (Engine.init (freshVars fun _ => [1, 2])) =
        some (true, e') ∧
      e'.recursive_call_counter = 3 ∧ e'.iteration_counter = 2 ∧ e'.solution_counter = 1) :=
  unconstrained_succeeds firstValue independent (freshVars fun _ => [1, 2]) 3 rfl
    (fun _ _ => rfl) (fun _ _ => List.cons_ne_nil 1 [2]) (by unfold Sized; decide) (by decide)

/-! ## The postcondition of forward checking -/

/-- A scan of at least one constraint that reports success leaves a value. -/
theorem fcConstraints_true_ne_nil (n : Nat) :
    ∀ (cs : List Constraint) (s : Vars), (s n).is_assigned = false → cs ≠ [] →
      (fcConstraints n cs s).1 = true → ((fcConstraints n cs s).2 n).domain ≠ [] := by
  intro cs
  induction cs with
  | nil => intro s _ h; exact absurd rfl h
  | cons c rest ih =>
    intro s hs _ htrue
    obtain ⟨_, h2, _⟩ := fcValues_spec c n (s n).domain s hs
    by_cases hemp : (fcValues c n (s n).domain s n).domain = []
    · have hres : fcConstraints n (c :: rest) s = (false, fcValues c n (s n).domain s) := by
        rw [fcConstraints]
        simp only [Variable.GetDomain]
        rw [if_pos]
        simp [Variable.SizeDomain, Variable.IsImpossible, hemp, h2]
      rw [hres] at htrue
      cases htrue
    · have hres : fcConstraints n (c :: rest) s =
          fcConstraints n rest (fcValues c n (s n).domain s) := by
        rw [fcConstraints]
        simp only [Variable.GetDomain]
        rw [if_neg]
        simp [Variable.SizeDomain, hemp]
      rw [hres] at htrue ⊢
      cases rest with
      | nil => exact hemp
      | cons c2 rest2 => exact ih _ h2 (List.cons_ne_nil _ _) htrue

/-- The scan of the constraints connecting to `n` fails exactly when there is
a constraint and no value of the domain passes all of them. -/
theorem fcConstraints_false_iff (n : Nat) (cs : List Constraint) (s : Vars)
    (hs : (s n).is_assigned = false) :
    (fcConstraints n cs s).1 = false ↔
      cs ≠ [] ∧ (s n).domain.filter (passes cs s n) = [] := by
  obtain ⟨_, _, _, h4, h5, h6⟩ := fcConstraints_spec n cs s hs
  constructor
  · intro hf
    refine ⟨?_, ?_⟩
    · rintro rfl
      cases hf
    · rw [List.filter_eq_nil_iff]
      intro a ha hp
      have := h4 a ha hp
      rw [h6 hf] at this
      cases this
  · rintro ⟨hne, hnil⟩
    by_contra hc
    have ht : (fcConstraints n cs s).1 = true := by simpa using hc
    exact fcConstraints_true_ne_nil n cs s hs hne ht (by rw [h5 ht]; exact hnil)

/-- A value passes a list of constraints only if it passes every prefix. -/
theorem passes_take {cs : List Constraint} {s : Vars} {n : Nat} {d : Value} (k : Nat)
    (h : passes cs s n d = true) : passes (cs.take k) s n d = true := by
  unfold passes at h ⊢
  rw [List.all_eq_true] at h ⊢
  exact fun c hc => h c (List.mem_of_mem_take hc)

/-- Some prefix of the constraints empties the domain exactly when the whole
list does. -/
theorem emptied_by_prefix_iff (cs : List Constraint) (s : Vars) (n : Nat) :
    (∃ k, 0 < k ∧ k ≤ cs.length ∧ (s n).domain.filter (passes (cs.take k) s n) = []) ↔
      cs ≠ [] ∧ (s n).domain.filter (passes cs s n) = [] := by
  constructor
  · rintro ⟨k, hk, hkl, hnil⟩
    refine ⟨?_, ?_⟩
    · rintro rfl
      simp at hkl
      omega
    · rw [List.filter_eq_nil_iff] at hnil ⊢
      exact fun a ha hp => hnil a ha (passes_take k hp)
  · rintro ⟨hne, hnil⟩
    refine ⟨cs.length, List.length_pos.mpr hne, le_refl _, ?_⟩
    rw [List.take_length]
    exact hnil

/-- The scan of a duplicate-free list of neighbours, each connected to `x` by
some constraint. -/
theorem fcNeighbors_post (cg : ConstraintGraph) (x : Nat) :
    ∀ (ns : List Nat) (s : Vars), ns.Nodup →
      (∀ u ∈ ns, cg.GetConnectingConstraints x u ≠ []) →
      (∀ v, v ∉ ns → (fcNeighbors cg x ns s).2 v = s v) ∧
      ((fcNeighbors cg x ns s).1 = false ↔
        ∃ y ∈ ns, (s y).is_assigned = false ∧
          (s y).domain.filter (passes (cg.GetConnectingConstraints x y) s y) = []) ∧
      ((fcNeighbors cg x ns s).1 = false →
        ∃ y ∈ ns, (s y).is_assigned = false ∧ ((fcNeighbors cg x ns s).2 y).domain = []) ∧
      ((fcNeighbors cg x ns s).1 = true →
        ∀ y ∈ ns, (s y).is_assigned = false →
          ((fcNeighbors cg x ns s).2 y).domain =
            (s y).domain.filter (passes (cg.GetConnectingConstraints x y) s y)) := by
  intro ns
  induction ns with
  | nil =>
    intro s _ _
    refine ⟨fun _ _ => rfl, ⟨fun h => (by cases h), fun h => ?_⟩, fun h => (by cases h),
      fun _ y hy => (by cases hy)⟩
    obtain ⟨y, hy, _⟩ := h
    cases hy
  | cons n rest ih =>
    intro s hnd hconn
    have hnr : n ∉ rest := (List.nodup_cons.mp hnd).1
    have hrest := (List.nodup_cons.mp hnd).2
    have hconn2 : ∀ u ∈ rest, cg.GetConnectingConstraints x u ≠ [] :=
      fun u hu => hconn u (List.mem_cons_of_mem _ hu)
    rw [fcNeighbors_cons]
    by_cases hn : (s n).is_assigned = true
    · rw [if_pos hn]
      obtain ⟨i1, i2, i3, i4⟩ := ih s hrest hconn2
      refine ⟨fun v hv => i1 v (fun h => hv (List.mem_cons_of_mem _ h)), ⟨fun h => ?_, fun h => ?_⟩,
        fun h => ?_, fun h y hy hyu => ?_⟩
      · obtain ⟨y, hy, hp⟩ := i2.mp h
        exact ⟨y, List.mem_cons_of_mem _ hy, hp⟩
      · obtain ⟨y, hy, hyu, hp⟩ := h
        apply i2.mpr
        rcases List.mem_cons.mp hy with rfl | hy
        · rw [hn] at hyu; cases hyu
        · exact ⟨y, hy, hyu, hp⟩
      · obtain ⟨y, hy, hp⟩ := i3 h
        exact ⟨y, List.mem_cons_of_mem _ hy, hp⟩
      · rcases List.mem_cons.mp hy with rfl | hy
        · rw [hn] at hyu; cases hyu
        · exact i4 h y hy hyu
    · rw [if_neg hn]
      have hn2 : (s n).is_assigned = false := by simpa using hn
      obtain ⟨c1, c2, _, _, c5, c6⟩ := fcConstraints_spec n (cg.GetConnectingConstraints x n) s hn2
      have hcur := fcConstraints_current n (cg.GetConnectingConstraints x n) s hn2
      have hiff := fcConstraints_false_iff n (cg.GetConnectingConstraints x n) s hn2
      by_cases hb : (fcConstraints n (cg.GetConnectingConstraints x n) s).1 = true
      · rw [if_pos hb]
        obtain ⟨i1, i2, i3, i4⟩ :=
          ih (fcConstraints n (cg.GetConnectingConstraints x n) s).2 hrest hconn2
        have hsame : ∀ y ∈ rest,
            (fcConstraints n (cg.GetConnectingConstraints x n) s).2 y = s y :=
          fun y hy => c1 y (fun h => hnr (h ▸ hy))
        have hpass : ∀ (y : Nat) (cs : List Constraint),
            passes cs (fcConstraints n (cg.GetConnectingConstraints x n) s).2 y =
              passes cs s y := fun y cs => funext fun d => passes_congr cs y d hcur
        have hnot : ¬ (s n).domain.filter (passes (cg.GetConnectingConstraints x n) s n) = [] := by
          intro hnil
          have := hiff.mpr ⟨hconn n (List.mem_cons_self _ _), hnil⟩
          rw [hb] at this
          cases this
        refine ⟨fun v hv => ?_, ⟨fun h => ?_, fun h => ?_⟩, fun h => ?_, fun h y hy hyu => ?_⟩
        · rw [i1 v (fun h => hv (List.mem_cons_of_mem _ h))]
          exact c1 v (fun h => hv (h ▸ List.mem_cons_self _ _))
        · obtain ⟨y, hy, hyu, hp⟩ := i2.mp h
          rw [hsame y hy] at hyu hp
          rw [hpass] at hp
          exact ⟨y, List.mem_cons_of_mem _ hy, hyu, hp⟩
        · obtain ⟨y, hy, hyu, hp⟩ := h
          apply i2.mpr
          rcases List.mem_cons.mp hy with rfl | hy
          · exact absurd hp hnot
          · refine ⟨y, hy, ?_, ?_⟩
            · rw [hsame y hy]; exact hyu
            · rw [hsame y hy, hpass]; exact hp
        · obtain ⟨y, hy, hyu, hp⟩ := i3 h
          rw [hsame y hy] at hyu
          exact ⟨y, List.mem_cons_of_mem _ hy, hyu, hp⟩
        · rcases List.mem_cons.mp hy with rfl | hy
          · rw [i1 y hnr]
            exact c5 hb
          · have := i4 h y hy (by rw [hsame y hy]; exact hyu)
            rw [this, hsame y hy, hpass]
      · rw [if_neg hb]
        have hf : (fcConstraints n (cg.GetConnectingConstraints x n) s).1 = false := by
          simpa using hb
        refine ⟨fun v hv => c1 v (fun h => hv (h ▸ List.mem_cons_self _ _)),
          ⟨fun _ => ⟨n, List.mem_cons_self _ _, hn2, (hiff.mp hf).2⟩, fun _ => rfl⟩,
          fun _ => ⟨n, List.mem_cons_self _ _, hn2, c6 hf⟩, fun h => (by cases h)⟩

theorem GetNeighbors_nodup (cg : ConstraintGraph) (x : Nat) : (cg.GetNeighbors x).Nodup := by
  unfold ConstraintGraph.GetNeighbors ConstraintGraph.GetAllVariables
  exact (List.nodup_range _).filter _

theorem GetNeighbors_connected (cg : ConstraintGraph) (x : Nat) :
    ∀ u ∈ cg.GetNeighbors x, cg.GetConnectingConstraints x u ≠ [] := by
  intro u hu
  unfold ConstraintGraph.GetNeighbors at hu
  have h := (List.mem_filter.mp hu).2
  simp only [Bool.and_eq_true, List.any_eq_true] at h
  obtain ⟨_, c, hc, hp⟩ := h
  intro hnil
  have : c ∈ cg.GetConnectingConstraints x u := by
    unfold ConstraintGraph.GetConnectingConstraints
    exact List.mem_filter.mpr ⟨hc, by simpa using hp⟩
  rw [hnil] at this
  cases this

/-- C15: `ForwardChecking(x)` returns `false` exactly when some unassigned
neighbour `y` of `x` has its domain emptied by a non-empty prefix of the
constraints connecting `x` and `y`, and then such a neighbour has an empty
domain on return; when it returns `true` the domain of every unassigned
neighbour is its prior domain filtered by the values that pass every
connecting constraint under a tentative assignment.  Either way every domain
is a sublist of the prior one, assigned variables and non-neighbours keep
their domain, and every assigned flag is as before. -/
theorem ForwardChecking_postcondition (cg : ConstraintGraph) (s : Vars) (x : Nat) :
    ((ForwardChecking cg s x).1 = false ↔
      ∃ y ∈ cg.GetNeighbors x, (s y).is_assigned = false ∧
        ∃ k, 0 < k ∧ k ≤ (cg.GetConnectingConstraints x y).length ∧
          (s y).domain.filter (passes ((cg.GetConnectingConstraints x y).take k) s y) = []) ∧
    ((ForwardChecking cg s x).1 = false →
      ∃ y ∈ cg.GetNeighbors x, (s y).is_assigned = false ∧
        ((ForwardChecking cg s x).2 y).domain = []) ∧
    ((ForwardChecking cg s x).1 = true →
      ∀ y ∈ cg.GetNeighbors x, (s y).is_assigned = false →
        ((ForwardChecking cg s x).2 y).domain =
          (s y).domain.filter (passes (cg.GetConnectingConstraints x y) s y)) ∧
    (∀ v, ((ForwardChecking cg s x).2 v).domain.Sublist (s v).domain) ∧
    (∀ v, ((s v).is_assigned = true ∨ v ∉ cg.GetNeighbors x) →
      ((ForwardChecking cg s x).2 v).domain = (s v).domain) ∧
    (∀ v, ((ForwardChecking cg s x).2 v).is_assigned = (s v).is_assigned) := by
  obtain ⟨p1, p2, p3, p4⟩ := fcNeighbors_post cg x (cg.GetNeighbors x) s
    (GetNeighbors_nodup cg x) (GetNeighbors_connected cg x)
  obtain ⟨q1, q2, q3⟩ := ForwardChecking_spec cg s x
  refine ⟨?_, p3, p4, fun v => ?_, fun v hv => ?_, fun v => is_assigned_of_current (q3 v)⟩
  · show (fcNeighbors cg x (cg.GetNeighbors x) s).1 = false ↔ _
    rw [p2]
    constructor
    · rintro ⟨y, hy, hyu, hp⟩
      exact ⟨y, hy, hyu, (emptied_by_prefix_iff _ s y).mpr ⟨GetNeighbors_connected cg x y hy, hp⟩⟩
    · rintro ⟨y, hy, hyu, hk⟩
      exact ⟨y, hy, hyu, ((emptied_by_prefix_iff _ s y).mp hk).2⟩
  · cases hv : (s v).is_assigned with
    | true => rw [q1 v (Or.inl hv)]
    | false => exact (q2 v hv).2
  · rcases hv with hv | hv
    · rw [q1 v (Or.inl hv)]
    · show ((fcNeighbors cg x (cg.GetNeighbors x) s).2 v).domain = _
      rw [p1 v hv]

/-! ## Depth of the recursion -/

theorem LogsUpTo_refl (H : Nat) (e : Engine) : LogsUpTo H e e :=
  ⟨[], rfl, fun _ h => by cases h⟩

theorem LogsUpTo_trans {H : Nat} {e t u : Engine} (h1 : LogsUpTo H e t)
    (h2 : LogsUpTo H t u) : LogsUpTo H e u := by
  obtain ⟨a, ha, hal⟩ := h1
  obtain ⟨b, hb, hbl⟩ := h2
  refine ⟨b ++ a, by rw [hb, ha, List.append_assoc], fun ev hev => ?_⟩
  rcases List.mem_append.mp hev with h | h
  · exact hbl ev h
  · exact hal ev h

theorem LogsUpTo_mono {H K : Nat} {e t : Engine} (hHK : H ≤ K) (h : LogsUpTo H e t) :
    LogsUpTo K e t := by
  obtain ⟨a, ha, hal⟩ := h
  exact ⟨a, ha, fun ev hev => le_trans (hal ev hev) hHK⟩

theorem LogsUpTo_enter {H level : Nat} (h : level ≤ H) (e : Engine) :
    LogsUpTo H e (enter level e) :=
  ⟨[Event.call level], rfl, fun ev hev => by
    rw [List.mem_singleton] at hev
    rw [hev]
    exact h⟩

theorem LogsUpTo_attempt {H level : Nat} (h : level ≤ H) (ord : ValueOrder) (v : Nat)
    (e : Engine) : LogsUpTo H e (attempt ord level v e) :=
  ⟨[Event.attempt level v ((e.vars v).Assign ord).GetValue], rfl, fun ev hev => by
    rw [List.mem_singleton] at hev
    rw [hev]
    exact h⟩

theorem descendDFS_depth {cg : ConstraintGraph} {self : Engine → Option (Bool × Engine)}
    {v H U : Nat}
    (hlog : ∀ e r e', Sized cg.nvars e.vars → (unassigned cg.nvars e.vars).card + 1 ≤ U →
      self e = some (r, e') → LogsUpTo H e e')
    {e : Engine} {r : Bool} {e' : Engine} (hsz : Sized cg.nvars e.vars)
    (hc : (unassigned cg.nvars e.vars).card + 1 ≤ U)
    (h : descendDFS cg self v e = some (r, e')) : LogsUpTo H e e' := by
  unfold descendDFS at h
  split at h
  · exact hlog e r e' hsz hc h
  · cases h
    exact LogsUpTo_refl H e

theorem descendFC_depth {cg : ConstraintGraph} {self : Engine → Option (Bool × Engine)}
    {v H U : Nat}
    (hlog : ∀ e r e', Sized cg.nvars e.vars → (unassigned cg.nvars e.vars).card + 1 ≤ U →
      self e = some (r, e') → LogsUpTo H e e')
    {e : Engine} {r : Bool} {e' : Engine} (hsz : Sized cg.nvars e.vars)
    (hc : (unassigned cg.nvars e.vars).card + 1 ≤ U)
    (h : descendFC cg self v e = some (r, e')) : LogsUpTo H e e' := by
  obtain ⟨f1, f2, f3⟩ := ForwardChecking_spec cg e.vars v
  rw [descendFC_eq] at h
  split at h
  · split at h
    · have hc2 : (unassigned cg.nvars (ForwardChecking cg e.vars v).2).card + 1 ≤ U := by
        rw [unassigned_congr (fun u => is_assigned_of_current (f3 u))]
        exact hc
      exact hlog { e with vars := (ForwardChecking cg e.vars v).2 } r e'
        (Sized_of_shrink f1 f2 hsz) hc2 h
    · cases h
      exact ⟨[], rfl, fun _ h => by cases h⟩
  · cases h
    exact LogsUpTo_refl H e

theorem loopDFS_depth {ord : ValueOrder} {cg : ConstraintGraph} {U H : Nat}
    {self : Engine → Option (Bool × Engine)} {level v : Nat} {domain : List Value}
    (hself : ∀ e r e', Sized cg.nvars e.vars → self e = some (r, e') →
      PostDFS cg.nvars e.vars r e'.vars)
    (hlog : ∀ e r e', Sized cg.nvars e.vars → (unassigned cg.nvars e.vars).card + 1 ≤ U →
      self e = some (r, e') → LogsUpTo H e e')
    (hv : v < cg.nvars) (hlevel : level ≤ H) :
    ∀ (fuel : Nat) (e : Engine) (r : Bool) (e' : Engine), Sized cg.nvars e.vars →
      (e.vars v).is_assigned = false → (unassigned cg.nvars e.vars).card ≤ U →
      loopDFS ord cg self level v domain fuel 0 e = some (r, e') → LogsUpTo H e e' := by
  intro fuel
  induction fuel with
  | zero => intro e r e' _ _ _ h; cases h
  | succ fuel ih =>
    intro e r e' hsz hun hcard h
    have hatt := LogsUpTo_attempt hlevel ord v e
    have hc2 : (unassigned cg.nvars (attempt ord level v e).vars).card + 1 ≤ U := by
      have := card_unassigned_attempt ord level e hv hun
      omega
    have hsz2 := Sized_attempt ord level v e hsz
    rcases loopDFS_cases h with ⟨_, _, rfl⟩ | ⟨_, e3, h1 | h1 | h1⟩
    · exact LogsUpTo_refl H _
    · obtain ⟨hdesc, _, rfl⟩ := h1
      exact LogsUpTo_trans hatt (descendDFS_depth hlog hsz2 hc2 hdesc)
    · obtain ⟨hdesc, _, _, rfl⟩ := h1
      obtain ⟨_, _, heq, _, _⟩ := loopDFS_step domain hself hsz hdesc
      have h3 := LogsUpTo_trans hatt (descendDFS_depth hlog hsz2 hc2 hdesc)
      rw [heq]
      exact h3
    · obtain ⟨hdesc, hflag, hrest⟩ := h1
      obtain ⟨_, _, heq, hv4, _⟩ := loopDFS_step domain hself hsz hdesc
      have h3 := LogsUpTo_trans hatt (descendDFS_depth hlog hsz2 hc2 hdesc)
      have h4 : LogsUpTo H e (retireDFS v domain e3).1 := by
        rw [heq]
        exact h3
      refine LogsUpTo_trans h4 (ih _ r e' (Sized_retireDFS domain hself hsz hun hdesc hflag)
        (by rw [hv4]) ?_ hrest)
      rw [unassigned_congr (fun u => is_assigned_of_current
        (current_retireDFS domain hself hsz hun hdesc u))]
      exact hcard

/-- The events that an invocation of `SolveDFS` at `level` logs are no deeper
than `level` plus the number of variables unassigned on entry. -/
theorem SolveDFS_depth (ord : ValueOrder) (cg : ConstraintGraph) :
    ∀ (fuel level : Nat) (e : Engine) (r : Bool) (e' : Engine), Sized cg.nvars e.vars →
      SolveDFS ord cg fuel level e = some (r, e') →
      LogsUpTo (level + (unassigned cg.nvars e.vars).card) e e' := by
  intro fuel
  induction fuel with
  | zero => intro level e r e' _ h; cases h
  | succ fuel ih =>
    intro level e r e' hsz h
    rw [SolveDFS_succ] at h
    split at h
    · cases h
      exact ⟨[Event.call level], rfl, fun ev hev => by
        rw [List.mem_singleton] at hev
        rw [hev]
        exact Nat.le_add_right _ _⟩
    · next hall =>
      have hall2 : cg.AllVariablesAssigned e.vars = false := by simpa using hall
      obtain ⟨hv, hun⟩ := MinRemVal_unassigned cg e.vars hsz hall2
      refine LogsUpTo_trans (LogsUpTo_enter (Nat.le_add_right _ _) e)
        (loopDFS_depth (U := (unassigned cg.nvars e.vars).card)
          (SolveDFS_post ord cg fuel (level + 1))
          (fun e2 r2 e2' h1 h2 h3 => LogsUpTo_mono (by omega) (ih (level + 1) e2 r2 e2' h1 h3))
          hv (Nat.le_add_right _ _) fuel (enter level e) r e' hsz hun (le_refl _) h)

theorem loopFC_depth {ord : ValueOrder} {cg : ConstraintGraph} {U H : Nat}
    {self : Engine → Option (Bool × Engine)} {level v : Nat} (e0 : Vars)
    (hself : ∀ e r e', Sized cg.nvars e.vars → self e = some (r, e') →
      PostFC cg e.vars r e'.vars)
    (hlog : ∀ e r e', Sized cg.nvars e.vars → (unassigned cg.nvars e.vars).card + 1 ≤ U →
      self e = some (r, e') → LogsUpTo H e e')
    (hv : v < cg.nvars) (hlevel : level ≤ H) :
    ∀ (fuel : Nat) (e : Engine) (r : Bool) (e' : Engine), Sized cg.nvars e.vars →
      (e.vars v).is_assigned = false → RestoredBut cg.nvars v e0 e.vars →
      (unassigned cg.nvars e.vars).card ≤ U →
      loopFC ord cg self level v (SaveState cg e0 v) fuel 0 e = some (r, e') →
      LogsUpTo H e e' := by
  intro fuel
  induction fuel with
  | zero => intro e r e' _ _ _ _ h; cases h
  | succ fuel ih =>
    intro e r e' hsz hun hinv hcard h
    have hatt := LogsUpTo_attempt hlevel ord v e
    have hc2 : (unassigned cg.nvars (attempt ord level v e).vars).card + 1 ≤ U := by
      have := card_unassigned_attempt ord level e hv hun
      omega
    have hsz2 := Sized_attempt ord level v e hsz
    rcases loopFC_cases h with ⟨_, _, rfl⟩ | ⟨_, e3, h1 | h1 | h1⟩
    · exact LogsUpTo_refl H _
    · obtain ⟨hdesc, _, rfl⟩ := h1
      exact LogsUpTo_trans hatt (descendFC_depth hlog hsz2 hc2 hdesc)
    · obtain ⟨hdesc, _, _, rfl⟩ := h1
      obtain ⟨_, _, heq, _, _⟩ := loopFC_step e0 hself hsz hinv hdesc
      have h3 := LogsUpTo_trans hatt (descendFC_depth hlog hsz2 hc2 hdesc)
      rw [heq]
      exact h3
    · obtain ⟨hdesc, hflag, hrest⟩ := h1
      obtain ⟨_, _, heq, hv4, hrb⟩ := loopFC_step e0 hself hsz hinv hdesc
      have h3 := LogsUpTo_trans hatt (descendFC_depth hlog hsz2 hc2 hdesc)
      have h4 : LogsUpTo H e (retireFC v (SaveState cg e0 v) e3).1 := by
        rw [heq]
        exact h3
      have hun4 : ((retireFC v (SaveState cg e0 v) e3).1.vars v).is_assigned = false := by
        rw [hv4]
      have hlen4 : ((retireFC v (SaveState cg e0 v) e3).1.vars v).domain.length ≤
          (e.vars v).domain.length := by
        rw [hv4]
        exact List.length_filter_le _ _
      refine LogsUpTo_trans h4 (ih _ r e' (Sized_of_RestoredBut hrb hsz hun hlen4) hun4
        (RestoredBut_trans hinv hrb) ?_ hrest)
      rw [unassigned_congr (fun u => is_assigned_of_current
        (RestoredBut_current hrb hun hun4 u))]
      exact hcard

/-- The events that an invocation of `SolveFC` at `level` logs are no deeper
than `level` plus the number of variables unassigned on entry. -/
theorem SolveFC_depth (ord : ValueOrder) (cg : ConstraintGraph) :
    ∀ (fuel level : Nat) (e : Engine) (r : Bool) (e' : Engine), Sized cg.nvars e.vars →
      SolveFC ord cg fuel level e = some (r, e') →
      LogsUpTo (level + (unassigned cg.nvars e.vars).card) e e' := by
  intro fuel
  induction fuel with
  | zero => intro level e r e' _ h; cases h
  | succ fuel ih =>
    intro level e r e' hsz h
    rw [SolveFC_succ] at h
    split at h
    · cases h
      exact ⟨[Event.call level], rfl, fun ev hev => by
        rw [List.mem_singleton] at hev
        rw [hev]
        exact Nat.le_add_right _ _⟩
    · next hall =>
      have hall2 : cg.AllVariablesAssigned e.vars = false := by simpa using hall
      obtain ⟨hv, hun⟩ := MinRemVal_unassigned cg e.vars hsz hall2
      refine LogsUpTo_trans (LogsUpTo_enter (Nat.le_add_right _ _) e)
        (loopFC_depth (U := (unassigned cg.nvars e.vars).card) e.vars
          (SolveFC_post ord cg fuel (level + 1))
          (fun e2 r2 e2' h1 h2 h3 => LogsUpTo_mono (by omega) (ih (level + 1) e2 r2 e2' h1 h3))
          hv (Nat.le_add_right _ _) fuel (enter level e) r e' hsz hun
          (RestoredBut_refl _ _ _) (le_refl _) h)

/-- C17: from a state whose domain sizes fit an `int`, the top-level
`SolveDFS(0)` and `SolveFC(0)` return once the fuel covers the number of
unassigned variables plus the largest domain plus one, and the level of every
invocation and of every value attempt they log is at most the number of
variables unassigned at the start. -/
theorem termination_and_bounded_depth (ord : ValueOrder) (cg : ConstraintGraph) (s : Vars)
    (fuel : Nat) (hsz : Sized cg.nvars s)
    (hfuel : (unassigned cg.nvars s).card + maxDomain cg.nvars s + 1 ≤ fuel) :
    (∃ r e', SolveDFS ord cg fuel 0 (Engine.init s) = some (r, e') ∧
      (∀ l, Event.call l ∈ e'.log → l ≤ (unassigned cg.nvars s).card) ∧
      ∀ l v a, Event.attempt l v a ∈ e'.log → l ≤ (unassigned cg.nvars s).card) ∧
    (∃ r e', SolveFC ord cg fuel 0 (Engine.init s) = some (r, e') ∧
      (∀ l, Event.call l ∈ e'.log → l ≤ (unassigned cg.nvars s).card) ∧
      ∀ l v a, Event.attempt l v a ∈ e'.log → l ≤ (unassigned cg.nvars s).card) := by
  constructor
  · obtain ⟨r, e', hrun⟩ := SolveDFS_terminates ord cg (maxDomain cg.nvars s) fuel 0
      (Engine.init s) hsz (Bounded_maxDomain _ _) hfuel
    obtain ⟨evs, hlog, hlev⟩ := SolveDFS_depth ord cg fuel 0 (Engine.init s) r e' hsz hrun
    have hlog2 : e'.log = evs := by rw [hlog]; exact List.append_nil _
    refine ⟨r, e', hrun, fun l hl => ?_, fun l v a hl => ?_⟩
    · rw [hlog2] at hl
      have := hlev _ hl
      simpa [Event.level] using this
    · rw [hlog2] at hl
      have := hlev _ hl
      simpa [Event.level] using this
  · obtain ⟨r, e', hrun⟩ := SolveFC_terminates ord cg (maxDomain cg.nvars s) fuel 0
      (Engine.init s) hsz (Bounded_maxDomain _ _) hfuel
    obtain ⟨evs, hlog, hlev⟩ := SolveFC_depth ord cg fuel 0 (Engine.init s) r e' hsz hrun
    have hlog2 : e'.log = evs := by rw [hlog]; exact List.append_nil _
    refine ⟨r, e', hrun, fun l hl => ?_, fun l v a hl => ?_⟩
    · rw [hlog2] at hl
      have := hlev _ hl
      simpa [Event.level] using this
    · rw [hlog2] at hl
      have := hlev _ hl
      simpa [Event.level] using this

theorem termination_and_bounded_depth_witness :
    (∃ r e', SolveDFS firstValue triangle 7 0 (Engine.init (freshVars fun _ => [1, 2, 3])) =
        some (r, e') ∧
      (∀ l, Event.call l ∈ e'.log → l ≤ 3) ∧
      ∀ l v a, Event.attempt l v a ∈ e'.log → l ≤ 3) ∧
    (∃ r e', SolveFC firstValue triangle 7 0 (Engine.init (freshVars fun _ => [1, 2, 3])) =
        some (r, e') ∧
      (∀ l, Event.call l ∈ e'.log → l ≤ 3) ∧
      ∀ l v a, Event.attempt l v a ∈ e'.log → l ≤ 3) :=
  termination_and_bounded_depth firstValue triangle (freshVars fun _ => [1, 2, 3]) 7
    (by unfold Sized; decide) (by decide)

/-! ## The capabilities are used within their preconditions -/

theorem NodupDomains_attempt {n : Nat} (ord : ValueOrder) (level v : Nat) (e : Engine)
    (h : NodupDomains n e.vars) : NodupDomains n (attempt ord level v e).vars := by
  intro u hu hua
  by_cases huv : u = v
  · subst huv
    rw [attempt_vars_self] at hua
    cases hua
  · rw [attempt_vars_other ord level e huv] at hua ⊢
    exact h u hu hua

theorem NodupDomains_of_shrink {n : Nat} {s t : Vars} (hf : Frame n s t)
    (hsh : ∀ u, (s u).is_assigned = false → (t u).is_assigned = false ∧
      (t u).domain.Sublist (s u).domain) (hnd : NodupDomains n s) : NodupDomains n t := by
  intro u hu hua
  cases hsu : (s u).is_assigned with
  | true => rw [hf u (Or.inl hsu), hsu] at hua; cases hua
  | false => exact (hnd u hu hsu).sublist (hsh u hsu).2

theorem NodupDomains_of_RestoredBut {n v : Nat} {s t : Vars} (h : RestoredBut n v s t)
    (hnd : NodupDomains n s) (hv : (t v).domain.Nodup) : NodupDomains n t := by
  intro u hu hua
  by_cases huv : u = v
  · subst huv
    exact hv
  · cases hsu : (s u).is_assigned with
    | true => rw [(h u huv).1 (Or.inl hsu), hsu] at hua; cases hua
    | false =>
      rw [((h u huv).2 hsu).2]
      exact hnd u hu hsu

theorem checkedMinRemVal_eq (cg : ConstraintGraph) (s : Vars) (hsz : Sized cg.nvars s)
    (hall : cg.AllVariablesAssigned s = false) :
    checkedMinRemVal cg s = Except.ok (MinRemVal cg s) := by
  obtain ⟨hv, hun⟩ := MinRemVal_unassigned cg s hsz hall
  have hne : cg.GetAllVariables.isEmpty = false := by
    unfold ConstraintGraph.GetAllVariables
    cases hn : cg.nvars with
    | zero => omega
    | succ k => simp [List.range_succ]
  unfold checkedMinRemVal
  rw [hne, hall]
  simp only [Bool.false_eq_true, if_false, Variable.IsAssigned, hun]

theorem checkedAttempt_eq (ord : ValueOrder) (level v : Nat) (e : Engine)
    (hun : (e.vars v).is_assigned = false) (hd : (e.vars v).domain ≠ []) :
    checkedAttempt ord level v e = Except.ok (attempt ord level v e) := by
  unfold checkedAttempt
  have : (e.vars v).GetDomain.isEmpty = false := by
    unfold Variable.GetDomain
    cases h : (e.vars v).domain with
    | nil => exact absurd h hd
    | cons a t => rfl
  rw [this]
  simp only [Variable.IsAssigned, hun, Bool.false_eq_true, if_false]

theorem checkedFcValues_cons (c : Constraint) (n : Nat) (d : Value) (rest : List Value)
    (s : Vars) (hd : d ∈ (s n).domain) :
    checkedFcValues c n (d :: rest) s = checkedFcValues c n rest
      (setVar s n ⟨if c.Satisfiable (tentative s n d) then (s n).domain
        else (s n).domain.filter (fun a => a != d), false, d⟩) := by
  rw [checkedFcValues]
  have hc : (s n).GetDomain.contains d = true := by
    unfold Variable.GetDomain
    simpa using hd
  rw [if_pos hc]
  cases hsat : c.Satisfiable (tentative s n d)
  · have hsat2 : c.Satisfiable (setVar s n ((s n).AssignValue d)) = false := hsat
    simp only [hsat2, Bool.not_false, if_true, setVar_same, setVar_setVar, Bool.false_eq_true,
      if_false]
    rfl
  · have hsat2 : c.Satisfiable (setVar s n ((s n).AssignValue d)) = true := hsat
    simp only [hsat2, Bool.not_true, Bool.false_eq_true, if_false, setVar_same, setVar_setVar,
      if_true]
    rfl

/-- Over a duplicate-free copy of values of the current domain, every
`Assign(d)` of the innermost loop finds `d` in the domain. -/
theorem checkedFcValues_eq (c : Constraint) (n : Nat) :
    ∀ (dom : List Value) (s : Vars), dom.Nodup → (∀ d ∈ dom, d ∈ (s n).domain) →
      checkedFcValues c n dom s = Except.ok (fcValues c n dom s) := by
  intro dom
  induction dom with
  | nil => intro s _ _; rfl
  | cons d rest ih =>
    intro s hnd hmem
    rw [checkedFcValues_cons c n d rest s (hmem d (List.mem_cons_self _ _)), fcValues_cons]
    apply ih _ (List.nodup_cons.mp hnd).2
    intro a ha
    rw [setVar_same]
    have had : a ≠ d := fun h => (List.nodup_cons.mp hnd).1 (h ▸ ha)
    have ha2 := hmem a (List.mem_cons_of_mem _ ha)
    show a ∈ (if c.Satisfiable (tentative s n d) then (s n).domain
        else (s n).domain.filter (fun a => a != d))
    split
    · exact ha2
    · exact List.mem_filter.mpr ⟨ha2, by simpa using had⟩

theorem checkedFcConstraints_eq (n : Nat) :
    ∀ (cs : List Constraint) (s : Vars), (s n).is_assigned = false → (s n).domain.Nodup →
      checkedFcConstraints n cs s = Except.ok (fcConstraints n cs s) := by
  intro cs
  induction cs with
  | nil => intro s _ _; rfl
  | cons c rest ih =>
    intro s hs hnd
    obtain ⟨_, h2, h3⟩ := fcValues_spec c n (s n).domain s hs
    have hnd2 : (fcValues c n (s n).domain s n).domain.Nodup := by
      rw [h3]
      exact hnd.filter _
    rw [checkedFcConstraints, fcConstraints]
    simp only [Variable.GetDomain]
    rw [checkedFcValues_eq c n (s n).domain s hnd (fun d hd => hd)]
    simp only
    split
    · rfl
    · exact ih _ h2 hnd2

theorem checkedFcNeighbors_eq (cg : ConstraintGraph) (x : Nat) :
    ∀ (ns : List Nat) (s : Vars), (∀ u ∈ ns, u < cg.nvars) → NodupDomains cg.nvars s →
      checkedFcNeighbors cg x ns s = Except.ok (fcNeighbors cg x ns s) := by
  intro ns
  induction ns with
  | nil => intro s _ _; rfl
  | cons n rest ih =>
    intro s hns hnd
    have hrest : ∀ u ∈ rest, u < cg.nvars := fun u hu => hns u (List.mem_cons_of_mem _ hu)
    rw [checkedFcNeighbors, fcNeighbors]
    by_cases hn : (s n).IsAssigned = true
    · rw [if_pos hn, if_pos hn]
      exact ih s hrest hnd
    · rw [if_neg hn, if_neg hn]
      have hn2 : (s n).is_assigned = false := by simpa [Variable.IsAssigned] using hn
      have hlt := hns n (List.mem_cons_self _ _)
      rw [checkedFcConstraints_eq n _ s hn2 (hnd n hlt hn2)]
      obtain ⟨c1, c2, _⟩ := fcConstraints_spec n (cg.GetConnectingConstraints x n) s hn2
      have c3 := fcConstraints_sublist n (cg.GetConnectingConstraints x n) s hn2
      have hnd2 : NodupDomains cg.nvars (fcConstraints n (cg.GetConnectingConstraints x n) s).2 := by
        intro u hu hua
        by_cases hun : u = n
        · subst hun
          exact (hnd u hu hn2).sublist c3
        · rw [c1 u hun] at hua ⊢
          exact hnd u hu hua
      cases hres : fcConstraints n (cg.GetConnectingConstraints x n) s with
      | mk b t =>
        rw [hres] at hnd2
        cases b with
        | false => rfl
        | true => exact ih t hrest hnd2

theorem checkedForwardChecking_eq (cg : ConstraintGraph) (s : Vars) (x : Nat)
    (hnd : NodupDomains cg.nvars s) :
    checkedForwardChecking cg s x = Except.ok (ForwardChecking cg s x) :=
  checkedFcNeighbors_eq cg x _ s (GetNeighbors_lt cg x) hnd

theorem checkedLoopDFS_succ (ord : ValueOrder) (cg : ConstraintGraph)
    (self : Engine → Option (Except Fault (Bool × Engine))) (level v : Nat)
    (domain : List Value) (fuel : Nat) (e : Engine) :
    checkedLoopDFS ord cg self level v domain (fuel + 1) 0 e =
      if 0 < (e.vars v).SizeDomain then
        match checkedAttempt ord level v e with
        | Except.error f => some (Except.error f)
        | Except.ok e2 =>
          match checkedDescendDFS cg self v e2 with
          | none => none
          | some (Except.error f) => some (Except.error f)
          | some (Except.ok (true, e3)) => some (Except.ok (true, e3))
          | some (Except.ok (false, e3)) =>
            match retireDFS v domain e3 with
            | (e4, true) => some (Except.ok (false, e4))
            | (e4, false) => checkedLoopDFS ord cg self level v domain fuel 0 e4
      else some (Except.ok (false, e)) := rfl

theorem checkedLoopFC_succ (ord : ValueOrder) (cg : ConstraintGraph)
    (self : Engine → Option (Except Fault (Bool × Engine))) (level v : Nat)
    (state : List (Nat × List Value)) (fuel : Nat) (e : Engine) :
    checkedLoopFC ord cg self level v state (fuel + 1) 0 e =
      if 0 < (e.vars v).SizeDomain then
        match checkedAttempt ord level v e with
        | Except.error f => some (Except.error f)
        | Except.ok e2 =>
          match checkedDescendFC cg self v e2 with
          | none => none
          | some (Except.error f) => some (Except.error f)
          | some (Except.ok (true, e3)) => some (Except.ok (true, e3))
          | some (Except.ok (false, e3)) =>
            match retireFC v state e3 with
            | (e4, true) => some (Except.ok (false, e4))
            | (e4, false) => checkedLoopFC ord cg self level v state fuel 0 e4
      else some (Except.ok (false, e)) := rfl

theorem checkedDescendDFS_eq {cg : ConstraintGraph}
    {self : Engine → Option (Bool × Engine)}
    {selfC : Engine → Option (Except Fault (Bool × Engine))} (v : Nat) (e : Engine)
    (hC : selfC e = (self e).map Except.ok) :
    checkedDescendDFS cg selfC v e = (descendDFS cg self v e).map Except.ok := by
  unfold checkedDescendDFS descendDFS
  split
  · exact hC
  · rfl

theorem checkedDescendFC_eq {cg : ConstraintGraph}
    {self : Engine → Option (Bool × Engine)}
    {selfC : Engine → Option (Except Fault (Bool × Engine))} (v : Nat) (e : Engine)
    (hnd : NodupDomains cg.nvars e.vars)
    (hC : selfC { e with vars := (ForwardChecking cg e.vars v).2 } =
      (self { e with vars := (ForwardChecking cg e.vars v).2 }).map Except.ok) :
    checkedDescendFC cg selfC v e = (descendFC cg self v e).map Except.ok := by
  unfold checkedDescendFC descendFC
  split
  · rw [checkedForwardChecking_eq cg e.vars v hnd]
    cases hres : ForwardChecking cg e.vars v with
    | mk b t =>
      rw [hres] at hC
      cases b with
      | false => rfl
      | true => exact hC
  · rfl

theorem checkedLoopDFS_eq {ord : ValueOrder} {cg : ConstraintGraph}
    {self : Engine → Option (Bool × Engine)}
    {selfC : Engine → Option (Except Fault (Bool × Engine))}
    {level v : Nat} {domain : List Value}
    (hself : ∀ e r e', Sized cg.nvars e.vars → self e = some (r, e') →
      PostDFS cg.nvars e.vars r e'.vars)
    (hC : ∀ e, Sized cg.nvars e.vars → selfC e = (self e).map Except.ok) :
    ∀ (fuel : Nat) (e : Engine), Sized cg.nvars e.vars → (e.vars v).is_assigned = false →
      checkedLoopDFS ord cg selfC level v domain fuel 0 e =
        (loopDFS ord cg self level v domain fuel 0 e).map Except.ok := by
  intro fuel
  induction fuel with
  | zero => intro e _ _; rfl
  | succ fuel ih =>
    intro e hsz hun
    rw [checkedLoopDFS_succ, loopDFS_succ]
    by_cases hpos : 0 < (e.vars v).SizeDomain
    · rw [if_pos hpos, if_pos hpos]
      have hd : (e.vars v).domain ≠ [] := by
        intro h
        simp [Variable.SizeDomain, h] at hpos
      rw [checkedAttempt_eq ord level v e hun hd]
      simp only
      rw [checkedDescendDFS_eq v _ (hC _ (Sized_attempt ord level v e hsz))]
      cases hdesc : descendDFS cg self v (attempt ord level v e) with
      | none => rfl
      | some p =>
        obtain ⟨r, e3⟩ := p
        cases r with
        | true => rfl
        | false =>
          simp only [Option.map_some']
          cases hret : retireDFS v domain e3 with
          | mk e4 flag =>
            cases flag with
            | true => rfl
            | false =>
              simp only
              have hflag : (retireDFS v domain e3).2 = false := by rw [hret]
              have he4 : e4 = (retireDFS v domain e3).1 := by rw [hret]
              obtain ⟨_, _, _, hv4, _⟩ := loopDFS_step domain hself hsz hdesc
              rw [he4]
              exact ih _ (Sized_retireDFS domain hself hsz hun hdesc hflag) (by rw [hv4])
    · rw [if_neg hpos, if_neg hpos]
      rfl

theorem checkedSolveDFS_succ (ord : ValueOrder) (cg : ConstraintGraph) (fuel level : Nat)
    (e : Engine) :
    checkedSolveDFS ord cg (fuel + 1) level e =
      if cg.AllVariablesAssigned e.vars then
        some (Except.ok (true, { enter level e with solution_counter := e.solution_counter + 1 }))
      else
        match checkedMinRemVal cg e.vars with
        | Except.error f => some (Except.error f)
        | Except.ok v =>
          checkedLoopDFS ord cg (checkedSolveDFS ord cg fuel (level + 1)) level v
            (e.vars v).domain fuel 0 (enter level e) := rfl

/-- The checked `SolveDFS` never faults: it is `SolveDFS`. -/
theorem checkedSolveDFS_eq (ord : ValueOrder) (cg : ConstraintGraph) :
    ∀ (fuel level : Nat) (e : Engine), Sized cg.nvars e.vars →
      checkedSolveDFS ord cg fuel level e = (SolveDFS ord cg fuel level e).map Except.ok := by
  intro fuel
  induction fuel with
  | zero => intro level e _; rfl
  | succ fuel ih =>
    intro level e hsz
    rw [SolveDFS_succ, checkedSolveDFS_succ]
    by_cases hall : cg.AllVariablesAssigned e.vars = true
    · rw [if_pos hall, if_pos hall]
      rfl
    · rw [if_neg hall, if_neg hall]
      have hall2 : cg.AllVariablesAssigned e.vars = false := by simpa using hall
      obtain ⟨_, hun⟩ := MinRemVal_unassigned cg e.vars hsz hall2
      rw [checkedMinRemVal_eq cg e.vars hsz hall2]
      exact checkedLoopDFS_eq (SolveDFS_post ord cg fuel (level + 1))
        (fun e2 h2 => ih (level + 1) e2 h2) fuel (enter level e) hsz hun

theorem checkedLoopFC_eq {ord : ValueOrder} {cg : ConstraintGraph}
    {self : Engine → Option (Bool × Engine)}
    {selfC : Engine → Option (Except Fault (Bool × Engine))}
    {level v : Nat} (e0 : Vars)
    (hself : ∀ e r e', Sized cg.nvars e.vars → self e = some (r, e') →
      PostFC cg e.vars r e'.vars)
    (hC : ∀ e, Sized cg.nvars e.vars → NodupDomains cg.nvars e.vars →
      selfC e = (self e).map Except.ok) :
    ∀ (fuel : Nat) (e : Engine), Sized cg.nvars e.vars → NodupDomains cg.nvars e.vars →
      (e.vars v).is_assigned = false → (e.vars v).domain.Nodup →
      RestoredBut cg.nvars v e0 e.vars →
      checkedLoopFC ord cg selfC level v (SaveState cg e0 v) fuel 0 e =
        (loopFC ord cg self level v (SaveState cg e0 v) fuel 0 e).map Except.ok := by
  intro fuel
  induction fuel with
  | zero => intro e _ _ _ _ _; rfl
  | succ fuel ih =>
    intro e hsz hnd hun hvn hinv
    rw [checkedLoopFC_succ, loopFC_succ]
    by_cases hpos : 0 < (e.vars v).SizeDomain
    · rw [if_pos hpos, if_pos hpos]
      have hd : (e.vars v).domain ≠ [] := by
        intro h
        simp [Variable.SizeDomain, h] at hpos
      rw [checkedAttempt_eq ord level v e hun hd]
      simp only
      obtain ⟨f1, f2, f3⟩ := ForwardChecking_spec cg (attempt ord level v e).vars v
      have hnd2 := NodupDomains_attempt ord level v e hnd
      rw [checkedDescendFC_eq v _ hnd2
        (hC _ (Sized_of_shrink f1 f2 (Sized_attempt ord level v e hsz))
          (NodupDomains_of_shrink f1 f2 hnd2))]
      cases hdesc : descendFC cg self v (attempt ord level v e) with
      | none => rfl
      | some p =>
        obtain ⟨r, e3⟩ := p
        cases r with
        | true => rfl
        | false =>
          simp only [Option.map_some']
          cases hret : retireFC v (SaveState cg e0 v) e3 with
          | mk e4 flag =>
            cases flag with
            | true => rfl
            | false =>
              simp only
              have he4 : e4 = (retireFC v (SaveState cg e0 v) e3).1 := by rw [hret]
              obtain ⟨_, _, _, hv4, hrb⟩ := loopFC_step e0 hself hsz hinv hdesc
              have hun4 : ((retireFC v (SaveState cg e0 v) e3).1.vars v).is_assigned = false := by
                rw [hv4]
              have hlen4 : ((retireFC v (SaveState cg e0 v) e3).1.vars v).domain.length ≤
                  (e.vars v).domain.length := by
                rw [hv4]
                exact List.length_filter_le _ _
              have hvn4 : ((retireFC v (SaveState cg e0 v) e3).1.vars v).domain.Nodup := by
                rw [hv4]
                exact hvn.filter _
              rw [he4]
              exact ih _ (Sized_of_RestoredBut hrb hsz hun hlen4)
                (NodupDomains_of_RestoredBut hrb hnd hvn4) hun4 hvn4
                (RestoredBut_trans hinv hrb)
    · rw [if_neg hpos, if_neg hpos]
      rfl

theorem checkedSolveFC_succ (ord : ValueOrder) (cg : ConstraintGraph) (fuel level : Nat)
    (e : Engine) :
    checkedSolveFC ord cg (fuel + 1) level e =
      if cg.AllVariablesAssigned e.vars then
        some (Except.ok (true, { enter level e with solution_counter := e.solution_counter + 1 }))
      else
        match checkedMinRemVal cg e.vars with
        | Except.error f => some (Except.error f)
        | Except.ok v =>
          checkedLoopFC ord cg (checkedSolveFC ord cg fuel (level + 1)) level v
            (SaveState cg e.vars v) fuel 0 (enter level e) := rfl

/-- The checked `SolveFC` never faults: it is `SolveFC`. -/
theorem checkedSolveFC_eq (ord : ValueOrder) (cg : ConstraintGraph) :
    ∀ (fuel level : Nat) (e : Engine), Sized cg.nvars e.vars → NodupDomains cg.nvars e.vars →
      checkedSolveFC ord cg fuel level e = (SolveFC ord cg fuel level e).map Except.ok := by
  intro fuel
  induction fuel with
  | zero => intro level e _ _; rfl
  | succ fuel ih =>
    intro level e hsz hnd
    rw [SolveFC_succ, checkedSolveFC_succ]
    by_cases hall : cg.AllVariablesAssigned e.vars = true
    · rw [if_pos hall, if_pos hall]
      rfl
    · rw [if_neg hall, if_neg hall]
      have hall2 : cg.AllVariablesAssigned e.vars = false := by simpa using hall
      obtain ⟨hv, hun⟩ := MinRemVal_unassigned cg e.vars hsz hall2
      rw [checkedMinRemVal_eq cg e.vars hsz hall2]
      exact checkedLoopFC_eq e.vars (SolveFC_post ord cg fuel (level + 1))
        (fun e2 h2 h3 => ih (level + 1) e2 h2 h3) fuel (enter level e) hsz hnd hun
        (hnd _ hv hun) (RestoredBut_refl _ _ _)

/-- The check of `MinRemVal` is not idle: on the graph without variables the
call would dereference the empty list. -/
theorem checkedMinRemVal_emptyGraph (s : Vars) :
    checkedMinRemVal emptyGraph s = Except.error Fault.emptyVariableList := rfl

/-- The check of `Assign(d)` is not idle: over a list that holds a value
twice, the second `Assign(d)` comes after `d` has been removed. -/
theorem checkedFcValues_duplicate :
    checkedFcValues (Constraint.mk [0] (fun _ => false)) 0 [1, 1] (freshVars fun _ => [1, 1]) =
      Except.error Fault.assignOutside := rfl

/-- On the graph without variables the checked solvers return `true` without
reaching `MinRemVal`. -/
theorem checked_solvers_emptyGraph (ord : ValueOrder) (fuel level : Nat) (e : Engine) :
    checkedSolveDFS ord emptyGraph (fuel + 1) level e =
      some (Except.ok (true, { enter level e with solution_counter := e.solution_counter + 1 })) ∧
    checkedSolveFC ord emptyGraph (fuel + 1) level e =
      some (Except.ok (true, { enter level e with solution_counter := e.solution_counter + 1 })) :=
  ⟨rfl, rfl⟩

/-- C18: from a state whose domains hold no value twice and fit an `int`,
the solvers with every use of `MinRemVal`, `Assign()` and the `Assign(d)` of
`ForwardChecking` checked against its precondition run exactly as `SolveDFS`
and `SolveFC` do, so no run reaches a fault: `MinRemVal` is called with some
variable unassigned and returns an unassigned variable, `Assign()` meets an
unassigned variable with a value left, and `Assign(d)` a value of the current
domain. -/
theorem capabilities_used_safely (ord : ValueOrder) (cg : ConstraintGraph) (fuel level : Nat)
    (e : Engine) (hsz : Sized cg.nvars e.vars) (hnd : NodupDomains cg.nvars e.vars) :
    checkedSolveDFS ord cg fuel level e = (SolveDFS ord cg fuel level e).map Except.ok ∧
    checkedSolveFC ord cg fuel level e = (SolveFC ord cg fuel level e).map Except.ok ∧
    (∀ f, checkedSolveDFS ord cg fuel level e ≠ some (Except.error f)) ∧
    (∀ f, checkedSolveFC ord cg fuel level e ≠ some (Except.error f)) := by
  have h1 := checkedSolveDFS_eq ord cg fuel level e hsz
  have h2 := checkedSolveFC_eq ord cg fuel level e hsz hnd
  refine ⟨h1, h2, fun f hf => ?_, fun f hf => ?_⟩
  · rw [h1] at hf
    cases h : SolveDFS ord cg fuel level e with
    | none => rw [h] at hf; cases hf
    | some p => rw [h] at hf; cases hf
  · rw [h2] at hf
    cases h : SolveFC ord cg fuel level e with
    | none => rw [h] at hf; cases hf
    | some p => rw [h] at hf; cases hf

theorem capabilities_used_safely_witness :
    (checkedSolveDFS firstValue triangle 7 0 (Engine.init (freshVars fun _ => [1, 2, 3])) =
      (SolveDFS firstValue triangle 7 0 (Engine.init (freshVars fun _ => [1, 2, 3]))).map
        Except.ok ∧
    checkedSolveFC firstValue triangle 7 0 (Engine.init (freshVars fun _ => [1, 2, 3])) =
      (SolveFC firstValue triangle 7 0 (Engine.init (freshVars fun _ => [1, 2, 3]))).map
        Except.ok ∧
    (∀ f, checkedSolveDFS firstValue triangle 7 0 (Engine.init (freshVars fun _ => [1, 2, 3])) ≠
      some (Except.error f)) ∧
    (∀ f, checkedSolveFC firstValue triangle 7 0 (Engine.init (freshVars fun _ => [1, 2, 3])) ≠
      some (Except.error f))) ∧
    (∃ e', SolveFC firstValue triangle 7 0 (Engine.init (freshVars fun _ => [1, 2, 3])) =
      some (true, e')) :=
  ⟨capabilities_used_safely firstValue triangle 7 0 (Engine.init (freshVars fun _ => [1, 2, 3]))
    (by unfold Sized; decide) (by unfold NodupDomains; decide),
   result_of_outcome _ true (by decide!)⟩

end CSP
